import Mathlib

/-!
# Fitness metrics and operator table of the symbolic-regression core

Shallow embedding of the fitness metrics (`include/fitness.h`) and of the
operator table with `evaluate_node` (`src/node_detail.h`) in exact arithmetic
over an ordered field `α` (`α = ℝ` with `Real.sqrt`, `Real.exp` and `Real.log`
in the theorems, `α = ℚ` for evaluation).

Conventions of the embedding.

* A value of the arithmetic type is a `math_t α`: a number `val x`, or
  `undefined`, the result of a division by zero or of a square root of a negative number
  (NaN or an infinity in floating point), which every operation passes on.
* A pointer argument (`Y`, `X`, `Y_pred`, `W`) is a list over the element type
  `β` of the arrays: the numbers themselves (`β = α`, all values finite), or the
  floats `float_t α`, which add the two infinities and NaN.  The read `p[i]` is
  `rd p i`, a `math_t α`; an infinity or a NaN is read as `undefined` (a read
  past the end is undefined in the source and gives `0`).
* `d_progs` is the list of the `raw_fitness_` fields of the programs, passed in
  and returned; the other fields of a program are not touched by the metrics.
* The ranking steps of `weightedSpearman` use only comparison, subtraction and
  addition; they are carried out on the array elements themselves, with the
  comparison, difference and sum of floats where the elements are floats.
* The call `abs(x)` of `meanAbsoluteError` is the `int abs(int)` of `<cstdlib>`:
  the argument is truncated to a 32-bit `int`.
* A local `std::vector` indexed by `pid` (`x_mu`, `x_std`) or by
  `pid * n_samples + i` (`corr`, `error`), each cell of which is written by one
  loop and read by a later one, is the function of `pid` (and `i`) giving the
  cell's value.
* Library functions are parameters: `sqrt` for `std::sqrt`, `sort` for
  `std::sort` acting on `rank_idx` with the comparator it is given, `exp` and
  `log1p` for `expf` and `log1pf` in `logLoss`, and the record `libm` for the
  functions the operator table calls.
* The literals `-33.3`, `-18`, `37` and `0.001f` are the decimal numbers
  written; rounding of floats is not part of the embedding.
* A local read before it is written takes its value from a parameter: `y_mu0`
  for `y_mu` of `weightedPearson`.
* The loop over the programs of `weightedSpearman` is under
  `#pragma omp parallel for` and its threads share the buffers `rank_idx`,
  `Ysorted` and `rank_diff`: the order in which the threads execute the
  statements of the loop body is the parameter `sched`.  The iterations of the
  other loops under `#pragma omp parallel for` write cells of their own program
  only; they are run in program order.
-/

namespace genetic

variable {α : Type} [LinearOrderedField α]

/-! ## The arithmetic type -/

/-- A value of `math_t` in exact arithmetic: a number, or the undefined result
of a division by zero or of a square root of a negative number. -/
inductive math_t (α : Type) where
  | val : α → math_t α
  | undefined : math_t α

/-- Addition of `math_t` values. -/
def math_t.add : math_t α → math_t α → math_t α
  | .val x, .val y => .val (x + y)
  | _, _ => .undefined

/-- Subtraction of `math_t` values. -/
def math_t.sub : math_t α → math_t α → math_t α
  | .val x, .val y => .val (x - y)
  | _, _ => .undefined

/-- Multiplication of `math_t` values. -/
def math_t.mul : math_t α → math_t α → math_t α
  | .val x, .val y => .val (x * y)
  | _, _ => .undefined

/-- Division of `math_t` values; a division by zero is undefined. -/
def math_t.div : math_t α → math_t α → math_t α
  | .val x, .val y => if y = 0 then .undefined else .val (x / y)
  | _, _ => .undefined

/-- Square root of a `math_t` value through the library function `f`; the root
of a negative number is undefined. -/
def math_t.sqrt (f : α → α) : math_t α → math_t α
  | .val x => if x < 0 then .undefined else .val (f x)
  | .undefined => .undefined

/-- The least value of `int` (32 bits). -/
def INT_MIN : Int := -2147483648

/-- The greatest value of `int` (32 bits). -/
def INT_MAX : Int := 2147483647

/-- Truncation of a number toward zero. -/
def trunc [FloorRing α] (x : α) : Int := if 0 ≤ x then Int.floor x else Int.ceil x

/-- The conversion of a `math_t` value to `int`: the number truncated toward
zero.  Where the language leaves the conversion undefined (a value outside the
range of `int`, a NaN or an infinity) the result is the one the conversion
instruction of x86-64 gives, `INT_MIN`. -/
def math_t.toInt [FloorRing α] : math_t α → Int
  | .val x => if INT_MIN ≤ trunc x ∧ trunc x ≤ INT_MAX then trunc x else INT_MIN
  | .undefined => INT_MIN

/-- Model of `int abs(int)` of `<cstdlib>` on 32-bit integers: the magnitude,
wrapped into the range of `int`, so that `abs(INT_MIN)` is `INT_MIN`. -/
def abs_int (i : Int) : Int := (|i| + 2147483648) % 4294967296 - 2147483648

/-- The call `abs(x)` of `meanAbsoluteError`.  The header includes `<cmath>` and
`<cstdlib>` and calls `abs` unqualified from inside `namespace genetic`, so the
function called is `int abs(int)`: the argument is converted to `int` and the
`int` result is converted back in the product it enters. -/
def math_t.abs [FloorRing α] (x : math_t α) : math_t α :=
  math_t.val ((abs_int x.toInt : Int) : α)

instance : Add (math_t α) := ⟨math_t.add⟩

instance : Sub (math_t α) := ⟨math_t.sub⟩

instance : Mul (math_t α) := ⟨math_t.mul⟩

instance : Div (math_t α) := ⟨math_t.div⟩

/-! ## Array elements -/

/-- A value an array holds in floating point: a number, an infinity or a NaN. -/
inductive float_t (α : Type) where
  | val : α → float_t α
  | pinf : float_t α
  | ninf : float_t α
  | nan : float_t α
  deriving DecidableEq

/-- The comparison `a < b` of floats: false when an operand is a NaN. -/
def float_t.lt : float_t α → float_t α → Bool
  | .val a, .val b => decide (a < b)
  | .ninf, .val _ => true
  | .ninf, .pinf => true
  | .val _, .pinf => true
  | _, _ => false

/-- The difference `a - b` of floats; `inf - inf` is a NaN. -/
def float_t.sub : float_t α → float_t α → float_t α
  | .val a, .val b => .val (a - b)
  | .val _, .pinf => .ninf
  | .val _, .ninf => .pinf
  | .pinf, .val _ => .pinf
  | .pinf, .ninf => .pinf
  | .ninf, .val _ => .ninf
  | .ninf, .pinf => .ninf
  | _, _ => .nan

/-- The sum `a + b` of floats; `inf + (-inf)` is a NaN. -/
def float_t.add : float_t α → float_t α → float_t α
  | .val a, .val b => .val (a + b)
  | .val _, .pinf => .pinf
  | .val _, .ninf => .ninf
  | .pinf, .val _ => .pinf
  | .pinf, .pinf => .pinf
  | .ninf, .val _ => .ninf
  | .ninf, .ninf => .ninf
  | _, _ => .nan

instance : LT (float_t α) := ⟨fun a b => float_t.lt a b = true⟩

instance : DecidableRel (fun a b : float_t α => a < b) :=
  fun a b => inferInstanceAs (Decidable (float_t.lt a b = true))

instance : Sub (float_t α) := ⟨float_t.sub⟩

instance : Add (float_t α) := ⟨float_t.add⟩

instance : Zero (float_t α) := ⟨float_t.val 0⟩

instance : One (float_t α) := ⟨float_t.val 1⟩

/-- The element type `β` of the arrays `Y`, `X`, `W` (the template parameter of
the metrics), with the value of the arithmetic an element is read as.  The
elements are the numbers themselves (`β = α`), or floats (`β = float_t α`), of
which an infinity or a NaN is read as `undefined`. -/
class Scalar (α : outParam Type) (β : Type) where
  toMath : β → math_t α

@[default_instance]
instance (priority := low) : Scalar α α := ⟨math_t.val⟩

instance : Scalar α (float_t α) :=
  ⟨fun x => match x with
    | .val a => math_t.val a
    | _ => math_t.undefined⟩

/-- The read `p[i]` through a pointer `p`. -/
def rd {β : Type} [Scalar α β] [Zero β] (p : List β) (i : Nat) : math_t α :=
  Scalar.toMath (p.getD i 0)

/-! ## Loops -/

/-- The loop `for (i = 0; i < n; ++i) acc += term(i);` entered with `acc`. -/
def sumLoop (n : Nat) (term : Nat → math_t α) (acc : math_t α) : math_t α :=
  (List.range n).foldl (fun a i => a + term i) acc

/-- The loop `for (k = 0; k < n; ++k) buf[k] = g(k, buf[k]);` over a buffer. -/
def updateLoop {β : Type} (n : Nat) (g : Nat → Option β → β) (buf : List β) : List β :=
  (List.range n).foldl (fun b k => b.set k (g k b[k]?)) buf

/-- The loop `for (i = 0; i < n; ++i) out[off + idx[i]] = vals[i];`. -/
def scatterLoop {β : Type} [Zero β] (n off : Nat) (idx : List Nat) (vals out : List β) :
    List β :=
  (List.range n).foldl (fun o i => o.set (off + idx.getD i 0) (vals.getD i 0)) out

/-! ## Weighted Pearson correlation -/

/-- Model of `weightedPearson`.  `y_mu0` is the value the local `y_mu` holds on
entry: the source declares `math_t y_mu;` without an initialiser and then
accumulates into it with `y_mu += Y[i] * W[i]`. -/
def weightedPearson {β : Type} [Scalar α β] [Zero β] (sqrt : α → α) (y_mu0 : math_t α)
    (d_progs : List (math_t α)) (n_samples n_progs : Nat) (Y X W : List β) :
    List (math_t α) :=
  let N : math_t α := math_t.val (n_samples : α)
  let WS : math_t α := sumLoop n_samples (fun i => rd W i) (math_t.val 0)
  let y_mu : math_t α := sumLoop n_samples (fun i => rd Y i * rd W i) y_mu0 / WS
  let x_mu : Nat → math_t α := fun pid =>
    sumLoop n_samples (fun i => rd X (pid * n_samples + i) * rd W i) (math_t.val 0) / WS
  let y_std : math_t α :=
    math_t.sqrt sqrt (sumLoop n_samples
      (fun i => (rd Y i - y_mu) * (rd Y i - y_mu) * rd W i) (math_t.val 0))
  let x_std : Nat → math_t α := fun pid =>
    math_t.sqrt sqrt (sumLoop n_samples
      (fun i => (rd X (pid * n_samples + i) - x_mu pid)
        * (rd X (pid * n_samples + i) - x_mu pid) * rd W i) (math_t.val 0))
  let corr : Nat → Nat → math_t α := fun pid i =>
    N * rd W i * (rd X (pid * n_samples + i) - x_mu pid) * (rd Y i - y_mu) / y_std
  let corr : Nat → Nat → math_t α := fun pid i => corr pid i / x_std pid
  updateLoop n_progs
    (fun pid _ => sumLoop n_samples (fun i => corr pid i / N) (math_t.val 0)) d_progs

/-! ## Weighted Spearman correlation -/

/-- Model of `rank_functor::operator()`. -/
def rank_functor {β : Type} [Zero β] [One β] [DecidableEq β] (data : β) : β :=
  if data = 0 then 0 else 1

/-- The values `std::adjacent_difference` produces: the first element, then
each element minus its predecessor. -/
def adjacent_difference {β : Type} [Sub β] : List β → List β
  | [] => []
  | a :: l => a :: List.zipWith (fun cur prev => cur - prev) l (a :: l)

/-- The values `std::inclusive_scan` produces: the running sums. -/
def inclusive_scan {β : Type} [Add β] : List β → List β
  | [] => []
  | a :: l => List.scanl (fun acc x => acc + x) a l

/-- Writing the range `vals` at the start of the buffer `dst`. -/
def writeRange {β : Type} (vals dst : List β) : List β :=
  vals ++ dst.drop vals.length

/-- The buffers the ranking steps of `weightedSpearman` work on; `ranks` is the
array the ranks are scattered into (`Yrank`, then `Ypredrank`). -/
structure RankState (β : Type) where
  rank_idx : List Nat
  Ysorted : List β
  rank_diff : List β
  ranks : List β

/-- Statement `k` of a ranking pass of `weightedSpearman`, acting on the
buffers: the pass ranks the `n_samples` values `src[off ..]` into
`ranks[off ..]` by the eight statements `std::iota` (0), `std::sort` (1), the
loop filling `Ysorted` (2), `std::adjacent_difference` (3), `std::transform`
with `rank_functor` (4), `rank_diff[0] = 1` (5), `std::inclusive_scan` (6) and
the scatter loop (7).  (With `n_samples = 0` the store `rank_diff[0] = 1` of the
source is past the end of the buffer, which nothing here stands for: the empty
buffer is left as it is.) -/
def rankStep {β : Type} [LT β] [DecidableRel (fun a b : β => a < b)] [Sub β] [Add β] [Zero β]
    [One β] [DecidableEq β] (sort : (Nat → Nat → Bool) → List Nat → List Nat)
    (n_samples : Nat) (src : List β) (off : Nat) (k : Nat) (s : RankState β) : RankState β :=
  match k with
  | 0 => { s with rank_idx := List.range s.rank_idx.length }
  | 1 =>
    { s with
      rank_idx :=
        sort (fun i1 i2 => decide (src.getD (off + i1) 0 < src.getD (off + i2) 0))
          s.rank_idx }
  | 2 =>
    { s with
      Ysorted :=
        updateLoop n_samples (fun i _ => src.getD (off + s.rank_idx.getD i 0) 0)
          s.Ysorted }
  | 3 => { s with rank_diff := writeRange (adjacent_difference s.Ysorted) s.rank_diff }
  | 4 => { s with rank_diff := s.rank_diff.map rank_functor }
  | 5 => { s with rank_diff := s.rank_diff.set 0 1 }
  | 6 => { s with rank_diff := inclusive_scan s.rank_diff }
  | 7 => { s with ranks := scatterLoop n_samples off s.rank_idx s.rank_diff s.ranks }
  | _ => s

/-- One ranking pass of `weightedSpearman` run by one thread: its eight
statements one after the other.  The pass for `Y` has `off = 0`, the pass for
program `pid` has `off = pid * n_samples`. -/
def rankPass {β : Type} [LT β] [DecidableRel (fun a b : β => a < b)] [Sub β] [Add β] [Zero β]
    [One β] [DecidableEq β] (sort : (Nat → Nat → Bool) → List Nat → List Nat)
    (n_samples : Nat) (src : List β) (off : Nat) (s : RankState β) : RankState β :=
  (List.range 8).foldl (fun s k => rankStep sort n_samples src off k s) s

/-- The first part of `weightedSpearman`, "Get ranks for Y in Yrank": the state
after the ranking pass over `Ycopy`; its `ranks` field is `Yrank`. -/
def rankY {β : Type} [LT β] [DecidableRel (fun a b : β => a < b)] [Sub β] [Add β] [Zero β]
    [One β] [DecidableEq β] (sort : (Nat → Nat → Bool) → List Nat → List Nat)
    (n_samples : Nat) (Y : List β) : RankState β :=
  let Ycopy := (List.range n_samples).map (fun i => Y.getD i 0)
  rankPass sort n_samples Ycopy 0
    { rank_idx := List.replicate n_samples 0
      Ysorted := List.replicate n_samples 0
      rank_diff := List.replicate n_samples 0
      ranks := List.replicate n_samples 0 }

/-- The schedule of the program loop run by a single thread: the eight
statements of program `0`, then those of program `1`, and so on. -/
def seqSched (n_progs : Nat) : List (Nat × Nat) :=
  (List.range n_progs).flatMap (fun pid => (List.range 8).map (fun k => (pid, k)))

/-- Whether `sched` is an execution of the program loop: every program below
`n_progs`, and no other, takes the statements `0, …, 7` of its iteration, each
once and in this order. -/
def validSched (n_progs : Nat) (sched : List (Nat × Nat)) : Bool :=
  sched.all (fun e => decide (e.1 < n_progs)) &&
  (List.range n_progs).all (fun pid =>
    decide (((sched.filter (fun e => decide (e.1 = pid))).map Prod.snd) = List.range 8))

/-- The second part of `weightedSpearman`, "Get ranks for Y_pred in Ypredrank":
the loop over the programs under `#pragma omp parallel for`.  The buffers
`rank_idx`, `Ysorted` and `rank_diff`, declared before the loop and left by the
pass over `Y`, are shared by the threads; `Ypredrank` is the `ranks` field.
`sched` is the order in which the threads execute the statements of the loop
body: the entry `(pid, k)` is statement `k` of the iteration for program `pid`
(see `rankStep`).  Statements are taken whole; interleavings inside a statement
are not represented. -/
def rankPred {β : Type} [LT β] [DecidableRel (fun a b : β => a < b)] [Sub β] [Add β] [Zero β]
    [One β] [DecidableEq β] (sort : (Nat → Nat → Bool) → List Nat → List Nat)
    (n_samples n_progs : Nat) (Y_pred : List β) (sY : RankState β) (sched : List (Nat × Nat)) :
    RankState β :=
  let Ypredcopy := (List.range (n_samples * n_progs)).map (fun i => Y_pred.getD i 0)
  sched.foldl
    (fun s e => rankStep sort n_samples Ypredcopy (e.1 * n_samples) e.2 s)
    { sY with ranks := List.replicate (n_samples * n_progs) 0 }

/-- Model of `weightedSpearman`; `y_mu0` is passed on to `weightedPearson`, and
`sched` is the order in which the statements of the parallel program loop are
executed (`seqSched n_progs` when a single thread runs it). -/
def weightedSpearman {β : Type} [Scalar α β] [LT β] [DecidableRel (fun a b : β => a < b)]
    [Sub β] [Add β] [Zero β] [One β] [DecidableEq β] (sqrt : α → α)
    (sort : (Nat → Nat → Bool) → List Nat → List Nat) (y_mu0 : math_t α)
    (d_progs : List (math_t α)) (n_samples n_progs : Nat) (Y Y_pred W : List β)
    (sched : List (Nat × Nat)) : List (math_t α) :=
  let sY := rankY sort n_samples Y
  let sP := rankPred sort n_samples n_progs Y_pred sY sched
  weightedPearson sqrt y_mu0 d_progs n_samples n_progs sY.ranks sP.ranks W

/-- The contract of `std::sort` for the comparators `weightedSpearman` passes
(`key i1 < key i2` for a key taken from the values being ranked): the result is
a rearrangement of the input in which no element has a smaller key than an
element placed before it.  The order among equal keys is left open. -/
def SortContract (α : Type) [LinearOrderedField α]
    (sort : (Nat → Nat → Bool) → List Nat → List Nat) : Prop :=
  ∀ (key : Nat → α) (l : List Nat),
    (sort (fun i1 i2 => decide (key i1 < key i2)) l).Perm l ∧
    (sort (fun i1 i2 => decide (key i1 < key i2)) l).Pairwise (fun a b => key a ≤ key b)

/-- A sort of `rank_idx` that meets the contract of `std::sort`; used to run
the model. -/
def insertionSortIdx (comp : Nat → Nat → Bool) (l : List Nat) : List Nat :=
  l.insertionSort (fun a b => comp b a = false)

/-! ## Error metrics -/

/-- Model of `meanAbsoluteError`; its `abs` is `math_t.abs`, the `int` one. -/
def meanAbsoluteError {β : Type} [Scalar α β] [Zero β] [FloorRing α]
    (d_progs : List (math_t α)) (n_samples n_progs : Nat) (Y Y_pred W : List β) :
    List (math_t α) :=
  let N : math_t α := math_t.val (n_samples : α)
  let WS : math_t α := sumLoop n_samples (fun i => rd W i) (math_t.val 0)
  let error : Nat → Nat → math_t α := fun pid i =>
    N * rd W i * math_t.abs (rd Y_pred (pid * n_samples + i) - rd Y i) / WS
  updateLoop n_progs
    (fun pid _ => sumLoop n_samples (fun i => error pid i / N) (math_t.val 0)) d_progs

/-- Model of `meanSquareError`. -/
def meanSquareError {β : Type} [Scalar α β] [Zero β] (d_progs : List (math_t α))
    (n_samples n_progs : Nat) (Y Y_pred W : List β) : List (math_t α) :=
  let N : math_t α := math_t.val (n_samples : α)
  let WS : math_t α := sumLoop n_samples (fun i => rd W i) (math_t.val 0)
  let error : Nat → Nat → math_t α := fun pid i =>
    N * rd W i * (rd Y_pred (pid * n_samples + i) - rd Y i)
      * (rd Y_pred (pid * n_samples + i) - rd Y i) / WS
  updateLoop n_progs
    (fun pid _ => sumLoop n_samples (fun i => error pid i / N) (math_t.val 0)) d_progs

/-- Model of `rootMeanSquareError`. -/
def rootMeanSquareError {β : Type} [Scalar α β] [Zero β] (sqrt : α → α)
    (d_progs : List (math_t α)) (n_samples n_progs : Nat) (Y Y_pred W : List β) :
    List (math_t α) :=
  let d_progs := meanSquareError d_progs n_samples n_progs Y Y_pred W
  updateLoop n_progs (fun _ cur => math_t.sqrt sqrt (cur.getD math_t.undefined)) d_progs

/-! ## Derived forms and the specification side -/

/-- The `math_t` value the loops of `weightedPearson` leave in `raw_fitness_`
for one program whose prediction row is `Xrow`. -/
def pearsonCell (sqrt : α → α) (y_mu0 : math_t α) (n : Nat) (Y Xrow W : Nat → α) :
    math_t α :=
  let N : math_t α := math_t.val (n : α)
  let WS : math_t α := sumLoop n (fun i => math_t.val (W i)) (math_t.val 0)
  let y_mu : math_t α :=
    sumLoop n (fun i => math_t.val (Y i) * math_t.val (W i)) y_mu0 / WS
  let x_mu : math_t α :=
    sumLoop n (fun i => math_t.val (Xrow i) * math_t.val (W i)) (math_t.val 0) / WS
  let y_std : math_t α :=
    math_t.sqrt sqrt (sumLoop n
      (fun i => (math_t.val (Y i) - y_mu) * (math_t.val (Y i) - y_mu) * math_t.val (W i))
      (math_t.val 0))
  let x_std : math_t α :=
    math_t.sqrt sqrt (sumLoop n
      (fun i => (math_t.val (Xrow i) - x_mu) * (math_t.val (Xrow i) - x_mu)
        * math_t.val (W i)) (math_t.val 0))
  sumLoop n
    (fun i => N * math_t.val (W i) * (math_t.val (Xrow i) - x_mu) * (math_t.val (Y i) - y_mu)
      / y_std / x_std / N) (math_t.val 0)

/-- The number the call `abs(x)` of `meanAbsoluteError` gives for a number `x`. -/
def intAbs [FloorRing α] (x : α) : α :=
  ((abs_int (math_t.toInt (math_t.val x)) : Int) : α)

/-- A strictly increasing transform of floats whose values at the infinities are
numbers: `x / (1 + |x|)` on a number `x`, `1` at `+inf` and `-1` at `-inf`. -/
def squash : float_t α → float_t α
  | .val a => .val (a / (1 + |a|))
  | .pinf => .val 1
  | .ninf => .val (-1)
  | .nan => .nan

/-- The sum a deviation is the square root of: `Σ (V[i] - m)·(V[i] - m)·W[i]`. -/
def sqDev (n : Nat) (V W : Nat → α) (m : α) : α :=
  ∑ i in Finset.range n, (V i - m) * (V i - m) * W i

/-- The number `pearsonCell` is when every division and square root in it is
defined, with the accumulating loops written as sums. -/
def pearsonRow (sqrt : α → α) (y_mu0 : α) (n : Nat) (Y Xrow W : Nat → α) : α :=
  let N : α := (n : α)
  let WS : α := ∑ i in Finset.range n, W i
  let y_mu : α := (y_mu0 + ∑ i in Finset.range n, Y i * W i) / WS
  let x_mu : α := (∑ i in Finset.range n, Xrow i * W i) / WS
  let y_std : α := sqrt (∑ i in Finset.range n, (Y i - y_mu) * (Y i - y_mu) * W i)
  let x_std : α := sqrt (∑ i in Finset.range n, (Xrow i - x_mu) * (Xrow i - x_mu) * W i)
  ∑ i in Finset.range n, N * W i * (Xrow i - x_mu) * (Y i - y_mu) / y_std / x_std / N

/-- Specification side: the weighted mean `Σ V[i]·W[i] / Σ W[i]`. -/
def weightedMean (n : Nat) (V W : Nat → α) : α :=
  (∑ i in Finset.range n, V i * W i) / ∑ i in Finset.range n, W i

/-- Specification side: the weighted deviation `sqrt (Σ (V[i] - μ)²·W[i])`. -/
def weightedSigma (sqrt : α → α) (n : Nat) (V W : Nat → α) : α :=
  sqrt (∑ i in Finset.range n, (V i - weightedMean n V W) ^ 2 * W i)

/-- Specification side: the standard weighted Pearson coefficient
`Σ W[i]·(X[i] - x_mu)·(Y[i] - y_mu) / (y_sigma · x_sigma)`. -/
def standardWeightedPearson (sqrt : α → α) (n : Nat) (Y Xrow W : Nat → α) : α :=
  (∑ i in Finset.range n,
      W i * (Xrow i - weightedMean n Xrow W) * (Y i - weightedMean n Y W))
    / (weightedSigma sqrt n Y W * weightedSigma sqrt n Xrow W)

/-- Specification side: the dense rank of the value `x` in the vector `v`, one
more than the number of distinct values of `v` strictly less than `x`. -/
def denseRank (v : List α) (x : α) : α :=
  1 + (((v.toFinset).filter (fun y => y < x)).card : α)

/-! ## Weighted log loss -/

/-- Negation of a `math_t` value. -/
def math_t.neg : math_t α → math_t α
  | .val x => .val (-x)
  | .undefined => .undefined

instance : Neg (math_t α) := ⟨math_t.neg⟩

/-- The exponential of a `math_t` value through the library function `f`. -/
def math_t.exp (f : α → α) : math_t α → math_t α
  | .val x => .val (f x)
  | .undefined => .undefined

/-- The function `log1p` on a `math_t` value through the library function `f`;
it is undefined at and below `-1`. -/
def math_t.log1p (f : α → α) : math_t α → math_t α
  | .val x => if x ≤ -1 then .undefined else .val (f x)
  | .undefined => .undefined

/-- The local `logsig` of `logLoss`, set by the chain of four branches on the
prediction `yp`; `exp` stands for `expf` and `log1p` for `log1pf`. -/
def logsig (exp log1p : α → α) (yp : α) : math_t α :=
  if yp < -33.3 then math_t.val yp
  else if yp ≤ -18 then math_t.val yp - math_t.exp exp (math_t.val yp)
  else if yp ≤ 37 then -(math_t.log1p log1p (math_t.exp exp (-(math_t.val yp))))
  else -(math_t.exp exp (-(math_t.val yp)))

/-- The factor `((1 - y) * yp - logsig)` of the term `logLoss` accumulates for
one sample. -/
def logLossTerm (exp log1p : α → α) (y yp : α) : math_t α :=
  (math_t.val 1 - math_t.val y) * math_t.val yp - logsig exp log1p yp

/-- The factor `((1 - y) * yp - logsig)` for a label and a prediction as they are
read from the arrays: when one of them is an infinity or a NaN, whichever
branch sets `logsig`, the factor is an infinity or a NaN too. -/
def logLossFactor (exp log1p : α → α) : math_t α → math_t α → math_t α
  | .val y, .val yp => logLossTerm exp log1p y yp
  | _, _ => .undefined

/-- Model of `logLoss`. -/
def logLoss {β : Type} [Scalar α β] [Zero β] (exp log1p : α → α) (d_progs : List (math_t α))
    (n_samples n_progs : Nat) (Y Y_pred W : List β) : List (math_t α) :=
  let WS : math_t α := sumLoop n_samples (fun i => rd W i) (math_t.val 0)
  updateLoop n_progs
    (fun pid _ =>
      let offset := pid * n_samples
      sumLoop n_samples
        (fun i => logLossFactor exp log1p (rd Y i) (rd Y_pred (offset + i))
          * (rd W i / WS)) (math_t.val 0)) d_progs

/-- Specification side: `logsig` as the specification words it, piecewise over
the four regions of `yp`. -/
def logsigSpec (exp log1p : α → α) (yp : α) : α :=
  if yp < -33.3 then yp
  else if -33.3 ≤ yp ∧ yp ≤ -18 then yp - exp yp
  else if -18 < yp ∧ yp ≤ 37 then -log1p (exp (-yp))
  else if 37 < yp then -exp (-yp)
  else 0

/-! ## Operator table and node evaluation (`src/node_detail.h`) -/

/-- Modelled from the spec: `node.h`, which declares `node::type`, is not among
the sources.  The tags are the two terminals and the operators of the
specification's operator table, in the order of the slots of
`precomputed_funcs` as the comments of `node_detail.h` name them. -/
inductive node.type where
  | variable : node.type
  | constant : node.type
  | add : node.type
  | atan2 : node.type
  | div : node.type
  | fdim : node.type
  | max : node.type
  | min : node.type
  | mul : node.type
  | pow : node.type
  | sub : node.type
  | abs : node.type
  | acos : node.type
  | acosh : node.type
  | asin : node.type
  | asinh : node.type
  | atan : node.type
  | atanh : node.type
  | cbrt : node.type
  | cos : node.type
  | cosh : node.type
  | cube : node.type
  | exp : node.type
  | inv : node.type
  | log : node.type
  | neg : node.type
  | rcbrt : node.type
  | rsqrt : node.type
  | sin : node.type
  | sinh : node.type
  | sq : node.type
  | sqrt : node.type
  | tan : node.type
  | tanh : node.type
  deriving DecidableEq, Fintype

/-- Modelled from the spec: the numeric value `(int) t` of a tag, its position
in the order of the slots of `precomputed_funcs`. -/
def node.type.toInt : node.type → Nat
  | .variable => 0
  | .constant => 1
  | .add => 2
  | .atan2 => 3
  | .div => 4
  | .fdim => 5
  | .max => 6
  | .min => 7
  | .mul => 8
  | .pow => 9
  | .sub => 10
  | .abs => 11
  | .acos => 12
  | .acosh => 13
  | .asin => 14
  | .asinh => 15
  | .atan => 16
  | .atanh => 17
  | .cbrt => 18
  | .cos => 19
  | .cosh => 20
  | .cube => 21
  | .exp => 22
  | .inv => 23
  | .log => 24
  | .neg => 25
  | .rcbrt => 26
  | .rsqrt => 27
  | .sin => 28
  | .sinh => 29
  | .sq => 30
  | .sqrt => 31
  | .tan => 32
  | .tanh => 33

/-- Modelled from the spec: the marker `node::type::binary_begin`. -/
def node.type.binary_begin : node.type := node.type.add

/-- Modelled from the spec: the marker `node::type::binary_end`. -/
def node.type.binary_end : node.type := node.type.sub

/-- Modelled from the spec: the marker `node::type::unary_begin`. -/
def node.type.unary_begin : node.type := node.type.abs

/-- Modelled from the spec: the marker `node::type::unary_end`. -/
def node.type.unary_end : node.type := node.type.tanh

/-- Modelled from the spec: a node of a program (`node.h` is not among the
sources): its tag `t` and the members `val` and `fid` of its union `u`, the
value of a constant and the feature index of a variable. -/
structure node (α : Type) where
  t : node.type
  val : α
  fid : Nat

/-- The functions of `<cmath>` the operator table calls; they are parameters of
the model and may be undefined at an argument. -/
structure libm (α : Type) where
  atan2f : α → α → math_t α
  fdimf : α → α → math_t α
  fmaxf : α → α → math_t α
  fminf : α → α → math_t α
  powf : α → α → math_t α
  acosf : α → math_t α
  acoshf : α → math_t α
  asinf : α → math_t α
  asinhf : α → math_t α
  atanf : α → math_t α
  atanhf : α → math_t α
  cbrtf : α → math_t α
  cosf : α → math_t α
  coshf : α → math_t α
  expf : α → math_t α
  logf : α → math_t α
  sinf : α → math_t α
  sinhf : α → math_t α
  sqrtf : α → math_t α
  tanf : α → math_t α
  tanhf : α → math_t α

/-- Model of the constant `MIN_VAL`. -/
def MIN_VAL : α := 0.001

/-- Model of `is_terminal`. -/
def is_terminal (t : node.type) : Bool :=
  t = node.type.variable || t = node.type.constant

/-- Model of `is_nonterminal`. -/
def is_nonterminal (t : node.type) : Bool := !is_terminal t

/-- Model of `arity`; tags are compared by their numeric values. -/
def arity (t : node.type) : Int :=
  if node.type.unary_begin.toInt ≤ t.toInt ∧ t.toInt ≤ node.type.unary_end.toInt then 1
  else if node.type.binary_begin.toInt ≤ t.toInt ∧ t.toInt ≤ node.type.binary_end.toInt then 2
  else 0

/-- Model of the array `precomputed_funcs`: 35 slots, each holding a function of
the operand buffer `in` or nothing.  `fabsf` and `fabs` are the absolute
value. -/
def precomputed_funcs (lib : libm α) : List (Option (List α → math_t α)) :=
  [ -- variable
    some (fun _ => math_t.val 0),
    -- constant
    some (fun _ => math_t.val 0),
    -- functions_begin, binary_begin, add
    some (fun inp => rd inp 0 + rd inp 1),
    -- atan2
    some (fun inp => lib.atan2f (inp.getD 0 0) (inp.getD 1 0)),
    -- div
    some (fun inp => if |inp.getD 1 0| < MIN_VAL then math_t.val 1 else rd inp 0 / rd inp 1),
    -- fdim
    some (fun inp => lib.fdimf (inp.getD 0 0) (inp.getD 1 0)),
    -- max
    some (fun inp => lib.fmaxf (inp.getD 0 0) (inp.getD 1 0)),
    -- min
    some (fun inp => lib.fminf (inp.getD 0 0) (inp.getD 1 0)),
    -- mul
    some (fun inp => rd inp 0 * rd inp 1),
    -- pow
    some (fun inp => lib.powf (inp.getD 0 0) (inp.getD 1 0)),
    -- sub, binary_end
    some (fun inp => rd inp 0 - rd inp 1),
    -- unary_begin, abs
    some (fun inp => math_t.val |inp.getD 0 0|),
    -- acos
    some (fun inp => lib.acosf (inp.getD 0 0)),
    -- acosh
    some (fun inp => lib.acoshf (inp.getD 0 0)),
    -- asin
    some (fun inp => lib.asinf (inp.getD 0 0)),
    -- asinh
    some (fun inp => lib.asinhf (inp.getD 0 0)),
    -- atan
    some (fun inp => lib.atanf (inp.getD 0 0)),
    -- atanh
    some (fun inp => lib.atanhf (inp.getD 0 0)),
    -- cbrt
    some (fun inp => lib.cbrtf (inp.getD 0 0)),
    -- cos
    some (fun inp => lib.cosf (inp.getD 0 0)),
    -- cosh
    some (fun inp => lib.coshf (inp.getD 0 0)),
    -- cube
    some (fun inp => rd inp 0 * rd inp 0 * rd inp 0),
    -- exp
    some (fun inp => lib.expf (inp.getD 0 0)),
    -- inv
    some (fun inp => if |inp.getD 0 0| < MIN_VAL then math_t.val 0 else math_t.val 1 / rd inp 0),
    -- log
    some (fun inp => if |inp.getD 0 0| < MIN_VAL then math_t.val 0 else lib.logf |inp.getD 0 0|),
    -- neg
    some (fun inp => -rd inp 0),
    -- rcbrt
    some (fun inp => math_t.val 1 / lib.cbrtf (inp.getD 0 0)),
    -- rsqrt
    some (fun inp => math_t.val 1 / lib.sqrtf |inp.getD 0 0|),
    -- sin
    some (fun inp => lib.sinf (inp.getD 0 0)),
    -- sinh
    some (fun inp => lib.sinhf (inp.getD 0 0)),
    -- sq
    some (fun inp => rd inp 0 * rd inp 0),
    -- sqrt
    some (fun inp => lib.sqrtf |inp.getD 0 0|),
    -- tan
    some (fun inp => lib.tanf (inp.getD 0 0)),
    -- unary_end, tanh, functions_end
    some (fun inp => lib.tanhf (inp.getD 0 0)),
    -- no initialiser is left for the last of the 35 slots
    none ]

/-- Model of `evaluate_node`; the result is `none` when the slot the tag selects
holds no function (the call of an empty `std::function` throws). -/
def evaluate_node (lib : libm α) (n : node α) (data : List α) (stride idx : Nat)
    (inp : List α) : Option (math_t α) :=
  if n.t = node.type.constant then some (math_t.val n.val)
  else if n.t = node.type.variable then some (rd data (stride * n.fid + idx))
  else
    match (precomputed_funcs lib)[n.t.toInt]? with
    | some (some f) => some (f inp)
    | _ => none

/-- Whether slot `i` of `precomputed_funcs` holds a function. -/
def slotFilled (lib : libm α) (i : Nat) : Bool :=
  match (precomputed_funcs lib)[i]? with
  | some (some _) => true
  | _ => false

/-! ## Supporting lemmas -/

@[simp] theorem Scalar.toMath_self {γ : Type} (x : γ) :
    (Scalar.toMath x : math_t γ) = math_t.val x := rfl

@[simp] theorem rd_val (p : List α) (i : Nat) : rd p i = math_t.val (p.getD i 0) := rfl

@[simp] theorem logLossFactor_val (exp log1p : α → α) (y yp : α) :
    logLossFactor exp log1p (math_t.val y) (math_t.val yp) = logLossTerm exp log1p y yp := rfl

@[simp] theorem math_t.val_add_val (x y : α) :
    (math_t.val x + math_t.val y : math_t α) = math_t.val (x + y) := rfl

@[simp] theorem math_t.val_sub_val (x y : α) :
    (math_t.val x - math_t.val y : math_t α) = math_t.val (x - y) := rfl

@[simp] theorem math_t.val_mul_val (x y : α) :
    (math_t.val x * math_t.val y : math_t α) = math_t.val (x * y) := rfl

theorem math_t.val_div_val (x y : α) :
    (math_t.val x / math_t.val y : math_t α)
      = if y = 0 then math_t.undefined else math_t.val (x / y) := rfl

theorem math_t.val_div_val_of_ne (x y : α) (hy : y ≠ 0) :
    (math_t.val x / math_t.val y : math_t α) = math_t.val (x / y) := by
  rw [math_t.val_div_val, if_neg hy]

@[simp] theorem math_t.undefined_add (x : math_t α) :
    math_t.undefined + x = math_t.undefined := rfl

@[simp] theorem math_t.add_undefined (x : math_t α) :
    x + math_t.undefined = math_t.undefined := by
  cases x <;> rfl

@[simp] theorem math_t.undefined_sub (x : math_t α) :
    math_t.undefined - x = math_t.undefined := rfl

@[simp] theorem math_t.sub_undefined (x : math_t α) :
    x - math_t.undefined = math_t.undefined := by
  cases x <;> rfl

@[simp] theorem math_t.undefined_mul (x : math_t α) :
    math_t.undefined * x = math_t.undefined := rfl

@[simp] theorem math_t.mul_undefined (x : math_t α) :
    x * math_t.undefined = math_t.undefined := by
  cases x <;> rfl

@[simp] theorem math_t.undefined_div (x : math_t α) :
    math_t.undefined / x = math_t.undefined := rfl

@[simp] theorem math_t.div_undefined (x : math_t α) :
    x / math_t.undefined = math_t.undefined := by
  cases x <;> rfl

@[simp] theorem math_t.div_val_zero (x : math_t α) :
    x / math_t.val (0 : α) = math_t.undefined := by
  cases x with
  | val a => rw [math_t.val_div_val, if_pos rfl]
  | undefined => rfl

@[simp] theorem math_t.sqrt_undefined (f : α → α) :
    math_t.sqrt f (math_t.undefined : math_t α) = math_t.undefined := rfl

theorem math_t.sqrt_val (f : α → α) (x : α) :
    math_t.sqrt f (math_t.val x) = if x < 0 then math_t.undefined else math_t.val (f x) := rfl

theorem math_t.sqrt_val_of_nonneg (f : α → α) (x : α) (hx : 0 ≤ x) :
    math_t.sqrt f (math_t.val x) = math_t.val (f x) := by
  rw [math_t.sqrt_val, if_neg (not_lt.mpr hx)]

@[simp] theorem math_t.abs_val [FloorRing α] (x : α) :
    math_t.abs (math_t.val x) = math_t.val (intAbs x) := rfl

theorem abs_int_of_lt (i : Int) (h : |i| < 2147483648) : abs_int i = |i| := by
  have h0 : 0 ≤ |i| := abs_nonneg i
  simp only [abs_int]
  omega

theorem abs_trunc_le [FloorRing α] (x : α) : ((|trunc x| : Int) : α) ≤ |x| := by
  by_cases hx : 0 ≤ x
  · have hf : (0 : Int) ≤ Int.floor x := Int.floor_nonneg.mpr hx
    rw [trunc, if_pos hx, abs_of_nonneg hf, abs_of_nonneg hx]
    exact Int.floor_le x
  · have hx' : x < 0 := not_le.mp hx
    have hc : Int.ceil x ≤ 0 := Int.ceil_le.mpr (by simpa using hx'.le)
    rw [trunc, if_neg hx, abs_of_nonpos hc, abs_of_neg hx', Int.cast_neg]
    exact neg_le_neg (Int.le_ceil x)

/-- Within the range of `int` the call `abs(x)` gives the magnitude of `x`
truncated toward zero. -/
theorem intAbs_of_lt [FloorRing α] (x : α) (h : |x| < 2147483648) :
    intAbs x = ((|trunc x| : Int) : α) := by
  have hlt : |trunc x| < 2147483648 := by
    have h1 : ((|trunc x| : Int) : α) < ((2147483648 : Int) : α) := by
      have := lt_of_le_of_lt (abs_trunc_le x) h
      exact_mod_cast this
    exact_mod_cast h1
  have hr : INT_MIN ≤ trunc x ∧ trunc x ≤ INT_MAX := by
    have := abs_lt.mp hlt
    simp only [INT_MIN, INT_MAX]
    omega
  simp only [intAbs, math_t.toInt, if_pos hr, abs_int_of_lt _ hlt]

theorem intAbs_nonneg_of_lt [FloorRing α] (x : α) (h : |x| < 2147483648) :
    0 ≤ intAbs x := by
  rw [intAbs_of_lt x h]
  exact_mod_cast abs_nonneg (trunc x)

@[simp] theorem intAbs_zero [FloorRing α] : intAbs (0 : α) = 0 := by
  rw [intAbs_of_lt 0 (by simp)]
  simp [trunc]

/-- Where the magnitude of `x` is below `1` the call `abs(x)` gives `0`. -/
theorem intAbs_of_abs_lt_one [FloorRing α] (x : α) (h : |x| < 1) : intAbs x = 0 := by
  rw [intAbs_of_lt x (lt_trans h (by norm_num))]
  have h1 : ((|trunc x| : Int) : α) < ((1 : Int) : α) := by
    have := lt_of_le_of_lt (abs_trunc_le x) h
    exact_mod_cast this
  have h2 : |trunc x| < 1 := by exact_mod_cast h1
  have h3 : |trunc x| = 0 := by
    have := abs_nonneg (trunc x)
    omega
  rw [h3]
  simp

/-- On a whole number within the range of `int` the call `abs(x)` gives its
magnitude. -/
theorem intAbs_intCast [FloorRing α] (k : Int) (h : |k| < 2147483648) :
    intAbs (k : α) = ((|k| : Int) : α) := by
  rw [intAbs_of_lt (k : α) (by exact_mod_cast h)]
  simp [trunc]

theorem sumLoop_succ (n : Nat) (term : Nat → math_t α) (acc : math_t α) :
    sumLoop (n + 1) term acc = sumLoop n term acc + term n := by
  simp [sumLoop, List.range_succ, List.foldl_append]

theorem sumLoop_val (n : Nat) (t : Nat → α) (a : α) :
    sumLoop n (fun i => math_t.val (t i)) (math_t.val a)
      = math_t.val (a + ∑ i in Finset.range n, t i) := by
  induction n with
  | zero => simp [sumLoop]
  | succ n ih => rw [sumLoop_succ, ih, math_t.val_add_val, Finset.sum_range_succ, add_assoc]

theorem sumLoop_congr (n : Nat) (term term' : Nat → math_t α) (acc : math_t α)
    (h : ∀ i, i < n → term i = term' i) : sumLoop n term acc = sumLoop n term' acc := by
  induction n with
  | zero => simp [sumLoop]
  | succ n ih =>
    rw [sumLoop_succ, sumLoop_succ, ih (fun i hi => h i (Nat.lt_succ_of_lt hi)),
      h n (Nat.lt_succ_self n)]

theorem sumLoop_undefined_acc (n : Nat) (term : Nat → math_t α) :
    sumLoop n term math_t.undefined = math_t.undefined := by
  induction n with
  | zero => simp [sumLoop]
  | succ n ih => rw [sumLoop_succ, ih, math_t.undefined_add]

theorem sumLoop_undefined_term (n : Nat) (term : Nat → math_t α) (acc : math_t α) (i : Nat)
    (hi : i < n) (h : term i = math_t.undefined) : sumLoop n term acc = math_t.undefined := by
  induction n with
  | zero => omega
  | succ n ih =>
    rw [sumLoop_succ]
    by_cases hin : i = n
    · rw [← hin, h, math_t.add_undefined]
    · rw [ih (by omega), math_t.undefined_add]

theorem updateLoop_succ {β : Type} (n : Nat) (g : Nat → Option β → β) (buf : List β) :
    updateLoop (n + 1) g buf
      = (updateLoop n g buf).set n (g n (updateLoop n g buf)[n]?) := by
  simp [updateLoop, List.range_succ, List.foldl_append]

theorem length_updateLoop {β : Type} (n : Nat) (g : Nat → Option β → β) (buf : List β) :
    (updateLoop n g buf).length = buf.length := by
  induction n with
  | zero => simp [updateLoop]
  | succ n ih => rw [updateLoop_succ, List.length_set, ih]

theorem getElem?_updateLoop {β : Type} (n : Nat) (g : Nat → Option β → β) (buf : List β)
    (p : Nat) :
    (updateLoop n g buf)[p]?
      = if p < n ∧ p < buf.length then some (g p buf[p]?) else buf[p]? := by
  induction n with
  | zero => simp [updateLoop]
  | succ n ih =>
    rw [updateLoop_succ, List.getElem?_set, length_updateLoop]
    by_cases hnp : n = p
    · subst hnp
      by_cases hl : n < buf.length
      · simp [hl, ih]
      · have : buf[n]? = none := by simp at hl; simpa using hl
        simp [hl, ih]
        omega
    · have h1 : (p < n + 1) ↔ p < n := by omega
      simp [hnp, ih, h1]

theorem weightedPearson_getElem?_full (sqrt : α → α) (y_mu0 : math_t α)
    (d_progs : List (math_t α)) (Y X W : List α) (n_samples n_progs pid : Nat) :
    (weightedPearson sqrt y_mu0 d_progs n_samples n_progs Y X W)[pid]?
      = if pid < n_progs ∧ pid < d_progs.length then
          some (pearsonCell sqrt y_mu0 n_samples (fun i => Y.getD i 0)
            (fun i => X.getD (pid * n_samples + i) 0) (fun i => W.getD i 0))
        else d_progs[pid]? := by
  simp only [weightedPearson, pearsonCell, getElem?_updateLoop, rd_val]

theorem weightedPearson_getElem? (sqrt : α → α) (y_mu0 : math_t α)
    (d_progs : List (math_t α)) (Y X W : List α)
    (n_samples n_progs pid : Nat) (hpid : pid < n_progs) (hd : pid < d_progs.length) :
    (weightedPearson sqrt y_mu0 d_progs n_samples n_progs Y X W)[pid]?
      = some (pearsonCell sqrt y_mu0 n_samples (fun i => Y.getD i 0)
          (fun i => X.getD (pid * n_samples + i) 0) (fun i => W.getD i 0)) := by
  rw [weightedPearson_getElem?_full, if_pos ⟨hpid, hd⟩]

theorem pearsonCell_congr (sqrt : α → α) (y_mu0 : math_t α) (n : Nat)
    (Y Y' X X' W : Nat → α)
    (hY : ∀ i, i < n → Y i = Y' i) (hX : ∀ i, i < n → X i = X' i) :
    pearsonCell sqrt y_mu0 n Y X W = pearsonCell sqrt y_mu0 n Y' X' W := by
  have e1 : sumLoop n (fun i => math_t.val (Y i) * math_t.val (W i)) y_mu0
      = sumLoop n (fun i => math_t.val (Y' i) * math_t.val (W i)) y_mu0 :=
    sumLoop_congr _ _ _ _ (fun i hi => by rw [hY i hi])
  have e2 : sumLoop n (fun i => math_t.val (X i) * math_t.val (W i)) (math_t.val 0)
      = sumLoop n (fun i => math_t.val (X' i) * math_t.val (W i)) (math_t.val 0) :=
    sumLoop_congr _ _ _ _ (fun i hi => by rw [hX i hi])
  simp only [pearsonCell, e1, e2]
  have e3 : ∀ c : math_t α,
      sumLoop n (fun i => (math_t.val (Y i) - c) * (math_t.val (Y i) - c) * math_t.val (W i))
        (math_t.val 0)
      = sumLoop n (fun i => (math_t.val (Y' i) - c) * (math_t.val (Y' i) - c)
          * math_t.val (W i)) (math_t.val 0) :=
    fun c => sumLoop_congr _ _ _ _ (fun i hi => by rw [hY i hi])
  have e4 : ∀ c : math_t α,
      sumLoop n (fun i => (math_t.val (X i) - c) * (math_t.val (X i) - c) * math_t.val (W i))
        (math_t.val 0)
      = sumLoop n (fun i => (math_t.val (X' i) - c) * (math_t.val (X' i) - c)
          * math_t.val (W i)) (math_t.val 0) :=
    fun c => sumLoop_congr _ _ _ _ (fun i hi => by rw [hX i hi])
  rw [e3, e4]
  exact sumLoop_congr _ _ _ _ (fun i hi => by rw [hY i hi, hX i hi])

theorem pearsonCell_eq_val (sqrt : α → α) (y_mu0 : α) (n : Nat) (Y Xrow W : Nat → α)
    (hn : 1 ≤ n) (hWS : (∑ i in Finset.range n, W i) ≠ 0)
    (hVy : 0 ≤ sqDev n Y W
      ((y_mu0 + ∑ i in Finset.range n, Y i * W i) / ∑ i in Finset.range n, W i))
    (hsy : sqrt (sqDev n Y W
      ((y_mu0 + ∑ i in Finset.range n, Y i * W i) / ∑ i in Finset.range n, W i)) ≠ 0)
    (hVx : 0 ≤ sqDev n Xrow W
      ((∑ i in Finset.range n, Xrow i * W i) / ∑ i in Finset.range n, W i))
    (hsx : sqrt (sqDev n Xrow W
      ((∑ i in Finset.range n, Xrow i * W i) / ∑ i in Finset.range n, W i)) ≠ 0) :
    pearsonCell sqrt (math_t.val y_mu0) n Y Xrow W
      = math_t.val (pearsonRow sqrt y_mu0 n Y Xrow W) := by
  have hN : (n : α) ≠ 0 := by
    have : 0 < n := hn
    exact_mod_cast this.ne'
  simp only [sqDev] at hVy hsy hVx hsx
  simp only [pearsonCell, pearsonRow, math_t.val_mul_val, math_t.val_sub_val, sumLoop_val,
    zero_add, math_t.val_div_val_of_ne _ _ hWS, math_t.sqrt_val_of_nonneg _ _ hVy,
    math_t.sqrt_val_of_nonneg _ _ hVx, math_t.val_div_val_of_ne _ _ hsy,
    math_t.val_div_val_of_ne _ _ hsx, math_t.val_div_val_of_ne _ _ hN]

theorem scaled_cross_sum (n : Nat) (hn : 1 ≤ n) (W xd yd : Nat → α) (ys xs : α) :
    ∑ i in Finset.range n, (n : α) * W i * xd i * yd i / ys / xs / (n : α)
      = (∑ i in Finset.range n, W i * xd i * yd i) / (ys * xs) := by
  have hN : (n : α) ≠ 0 := by
    have : 0 < n := hn
    exact_mod_cast this.ne'
  rw [Finset.sum_div]
  apply Finset.sum_congr rfl
  intro i _
  simp only [div_eq_mul_inv, mul_inv]
  have h : (n : α) * W i * xd i * yd i * ys⁻¹ * xs⁻¹ * (n : α)⁻¹
      = ((n : α) * (n : α)⁻¹) * (W i * xd i * yd i * (ys⁻¹ * xs⁻¹)) := by ring
  rw [h, mul_inv_cancel₀ hN, one_mul]

theorem pearsonRow_eq_quotient (sqrt : α → α) (y_mu0 : α) (n : Nat) (Y Xrow W : Nat → α)
    (hn : 1 ≤ n) :
    pearsonRow sqrt y_mu0 n Y Xrow W
      = (∑ i in Finset.range n,
          W i * (Xrow i - (∑ i in Finset.range n, Xrow i * W i) / ∑ i in Finset.range n, W i)
            * (Y i - (y_mu0 + ∑ i in Finset.range n, Y i * W i) / ∑ i in Finset.range n, W i))
        / (sqrt (∑ i in Finset.range n,
              (Y i - (y_mu0 + ∑ i in Finset.range n, Y i * W i) / ∑ i in Finset.range n, W i)
              * (Y i - (y_mu0 + ∑ i in Finset.range n, Y i * W i) / ∑ i in Finset.range n, W i)
              * W i)
            * sqrt (∑ i in Finset.range n,
              (Xrow i - (∑ i in Finset.range n, Xrow i * W i) / ∑ i in Finset.range n, W i)
              * (Xrow i - (∑ i in Finset.range n, Xrow i * W i) / ∑ i in Finset.range n, W i)
              * W i)) := by
  simp only [pearsonRow]
  exact scaled_cross_sum n hn W _ _ _ _

theorem pearsonRow_init_zero_eq_standard (sqrt : α → α) (n : Nat) (Y Xrow W : Nat → α)
    (hn : 1 ≤ n) :
    pearsonRow sqrt 0 n Y Xrow W = standardWeightedPearson sqrt n Y Xrow W := by
  rw [pearsonRow_eq_quotient sqrt 0 n Y Xrow W hn]
  simp only [standardWeightedPearson, weightedSigma, weightedMean, zero_add, sq]

theorem weightSum_pos_of_variance_pos (n : Nat) (Y W : Nat → ℝ)
    (hW : ∀ i, i < n → 0 ≤ W i)
    (hV : 0 < ∑ i in Finset.range n, (Y i - weightedMean n Y W) ^ 2 * W i) :
    0 < ∑ i in Finset.range n, W i := by
  have hnonneg : 0 ≤ ∑ i in Finset.range n, W i :=
    Finset.sum_nonneg (fun i hi => hW i (Finset.mem_range.mp hi))
  rcases hnonneg.lt_or_eq with h | h
  · exact h
  · exfalso
    have hz : ∀ i ∈ Finset.range n, W i = 0 :=
      (Finset.sum_eq_zero_iff_of_nonneg (fun i hi => hW i (Finset.mem_range.mp hi))).mp h.symm
    have : ∑ i in Finset.range n, (Y i - weightedMean n Y W) ^ 2 * W i = 0 :=
      Finset.sum_eq_zero (fun i hi => by rw [hz i hi, mul_zero])
    rw [this] at hV
    exact lt_irrefl _ hV

theorem weightedMean_affine (n : Nat) (Y W : Nat → ℝ) (a b : ℝ)
    (hWS : (∑ i in Finset.range n, W i) ≠ 0) :
    weightedMean n (fun i => a * Y i + b) W = a * weightedMean n Y W + b := by
  simp only [weightedMean]
  have h : ∑ i in Finset.range n, (a * Y i + b) * W i
      = a * (∑ i in Finset.range n, Y i * W i) + b * ∑ i in Finset.range n, W i := by
    rw [Finset.mul_sum, Finset.mul_sum, ← Finset.sum_add_distrib]
    exact Finset.sum_congr rfl (fun i _ => by ring)
  rw [h]
  field_simp

theorem sqDev_eq_sum_sq (n : Nat) (V W : Nat → ℝ) (m : ℝ) :
    sqDev n V W m = ∑ i in Finset.range n, (V i - m) ^ 2 * W i := by
  simp only [sqDev, sq]

theorem sqDev_affine (n : Nat) (Y W : Nat → ℝ) (a b : ℝ)
    (hWS : (∑ i in Finset.range n, W i) ≠ 0) :
    sqDev n (fun i => a * Y i + b) W (weightedMean n (fun i => a * Y i + b) W)
      = a ^ 2 * sqDev n Y W (weightedMean n Y W) := by
  rw [weightedMean_affine n Y W a b hWS]
  simp only [sqDev]
  rw [Finset.mul_sum]
  exact Finset.sum_congr rfl (fun i _ => by ring)

theorem standardWeightedPearson_affine (n : Nat) (Y W : Nat → ℝ) (a b : ℝ) (ha : a ≠ 0)
    (hW : ∀ i, i < n → 0 ≤ W i)
    (hV : 0 < ∑ i in Finset.range n, (Y i - weightedMean n Y W) ^ 2 * W i) :
    standardWeightedPearson Real.sqrt n Y (fun i => a * Y i + b) W = a / |a| := by
  have hWS : (∑ i in Finset.range n, W i) ≠ 0 :=
    (weightSum_pos_of_variance_pos n Y W hW hV).ne'
  set m := weightedMean n Y W with hm
  set V := ∑ i in Finset.range n, (Y i - m) ^ 2 * W i with hVdef
  have hnum : ∑ i in Finset.range n,
      W i * ((fun i => a * Y i + b) i - weightedMean n (fun i => a * Y i + b) W) * (Y i - m)
      = a * V := by
    rw [weightedMean_affine n Y W a b hWS, hVdef, Finset.mul_sum]
    exact Finset.sum_congr rfl (fun i _ => by simp only [← hm]; ring)
  have hsx : ∑ i in Finset.range n,
      ((fun i => a * Y i + b) i - weightedMean n (fun i => a * Y i + b) W) ^ 2 * W i
      = a ^ 2 * V := by
    rw [weightedMean_affine n Y W a b hWS, hVdef, Finset.mul_sum]
    exact Finset.sum_congr rfl (fun i _ => by simp only [← hm]; ring)
  simp only [standardWeightedPearson, weightedSigma]
  rw [hnum, hsx, ← hm, ← hVdef, Real.sqrt_mul (sq_nonneg a), Real.sqrt_sq_eq_abs]
  have hsV : Real.sqrt V * Real.sqrt V = V := Real.mul_self_sqrt hV.le
  have habs : |a| ≠ 0 := abs_ne_zero.mpr ha
  have hVne : V ≠ 0 := hV.ne'
  have hden : Real.sqrt V * (|a| * Real.sqrt V) = |a| * V := by
    calc Real.sqrt V * (|a| * Real.sqrt V) = |a| * (Real.sqrt V * Real.sqrt V) := by ring
      _ = |a| * V := by rw [hsV]
  rw [hden]
  field_simp
  ring

theorem pearsonCell_real_eq_val (y_mu0 : ℝ) (n : Nat) (Y Xrow W : Nat → ℝ)
    (hWS : (∑ i in Finset.range n, W i) ≠ 0)
    (hVy : 0 < sqDev n Y W
      ((y_mu0 + ∑ i in Finset.range n, Y i * W i) / ∑ i in Finset.range n, W i))
    (hVx : 0 < sqDev n Xrow W
      ((∑ i in Finset.range n, Xrow i * W i) / ∑ i in Finset.range n, W i)) :
    pearsonCell Real.sqrt (math_t.val y_mu0) n Y Xrow W
      = math_t.val (pearsonRow Real.sqrt y_mu0 n Y Xrow W) := by
  have hn : 1 ≤ n := by
    rcases Nat.eq_zero_or_pos n with h | h
    · rw [h] at hVy; simp [sqDev] at hVy
    · exact h
  exact pearsonCell_eq_val Real.sqrt y_mu0 n Y Xrow W hn hWS hVy.le
    (Real.sqrt_pos.mpr hVy).ne' hVx.le (Real.sqrt_pos.mpr hVx).ne'

theorem quotient_of_sqrt_ne (num A B c : ℝ) (hA : 0 < A) (hB : 0 < B)
    (h : num ^ 2 ≠ c ^ 2 * (A * B)) : num / (Real.sqrt A * Real.sqrt B) ≠ c := by
  intro heq
  have hpos : 0 < Real.sqrt A * Real.sqrt B :=
    mul_pos (Real.sqrt_pos.mpr hA) (Real.sqrt_pos.mpr hB)
  have hnum : num = c * (Real.sqrt A * Real.sqrt B) := by
    rw [← heq]; field_simp
  apply h
  rw [hnum, mul_pow, mul_pow, Real.sq_sqrt hA.le, Real.sq_sqrt hB.le]

theorem pearsonCell_init_zero_affine (n : Nat) (Y W : Nat → ℝ) (a b : ℝ) (ha : a ≠ 0)
    (hW : ∀ i, i < n → 0 ≤ W i)
    (hV : 0 < ∑ i in Finset.range n, (Y i - weightedMean n Y W) ^ 2 * W i) :
    pearsonCell Real.sqrt (math_t.val 0) n Y (fun i => a * Y i + b) W
      = math_t.val (a / |a|) := by
  have hn : 1 ≤ n := by
    rcases Nat.eq_zero_or_pos n with h | h
    · rw [h] at hV; simp at hV
    · exact h
  have hWS : (∑ i in Finset.range n, W i) ≠ 0 :=
    (weightSum_pos_of_variance_pos n _ _ hW hV).ne'
  have hVy : 0 < sqDev n Y W (weightedMean n Y W) := by
    rw [sqDev_eq_sum_sq]; exact hV
  have hVx : 0 < sqDev n (fun i => a * Y i + b) W
      (weightedMean n (fun i => a * Y i + b) W) := by
    rw [sqDev_affine n _ _ a b hWS]
    exact mul_pos (sq_pos_of_ne_zero ha) hVy
  rw [pearsonCell_real_eq_val 0 n _ _ _ hWS (by simp only [zero_add]; exact hVy) hVx,
    pearsonRow_init_zero_eq_standard _ _ _ _ _ hn,
    standardWeightedPearson_affine n Y W a b ha hW hV]

/-- With `y_mu` entered as `0`, a prediction row `a * Y + b` (`a ≠ 0`) of a target
with positive weighted variance gets fitness `a / |a|`: `1` for `a > 0`, `-1`
for `a < 0`. -/
theorem weightedPearson_init_zero_affine (d_progs : List (math_t ℝ)) (Y X W : List ℝ)
    (n_samples n_progs pid : Nat) (a b : ℝ) (ha : a ≠ 0)
    (hpid : pid < n_progs) (hd : pid < d_progs.length)
    (hW : ∀ i, i < n_samples → 0 ≤ W.getD i 0)
    (hV : 0 < ∑ i in Finset.range n_samples,
      (Y.getD i 0 - weightedMean n_samples (fun i => Y.getD i 0) (fun i => W.getD i 0)) ^ 2
        * W.getD i 0)
    (hX : ∀ i, i < n_samples → X.getD (pid * n_samples + i) 0 = a * Y.getD i 0 + b) :
    (weightedPearson Real.sqrt (math_t.val 0) d_progs n_samples n_progs Y X W)[pid]?
      = some (math_t.val (a / |a|)) := by
  rw [weightedPearson_getElem? _ _ _ _ _ _ _ _ _ hpid hd,
    pearsonCell_congr Real.sqrt (math_t.val 0) n_samples (fun i => Y.getD i 0)
      (fun i => Y.getD i 0) (fun i => X.getD (pid * n_samples + i) 0)
      (fun i => a * Y.getD i 0 + b) _ (fun _ _ => rfl) hX,
    pearsonCell_init_zero_affine n_samples (fun i => Y.getD i 0) (fun i => W.getD i 0)
      a b ha hW hV]

/-- With `y_mu` entered as `0`, non-zero weight sum and positive sums under
both square roots, `weightedPearson` writes the standard weighted Pearson
coefficient to every program of the batch. -/
theorem weightedPearson_init_zero_standard (d_progs : List (math_t ℝ)) (Y X W : List ℝ)
    (n_samples n_progs pid : Nat) (hpid : pid < n_progs) (hd : pid < d_progs.length)
    (hWS : (∑ i in Finset.range n_samples, W.getD i 0) ≠ 0)
    (hVy : 0 < sqDev n_samples (fun i => Y.getD i 0) (fun i => W.getD i 0)
      (weightedMean n_samples (fun i => Y.getD i 0) (fun i => W.getD i 0)))
    (hVx : 0 < sqDev n_samples (fun i => X.getD (pid * n_samples + i) 0)
      (fun i => W.getD i 0)
      (weightedMean n_samples (fun i => X.getD (pid * n_samples + i) 0)
        (fun i => W.getD i 0))) :
    (weightedPearson Real.sqrt (math_t.val 0) d_progs n_samples n_progs Y X W)[pid]?
      = some (math_t.val (standardWeightedPearson Real.sqrt n_samples (fun i => Y.getD i 0)
          (fun i => X.getD (pid * n_samples + i) 0) (fun i => W.getD i 0))) := by
  have hn : 1 ≤ n_samples := by
    rcases Nat.eq_zero_or_pos n_samples with h | h
    · rw [h] at hVy; simp [sqDev] at hVy
    · exact h
  rw [weightedPearson_getElem? _ _ _ _ _ _ _ _ _ hpid hd,
    pearsonCell_real_eq_val 0 n_samples _ _ _ hWS
      (by simp only [zero_add]; exact hVy) hVx,
    pearsonRow_init_zero_eq_standard _ _ _ _ _ hn]

theorem insertionSortIdx_contract : SortContract α insertionSortIdx := by
  intro key l
  have hrel : ∀ a b : Nat,
      ((fun i1 i2 => decide (key i1 < key i2)) b a = false) ↔ key a ≤ key b := by
    intro a b
    simp
  letI : IsTotal Nat (fun a b => (fun i1 i2 => decide (key i1 < key i2)) b a = false) :=
    ⟨fun a b => by
      rcases le_total (key a) (key b) with h | h
      · exact Or.inl ((hrel a b).mpr h)
      · exact Or.inr ((hrel b a).mpr h)⟩
  letI : IsTrans Nat (fun a b => (fun i1 i2 => decide (key i1 < key i2)) b a = false) :=
    ⟨fun a b c hab hbc => (hrel a c).mpr (le_trans ((hrel a b).mp hab) ((hrel b c).mp hbc))⟩
  refine ⟨List.perm_insertionSort _ l, ?_⟩
  have hs := List.sorted_insertionSort
    (fun a b => (fun i1 i2 => decide (key i1 < key i2)) b a = false) l
  exact List.Pairwise.imp (fun {a b} h => (hrel a b).mp h) hs

theorem updateLoop_const_eq_map {β : Type} (n : Nat) (f : Nat → β) (buf : List β)
    (hlen : buf.length = n) :
    updateLoop n (fun i _ => f i) buf = (List.range n).map f := by
  apply List.ext_getElem?
  intro p
  rw [getElem?_updateLoop]
  by_cases hp : p < n
  · simp [hp, hlen, List.getElem?_range]
  · have h1 : buf[p]? = none := by
      rw [List.getElem?_eq_none_iff]; omega
    have h2 : (List.range n)[p]? = none := by
      rw [List.getElem?_eq_none_iff, List.length_range]; omega
    simp [hp, h1, h2]

theorem scanl_rank_eq (l : List α) : ∀ (c prev : α), (prev :: l).Pairwise (fun a b => a ≤ b) →
    List.scanl (fun acc x => acc + x) c
        (List.zipWith (fun cur prev => rank_functor (cur - prev)) l (prev :: l))
      = (prev :: l).map
          (fun x => c + ((((prev :: l).toFinset).filter (fun y => y < x)).card : α)) := by
  induction l with
  | nil =>
    intro c prev _
    have : Finset.filter (fun y => y < prev) {prev} = ∅ := by
      apply Finset.filter_eq_empty_iff.mpr
      intro y hy
      rw [Finset.mem_singleton.mp hy]
      exact lt_irrefl _
    simp [this]
  | cons b l ih =>
    intro c prev hs
    have hs' : (b :: l).Pairwise (fun a b => a ≤ b) := (List.pairwise_cons.mp hs).2
    have hprev : ∀ x ∈ b :: l, prev ≤ x := (List.pairwise_cons.mp hs).1
    have hb : ∀ x ∈ b :: l, b ≤ x := by
      intro x hx
      rcases List.mem_cons.mp hx with h | h
      · exact h.ge
      · exact (List.pairwise_cons.mp hs').1 x h
    rw [List.zipWith_cons_cons, List.scanl_cons, ih _ _ hs']
    rw [List.map_cons (l := b :: l)]
    simp only [List.singleton_append]
    congr 1
    · have : ((prev :: b :: l).toFinset).filter (fun y => y < prev) = ∅ := by
        apply Finset.filter_eq_empty_iff.mpr
        intro y hy
        rw [List.mem_toFinset] at hy
        rcases List.mem_cons.mp hy with h | h
        · rw [h]; exact lt_irrefl _
        · exact not_lt.mpr (hprev y h)
      rw [this]; simp
    · apply List.map_congr_left
      intro x hx
      rw [List.toFinset_cons (a := prev)]
      by_cases hbp : b = prev
      · have hmem : prev ∈ (b :: l).toFinset := by
          rw [List.mem_toFinset, hbp]; exact List.mem_cons_self _ _
        rw [Finset.insert_eq_of_mem hmem]
        simp [rank_functor, hbp]
      · have hlt : prev < b := lt_of_le_of_ne (hprev b (List.mem_cons_self _ _)) (Ne.symm hbp)
        have hnotmem : prev ∉ ((b :: l).toFinset).filter (fun y => y < x) := by
          intro h
          have := (Finset.mem_filter.mp h).1
          rw [List.mem_toFinset] at this
          exact absurd (hb prev this) (not_le.mpr hlt)
        rw [Finset.filter_insert, if_pos (lt_of_lt_of_le hlt (hb x hx)),
          Finset.card_insert_of_not_mem hnotmem]
        have hrf : rank_functor (b - prev) = 1 := by
          simp [rank_functor, sub_eq_zero, hbp]
        rw [hrf]
        push_cast
        ring

theorem length_adjacent_difference (S : List α) :
    (adjacent_difference S).length = S.length := by
  cases S with
  | nil => rfl
  | cons a l => simp [adjacent_difference]

theorem writeRange_of_length_eq {β : Type} (vals dst : List β)
    (h : dst.length = vals.length) : writeRange vals dst = vals := by
  simp [writeRange, List.drop_of_length_le h.le]

theorem rank_diff_eq_denseRank (S dst : List α) (hS : S.Pairwise (fun a b => a ≤ b))
    (hdst : dst.length = S.length) :
    inclusive_scan (((writeRange (adjacent_difference S) dst).map rank_functor).set 0 1)
      = S.map (denseRank S) := by
  rw [writeRange_of_length_eq _ _ (by rw [length_adjacent_difference]; exact hdst)]
  cases S with
  | nil => simp [adjacent_difference, inclusive_scan]
  | cons a l =>
    simp only [adjacent_difference, List.map_cons, List.set_cons_zero, inclusive_scan,
      List.map_zipWith]
    rw [scanl_rank_eq l 1 a hS]
    rfl

theorem map_getD_range_eq_map {β : Type} (l : List Nat) (n : Nat) (g : Nat → β)
    (hlen : l.length = n) :
    (List.range n).map (fun i => g (l.getD i 0)) = l.map g := by
  apply List.ext_getElem?
  intro p
  by_cases hp : p < n
  · have hp' : p < l.length := by omega
    simp [List.getElem?_range, hp, List.getElem?_eq_getElem hp']
  · have h1 : (List.range n)[p]? = none := by
      rw [List.getElem?_eq_none_iff, List.length_range]; omega
    have h2 : l[p]? = none := by
      rw [List.getElem?_eq_none_iff]; omega
    simp [h1, h2]

theorem scatterLoop_succ (m off : Nat) (idx : List Nat) (vals out : List α) :
    scatterLoop (m + 1) off idx vals out
      = (scatterLoop m off idx vals out).set (off + idx.getD m 0) (vals.getD m 0) := by
  simp [scatterLoop, List.range_succ, List.foldl_append]

theorem length_scatterLoop (m off : Nat) (idx : List Nat) (vals out : List α) :
    (scatterLoop m off idx vals out).length = out.length := by
  induction m with
  | zero => simp [scatterLoop]
  | succ m ih => rw [scatterLoop_succ, List.length_set, ih]

theorem getElem?_scatterLoop_of_ne (m off : Nat) (idx : List Nat) (vals out : List α)
    (j : Nat) (hj : ∀ k, k < m → off + idx.getD k 0 ≠ j) :
    (scatterLoop m off idx vals out)[j]? = out[j]? := by
  induction m with
  | zero => simp [scatterLoop]
  | succ m ih =>
    rw [scatterLoop_succ, List.getElem?_set_ne (hj m (Nat.lt_succ_self m))]
    exact ih (fun k hk => hj k (Nat.lt_succ_of_lt hk))

theorem getElem?_scatterLoop_of_eq (m off : Nat) (idx : List Nat) (vals out : List α)
    (hnodup : idx.Nodup) (hm : m ≤ idx.length) (k : Nat) (hk : k < m)
    (hout : off + idx.getD k 0 < out.length) :
    (scatterLoop m off idx vals out)[off + idx.getD k 0]? = some (vals.getD k 0) := by
  induction m with
  | zero => omega
  | succ m ih =>
    rw [scatterLoop_succ]
    by_cases hkm : k = m
    · subst hkm
      rw [List.getElem?_set_self]
      rw [length_scatterLoop]; exact hout
    · have hk' : k < m := by omega
      have hne : idx.getD m 0 ≠ idx.getD k 0 := by
        have h1 : k < idx.length := by omega
        have h2 : m < idx.length := by omega
        rw [List.getD_eq_getElem _ _ h1, List.getD_eq_getElem _ _ h2]
        intro h
        exact hkm ((List.Nodup.getElem_inj_iff hnodup).mp h).symm
      rw [List.getElem?_set_ne (by omega)]
      exact ih (by omega) hk'

theorem denseRank_congr_perm (S V : List α) (h : S.Perm V) (x : α) :
    denseRank S x = denseRank V x := by
  simp only [denseRank, List.toFinset_eq_of_perm _ _ h]

/-- The ranking pass written out: the buffers after its eight statements. -/
theorem rankPass_eq (sort : (Nat → Nat → Bool) → List Nat → List Nat) (n_samples : Nat)
    (src : List α) (off : Nat) (s : RankState α) :
    rankPass sort n_samples src off s
      = (let rank_idx := List.range s.rank_idx.length
         let rank_idx :=
           sort (fun i1 i2 => decide (src.getD (off + i1) 0 < src.getD (off + i2) 0)) rank_idx
         let Ysorted :=
           updateLoop n_samples (fun i _ => src.getD (off + rank_idx.getD i 0) 0) s.Ysorted
         let rank_diff := writeRange (adjacent_difference Ysorted) s.rank_diff
         let rank_diff := rank_diff.map rank_functor
         let rank_diff := rank_diff.set 0 1
         let rank_diff := inclusive_scan rank_diff
         { rank_idx := rank_idx
           Ysorted := Ysorted
           rank_diff := rank_diff
           ranks := scatterLoop n_samples off rank_idx rank_diff s.ranks }) := rfl

theorem foldl_flatMap_eq {σ ι κ : Type} (f : σ → κ → σ) (g : ι → List κ) (l : List ι) (s : σ) :
    (l.flatMap g).foldl f s = l.foldl (fun s i => (g i).foldl f s) s := by
  induction l generalizing s with
  | nil => rfl
  | cons a l ih => simp only [List.flatMap_cons, List.foldl_append, List.foldl_cons, ih]

/-- Run by a single thread, the program loop is one ranking pass after the
other. -/
theorem rankPred_seqSched (sort : (Nat → Nat → Bool) → List Nat → List Nat)
    (n_samples n_progs : Nat) (Y_pred : List α) (sY : RankState α) :
    rankPred sort n_samples n_progs Y_pred sY (seqSched n_progs)
      = (List.range n_progs).foldl
          (fun s pid => rankPass sort n_samples
            ((List.range (n_samples * n_progs)).map (fun i => Y_pred.getD i 0))
            (pid * n_samples) s)
          { sY with ranks := List.replicate (n_samples * n_progs) 0 } := by
  simp only [rankPred, seqSched, foldl_flatMap_eq, List.foldl_map, rankPass]

theorem validSched_seqSched_one : validSched 1 (seqSched 1) = true := by decide

theorem rankPass_spec (sort : (Nat → Nat → Bool) → List Nat → List Nat)
    (hsort : SortContract α sort) (n : Nat) (src : List α) (off : Nat) (s : RankState α)
    (h1 : s.rank_idx.length = n) (h2 : s.Ysorted.length = n) (h3 : s.rank_diff.length = n) :
    (rankPass sort n src off s).rank_idx.length = n ∧
    (rankPass sort n src off s).Ysorted.length = n ∧
    (rankPass sort n src off s).rank_diff.length = n ∧
    (rankPass sort n src off s).ranks.length = s.ranks.length ∧
    (∀ i, i < n → off + i < s.ranks.length →
      (rankPass sort n src off s).ranks[off + i]?
        = some (denseRank ((List.range n).map (fun k => src.getD (off + k) 0))
            (src.getD (off + i) 0))) ∧
    (∀ j, (j < off ∨ off + n ≤ j) → (rankPass sort n src off s).ranks[j]? = s.ranks[j]?) := by
  obtain ⟨hperm, hsorted⟩ := hsort (fun k => src.getD (off + k) 0) (List.range n)
  simp only [rankPass_eq, h1]
  set idx := sort (fun i1 i2 => decide (src.getD (off + i1) 0 < src.getD (off + i2) 0))
    (List.range n) with hidx
  have hlen : idx.length = n := by rw [hperm.length_eq, List.length_range]
  have hnodup : idx.Nodup := hperm.nodup_iff.mpr (List.nodup_range n)
  have hmem : ∀ x, x ∈ idx ↔ x < n := fun x => by rw [hperm.mem_iff, List.mem_range]
  have hYs : updateLoop n (fun i _ => src.getD (off + idx.getD i 0) 0) s.Ysorted
      = idx.map (fun k => src.getD (off + k) 0) := by
    rw [updateLoop_const_eq_map n _ _ h2]
    exact map_getD_range_eq_map idx n (fun k => src.getD (off + k) 0) hlen
  rw [hYs]
  have hS : (idx.map (fun k => src.getD (off + k) 0)).Pairwise (fun a b => a ≤ b) :=
    List.pairwise_map.mpr hsorted
  rw [rank_diff_eq_denseRank _ _ hS (by rw [List.length_map, hlen, h3])]
  have hpermS : (idx.map (fun k => src.getD (off + k) 0)).Perm
      ((List.range n).map (fun k => src.getD (off + k) 0)) := hperm.map _
  refine ⟨hlen, by rw [List.length_map, hlen], by rw [List.length_map, List.length_map, hlen],
    length_scatterLoop _ _ _ _ _, ?_, ?_⟩
  · intro i hi hout
    obtain ⟨k, hk, hki⟩ := List.getElem_of_mem ((hmem i).mpr hi)
    have hkD : idx.getD k 0 = i := by rw [List.getD_eq_getElem _ _ hk, hki]
    have := getElem?_scatterLoop_of_eq n off idx
      ((idx.map (fun k => src.getD (off + k) 0)).map
        (denseRank (idx.map (fun k => src.getD (off + k) 0)))) s.ranks hnodup
      (by omega) k (by omega) (by rw [hkD]; exact hout)
    rw [hkD] at this
    rw [this]
    congr 1
    rw [List.getD_eq_getElem _ _ (by rw [List.length_map, List.length_map]; exact hk)]
    simp only [List.getElem_map, hki]
    exact denseRank_congr_perm _ _ hpermS _
  · intro j hj
    apply getElem?_scatterLoop_of_ne
    intro k hk
    have hk' : k < idx.length := by omega
    have : idx.getD k 0 < n := by
      rw [List.getD_eq_getElem _ _ hk']
      exact (hmem _).mp (List.getElem_mem _)
    omega

theorem getD_map_range (n : Nat) (f : Nat → α) (k : Nat) (hk : k < n) :
    ((List.range n).map f).getD k 0 = f k := by
  rw [List.getD_eq_getElem _ _ (by rw [List.length_map, List.length_range]; exact hk)]
  simp

theorem rankY_spec (sort : (Nat → Nat → Bool) → List Nat → List Nat)
    (hsort : SortContract α sort) (n : Nat) (Y : List α) :
    (rankY sort n Y).rank_idx.length = n ∧
    (rankY sort n Y).Ysorted.length = n ∧
    (rankY sort n Y).rank_diff.length = n ∧
    (rankY sort n Y).ranks
      = (List.range n).map
          (fun i => denseRank ((List.range n).map (fun k => Y.getD k 0)) (Y.getD i 0)) := by
  have h := rankPass_spec sort hsort n ((List.range n).map (fun i => Y.getD i 0)) 0
    { rank_idx := List.replicate n 0
      Ysorted := List.replicate n 0
      rank_diff := List.replicate n 0
      ranks := List.replicate n 0 } (by simp) (by simp) (by simp)
  obtain ⟨a1, a2, a3, a4, a5, _⟩ := h
  refine ⟨a1, a2, a3, ?_⟩
  have hsrc : (List.range n).map
      (fun k => ((List.range n).map (fun i => Y.getD i 0)).getD (0 + k) 0)
      = (List.range n).map (fun k => Y.getD k 0) := by
    apply List.map_congr_left
    intro k hk
    rw [Nat.zero_add, getD_map_range n _ k (List.mem_range.mp hk)]
  apply List.ext_getElem?
  intro i
  by_cases hi : i < n
  · have := a5 i hi (by simp; exact hi)
    rw [Nat.zero_add] at this
    rw [rankY, this, hsrc, getD_map_range n _ i hi]
    simp [List.getElem?_range, hi]
  · have hl : (rankY sort n Y).ranks.length = n := by
      rw [rankY, a4]; simp
    rw [List.getElem?_eq_none_iff.mpr (by omega), List.getElem?_eq_none_iff.mpr (by simp; omega)]

theorem rankLoop_spec (sort : (Nat → Nat → Bool) → List Nat → List Nat)
    (hsort : SortContract α sort) (n : Nat) (src : List α) (s0 : RankState α)
    (h1 : s0.rank_idx.length = n) (h2 : s0.Ysorted.length = n)
    (h3 : s0.rank_diff.length = n) (m : Nat) (hL : m * n ≤ s0.ranks.length) :
    ((List.range m).foldl (fun s pid => rankPass sort n src (pid * n) s) s0).rank_idx.length
      = n ∧
    ((List.range m).foldl (fun s pid => rankPass sort n src (pid * n) s) s0).Ysorted.length
      = n ∧
    ((List.range m).foldl (fun s pid => rankPass sort n src (pid * n) s) s0).rank_diff.length
      = n ∧
    ((List.range m).foldl (fun s pid => rankPass sort n src (pid * n) s) s0).ranks.length
      = s0.ranks.length ∧
    (∀ pid i, pid < m → i < n →
      ((List.range m).foldl (fun s pid => rankPass sort n src (pid * n) s) s0).ranks[pid * n + i]?
        = some (denseRank ((List.range n).map (fun k => src.getD (pid * n + k) 0))
            (src.getD (pid * n + i) 0))) := by
  induction m with
  | zero => simp [h1, h2, h3]
  | succ m ih =>
    have hL' : m * n ≤ s0.ranks.length := by
      have : m * n ≤ (m + 1) * n := Nat.mul_le_mul_right n (Nat.le_succ m)
      omega
    obtain ⟨b1, b2, b3, b4, b5⟩ := ih hL'
    rw [List.range_succ, List.foldl_append]
    simp only [List.foldl_cons, List.foldl_nil]
    obtain ⟨c1, c2, c3, c4, c5, c6⟩ := rankPass_spec sort hsort n src (m * n)
      ((List.range m).foldl (fun s pid => rankPass sort n src (pid * n) s) s0) b1 b2 b3
    refine ⟨c1, c2, c3, by rw [c4, b4], ?_⟩
    intro pid i hpid hi
    have hsucc : (m + 1) * n = m * n + n := by ring
    by_cases hpm : pid = m
    · subst hpm
      exact c5 i hi (by rw [b4]; omega)
    · have hlt : pid < m := by omega
      have hbound : pid * n + i < m * n := by
        have : (pid + 1) * n ≤ m * n := Nat.mul_le_mul_right n hlt
        have h' : (pid + 1) * n = pid * n + n := by ring
        omega
      rw [c6 _ (Or.inl hbound)]
      exact b5 pid i hlt hi

theorem weightedSpearman_getElem? (sqrt : α → α)
    (sort : (Nat → Nat → Bool) → List Nat → List Nat) (hsort : SortContract α sort)
    (y_mu0 : math_t α) (d_progs : List (math_t α)) (Y Y_pred W : List α)
    (n_samples n_progs pid : Nat) :
    (weightedSpearman sqrt sort y_mu0 d_progs n_samples n_progs Y Y_pred W
        (seqSched n_progs))[pid]?
      = if pid < n_progs ∧ pid < d_progs.length then
          some (pearsonCell sqrt y_mu0 n_samples
            (fun i => denseRank ((List.range n_samples).map (fun k => Y.getD k 0))
              (Y.getD i 0))
            (fun i => denseRank
              ((List.range n_samples).map (fun k => Y_pred.getD (pid * n_samples + k) 0))
              (Y_pred.getD (pid * n_samples + i) 0))
            (fun i => W.getD i 0))
        else d_progs[pid]? := by
  rw [weightedSpearman, weightedPearson_getElem?_full]
  by_cases h : pid < n_progs ∧ pid < d_progs.length
  · rw [if_pos h, if_pos h]
    congr 1
    obtain ⟨a1, a2, a3, a4⟩ := rankY_spec sort hsort n_samples Y
    obtain ⟨_, _, _, b4, b5⟩ := rankLoop_spec sort hsort n_samples
      ((List.range (n_samples * n_progs)).map (fun i => Y_pred.getD i 0))
      { rankY sort n_samples Y with ranks := List.replicate (n_samples * n_progs) 0 }
      a1 a2 a3 n_progs (by simp [Nat.mul_comm])
    apply pearsonCell_congr
    · intro i hi
      rw [a4, getD_map_range n_samples _ i hi]
    · intro i hi
      have hbound : pid * n_samples + i < n_samples * n_progs := by
        have : (pid + 1) * n_samples ≤ n_progs * n_samples :=
          Nat.mul_le_mul_right n_samples h.1
        have h' : (pid + 1) * n_samples = pid * n_samples + n_samples := by ring
        rw [Nat.mul_comm n_samples n_progs]
        omega
      have hrow : (List.range n_samples).map
          (fun k => ((List.range (n_samples * n_progs)).map
            (fun i => Y_pred.getD i 0)).getD (pid * n_samples + k) 0)
          = (List.range n_samples).map (fun k => Y_pred.getD (pid * n_samples + k) 0) := by
        apply List.map_congr_left
        intro k hk
        have hk' := List.mem_range.mp hk
        have hb : pid * n_samples + k < n_samples * n_progs := by
          have : (pid + 1) * n_samples ≤ n_progs * n_samples :=
            Nat.mul_le_mul_right n_samples h.1
          have h' : (pid + 1) * n_samples = pid * n_samples + n_samples := by ring
          rw [Nat.mul_comm n_samples n_progs]
          omega
        rw [getD_map_range _ _ _ hb]
      have := b5 pid i h.1 hi
      rw [hrow, getD_map_range _ _ _ hbound] at this
      rw [rankPred_seqSched, List.getD_eq_getElem?_getD, this, Option.getD_some]
  · rw [if_neg h, if_neg h]

theorem denseRank_map_of_order_embedding (f : α → α) (v : List α)
    (hf : ∀ a ∈ v, ∀ b ∈ v, a < b → f a < f b) (x : α) (hx : x ∈ v) :
    denseRank (v.map f) (f x) = denseRank v x := by
  have hinj : Set.InjOn f (((v.toFinset).filter (fun y => y < x) : Finset α) : Set α) := by
    intro a ha b hb hab
    have ha' : a ∈ v := List.mem_toFinset.mp (Finset.mem_filter.mp (Finset.mem_coe.mp ha)).1
    have hb' : b ∈ v := List.mem_toFinset.mp (Finset.mem_filter.mp (Finset.mem_coe.mp hb)).1
    rcases lt_trichotomy a b with h | h | h
    · exact absurd hab (hf a ha' b hb' h).ne
    · exact h
    · exact absurd hab (hf b hb' a ha' h).ne'
  have hlt : ∀ y ∈ v, f y < f x → y < x := by
    intro y hy h
    by_contra hn
    rcases (not_lt.mp hn).lt_or_eq with h' | h'
    · exact absurd h (not_lt.mpr (hf x hx y hy h').le)
    · rw [h'] at h; exact lt_irrefl _ h
  have hset : ((v.map f).toFinset).filter (fun y => y < f x)
      = ((v.toFinset).filter (fun y => y < x)).image f := by
    ext z
    simp only [Finset.mem_filter, List.mem_toFinset, List.mem_map, Finset.mem_image]
    constructor
    · rintro ⟨⟨y, hy, rfl⟩, hz⟩
      exact ⟨y, ⟨hy, hlt y hy hz⟩, rfl⟩
    · rintro ⟨y, ⟨hy, hyx⟩, rfl⟩
      exact ⟨⟨y, hy, rfl⟩, hf y hy x hx hyx⟩
  simp only [denseRank, hset, Finset.card_image_of_injOn hinj]

theorem denseRank_lt_of_lt (v : List α) (x y : α) (hx : x ∈ v) (hxy : x < y) :
    denseRank v x < denseRank v y := by
  have hsub : (v.toFinset).filter (fun z => z < x) ⊂ (v.toFinset).filter (fun z => z < y) := by
    rw [Finset.ssubset_iff_of_subset]
    · exact ⟨x, Finset.mem_filter.mpr ⟨List.mem_toFinset.mpr hx, hxy⟩,
        fun h => lt_irrefl _ (Finset.mem_filter.mp h).2⟩
    · intro z hz
      exact Finset.mem_filter.mpr ⟨(Finset.mem_filter.mp hz).1,
        lt_trans (Finset.mem_filter.mp hz).2 hxy⟩
  have hcard := Finset.card_lt_card hsub
  simp only [denseRank]
  have : ((((v.toFinset).filter (fun z => z < x)).card : ℕ) : α)
      < (((v.toFinset).filter (fun z => z < y)).card : α) := by exact_mod_cast hcard
  linarith

theorem denseRank_lt_iff (v : List α) (x y : α) (hx : x ∈ v) (hy : y ∈ v) :
    x < y ↔ denseRank v x < denseRank v y := by
  constructor
  · exact denseRank_lt_of_lt v x y hx
  · intro h
    by_contra hn
    rcases (not_lt.mp hn).lt_or_eq with h' | h'
    · exact absurd h (not_lt.mpr (denseRank_lt_of_lt v y x hy h').le)
    · rw [h'] at h; exact lt_irrefl _ h

theorem denseRank_of_le_all (v : List α) (x : α) (hmin : ∀ y ∈ v, x ≤ y) :
    denseRank v x = 1 := by
  have : (v.toFinset).filter (fun z => z < x) = ∅ := by
    apply Finset.filter_eq_empty_iff.mpr
    intro z hz
    exact not_lt.mpr (hmin z (List.mem_toFinset.mp hz))
  simp [denseRank, this]

theorem getD_mem_map_range (n : Nat) (Y : List α) (i : Nat) (hi : i < n) :
    Y.getD i 0 ∈ (List.range n).map (fun k => Y.getD k 0) :=
  List.mem_map.mpr ⟨i, List.mem_range.mpr hi, rfl⟩

theorem card_image_eq_of_same_fibres {ι β γ : Type} [DecidableEq ι] [DecidableEq β]
    [DecidableEq γ] (S : Finset ι) (f : ι → β) (g : ι → γ)
    (h : ∀ a ∈ S, ∀ b ∈ S, f a = f b ↔ g a = g b) :
    (S.image f).card = (S.image g).card := by
  induction S using Finset.induction_on with
  | empty => simp
  | insert ha ih =>
    rename_i a s
    have ih' := ih (fun x hx y hy => h x (Finset.mem_insert_of_mem hx) y
      (Finset.mem_insert_of_mem hy))
    rw [Finset.image_insert, Finset.image_insert]
    by_cases hf : f a ∈ s.image f
    · have hg : g a ∈ s.image g := by
        obtain ⟨b, hb, hba⟩ := Finset.mem_image.mp hf
        exact Finset.mem_image.mpr ⟨b, hb,
          (h b (Finset.mem_insert_of_mem hb) a (Finset.mem_insert_self a s)).mp hba⟩
      rw [Finset.insert_eq_of_mem hf, Finset.insert_eq_of_mem hg, ih']
    · have hg : g a ∉ s.image g := by
        intro hg
        obtain ⟨b, hb, hba⟩ := Finset.mem_image.mp hg
        exact hf (Finset.mem_image.mpr ⟨b, hb,
          (h b (Finset.mem_insert_of_mem hb) a (Finset.mem_insert_self a s)).mpr hba⟩)
      rw [Finset.card_insert_of_not_mem hf, Finset.card_insert_of_not_mem hg, ih']

theorem toFinset_map_range (n : Nat) (F : Nat → α) :
    ((List.range n).map F).toFinset = (Finset.range n).image F := by
  ext z
  simp only [List.mem_toFinset, List.mem_map, List.mem_range, Finset.mem_image,
    Finset.mem_range]

theorem denseRank_map_range (n : Nat) (F : Nat → α) (x : α) :
    denseRank ((List.range n).map F) x
      = 1 + ((((Finset.range n).filter (fun j => F j < x)).image F).card : α) := by
  simp only [denseRank, toFinset_map_range, Finset.filter_image]

theorem card_filter_gt (v : List α) (x : α) (hx : x ∈ v) :
    ((v.toFinset).filter (fun y => x < y)).card + ((v.toFinset).filter (fun y => y < x)).card + 1
      = (v.toFinset).card := by
  have h1 := Finset.filter_card_add_filter_neg_card_eq_card (s := v.toFinset)
    (fun y => y < x)
  have h2 : (v.toFinset).filter (fun y => ¬ y < x)
      = insert x ((v.toFinset).filter (fun y => x < y)) := by
    ext z
    simp only [Finset.mem_filter, Finset.mem_insert, List.mem_toFinset, not_lt]
    constructor
    · rintro ⟨hz, hle⟩
      rcases hle.lt_or_eq with h | h
      · exact Or.inr ⟨hz, h⟩
      · exact Or.inl h.symm
    · rintro (h | ⟨hz, h⟩)
      · rw [h]; exact ⟨hx, le_refl _⟩
      · exact ⟨hz, h.le⟩
  have h3 : x ∉ (v.toFinset).filter (fun y => x < y) := fun h =>
    lt_irrefl _ (Finset.mem_filter.mp h).2
  rw [h2, Finset.card_insert_of_not_mem h3] at h1
  omega

theorem denseRank_reverse (n : Nat) (F G : Nat → α)
    (hrev : ∀ i j, i < n → j < n → (G i < G j ↔ F j < F i)) (i : Nat) (hi : i < n) :
    denseRank ((List.range n).map G) (G i)
      = ((((List.range n).map F).toFinset).card : α) + 1
        - denseRank ((List.range n).map F) (F i) := by
  have hfib : ∀ a ∈ (Finset.range n).filter (fun j => G j < G i),
      ∀ b ∈ (Finset.range n).filter (fun j => G j < G i), G a = G b ↔ F a = F b := by
    intro a ha b hb
    have ha' := Finset.mem_range.mp (Finset.mem_filter.mp ha).1
    have hb' := Finset.mem_range.mp (Finset.mem_filter.mp hb).1
    constructor
    · intro h
      apply le_antisymm
      · exact not_lt.mp (fun hlt => (h.ge.not_lt) ((hrev a b ha' hb').mpr hlt))
      · exact not_lt.mp (fun hlt => (h.le.not_lt) ((hrev b a hb' ha').mpr hlt))
    · intro h
      apply le_antisymm
      · exact not_lt.mp (fun hlt => (h.ge.not_lt) ((hrev b a hb' ha').mp hlt))
      · exact not_lt.mp (fun hlt => (h.le.not_lt) ((hrev a b ha' hb').mp hlt))
  have hidx : (Finset.range n).filter (fun j => G j < G i)
      = (Finset.range n).filter (fun j => F i < F j) := by
    ext j
    simp only [Finset.mem_filter, Finset.mem_range]
    constructor
    · rintro ⟨hj, h⟩; exact ⟨hj, (hrev j i hj hi).mp h⟩
    · rintro ⟨hj, h⟩; exact ⟨hj, (hrev j i hj hi).mpr h⟩
  have hcard : (((Finset.range n).filter (fun j => G j < G i)).image G).card
      = ((((List.range n).map F).toFinset).filter (fun y => F i < y)).card := by
    rw [card_image_eq_of_same_fibres _ G F hfib, hidx, toFinset_map_range,
      Finset.filter_image]
  have hmem : F i ∈ (List.range n).map F :=
    List.mem_map.mpr ⟨i, List.mem_range.mpr hi, rfl⟩
  have hsplit := card_filter_gt ((List.range n).map F) (F i) hmem
  rw [denseRank_map_range, hcard]
  simp only [denseRank]
  have hcast : (((((List.range n).map F).toFinset).filter (fun y => F i < y)).card : α)
      + (((((List.range n).map F).toFinset).filter (fun y => y < F i)).card : α) + 1
      = ((((List.range n).map F).toFinset).card : α) := by exact_mod_cast hsplit
  linarith

theorem length_meanSquareError {α : Type} [LinearOrderedField α] (d_progs : List (math_t α))
    (n_samples n_progs : Nat) (Y Y_pred W : List α) :
    (meanSquareError d_progs n_samples n_progs Y Y_pred W).length = d_progs.length := by
  simp [meanSquareError, length_updateLoop]

theorem scaled_term_cancel {α : Type} [LinearOrderedField α] (N w a WS : α) (hN : N ≠ 0) :
    N * w * a / WS / N = w * a / WS := by
  rw [mul_assoc, mul_div_assoc, mul_div_cancel_left₀ _ hN]

theorem scaled_error_sum {α : Type} [LinearOrderedField α] (n : Nat) (hn : 1 ≤ n)
    (W e : Nat → α) :
    sumLoop n (fun i => math_t.val ((n : α) * W i * e i)
        / math_t.val (∑ i in Finset.range n, W i) / math_t.val (n : α)) (math_t.val 0)
      = math_t.val (∑ i in Finset.range n, W i * e i)
          / math_t.val (∑ i in Finset.range n, W i) := by
  have hN : (n : α) ≠ 0 := by
    have : 0 < n := hn
    exact_mod_cast this.ne'
  by_cases hWS : (∑ i in Finset.range n, W i) = 0
  · rw [hWS, math_t.div_val_zero]
    exact sumLoop_undefined_term _ _ _ 0 hn (by simp)
  · simp only [math_t.val_div_val_of_ne _ _ hWS, math_t.val_div_val_of_ne _ _ hN,
      sumLoop_val, zero_add]
    congr 1
    rw [Finset.sum_div]
    exact Finset.sum_congr rfl (fun i _ => scaled_term_cancel _ _ _ _ hN)

theorem meanAbsoluteError_getElem? {α : Type} [LinearOrderedField α] [FloorRing α]
    (d_progs : List (math_t α)) (Y Y_pred W : List α) (n_samples n_progs pid : Nat)
    (hn : 1 ≤ n_samples) (hpid : pid < n_progs) (hd : pid < d_progs.length) :
    (meanAbsoluteError d_progs n_samples n_progs Y Y_pred W)[pid]?
      = some (math_t.val (∑ i in Finset.range n_samples,
          W.getD i 0 * intAbs (Y_pred.getD (pid * n_samples + i) 0 - Y.getD i 0))
          / math_t.val (∑ i in Finset.range n_samples, W.getD i 0)) := by
  simp only [meanAbsoluteError, getElem?_updateLoop, hpid, hd, and_self, if_true, rd_val,
    sumLoop_val, zero_add, math_t.val_sub_val, math_t.abs_val, math_t.val_mul_val]
  rw [scaled_error_sum n_samples hn (fun i => W.getD i 0)
    (fun i => intAbs (Y_pred.getD (pid * n_samples + i) 0 - Y.getD i 0))]

theorem meanSquareError_getElem? {α : Type} [LinearOrderedField α]
    (d_progs : List (math_t α)) (Y Y_pred W : List α) (n_samples n_progs pid : Nat)
    (hn : 1 ≤ n_samples) (hpid : pid < n_progs) (hd : pid < d_progs.length) :
    (meanSquareError d_progs n_samples n_progs Y Y_pred W)[pid]?
      = some (math_t.val (∑ i in Finset.range n_samples,
          W.getD i 0 * (Y_pred.getD (pid * n_samples + i) 0 - Y.getD i 0) ^ 2)
          / math_t.val (∑ i in Finset.range n_samples, W.getD i 0)) := by
  simp only [meanSquareError, getElem?_updateLoop, hpid, hd, and_self, if_true, rd_val,
    sumLoop_val, zero_add, math_t.val_sub_val, math_t.val_mul_val]
  have h := scaled_error_sum n_samples hn (fun i => W.getD i 0)
    (fun i => (Y_pred.getD (pid * n_samples + i) 0 - Y.getD i 0) ^ 2)
  simp only [sq, ← mul_assoc] at h ⊢
  rw [h]

theorem rootMeanSquareError_getElem? {α : Type} [LinearOrderedField α] (sqrt : α → α)
    (d_progs : List (math_t α)) (Y Y_pred W : List α) (n_samples n_progs pid : Nat)
    (hpid : pid < n_progs) (hd : pid < d_progs.length) :
    (rootMeanSquareError sqrt d_progs n_samples n_progs Y Y_pred W)[pid]?
      = some (math_t.sqrt sqrt
          ((meanSquareError d_progs n_samples n_progs Y Y_pred W)[pid]?.getD math_t.undefined)) := by
  simp only [rootMeanSquareError, getElem?_updateLoop, length_meanSquareError, hpid, hd,
    and_self, if_true]

/-- With `y_mu` of `weightedPearson` entered as `0`: for a target with at least
two distinct values, uniform positive weights and a program whose predictions
reverse the order of `Y`, `weightedSpearman` writes fitness `-1`. -/
theorem weightedSpearman_init_zero_reverse
    (sort : (Nat → Nat → Bool) → List Nat → List Nat) (hsort : SortContract ℝ sort)
    (d_progs : List (math_t ℝ)) (Y Y_pred W : List ℝ) (n_samples n_progs pid : Nat)
    (w : ℝ) (hw : 0 < w)
    (hW : ∀ i, i < n_samples → W.getD i 0 = w)
    (hpid : pid < n_progs) (hd : pid < d_progs.length)
    (hdist : ∃ i j, i < n_samples ∧ j < n_samples ∧ Y.getD i 0 ≠ Y.getD j 0)
    (hrev : ∀ i j, i < n_samples → j < n_samples →
      (Y_pred.getD (pid * n_samples + i) 0 < Y_pred.getD (pid * n_samples + j) 0
        ↔ Y.getD j 0 < Y.getD i 0)) :
    (weightedSpearman Real.sqrt sort (math_t.val 0) d_progs n_samples n_progs Y Y_pred
      W (seqSched n_progs))[pid]? = some (math_t.val (-1)) := by
  obtain ⟨i0, j0, hi0, hj0, hne⟩ := hdist
  have hn : 1 ≤ n_samples := by omega
  rw [weightedSpearman_getElem? _ _ hsort, if_pos ⟨hpid, hd⟩]
  congr 1
  set RY : Nat → ℝ := fun i =>
    denseRank ((List.range n_samples).map (fun k => Y.getD k 0)) (Y.getD i 0) with hRY
  set K : ℝ := ((((List.range n_samples).map (fun k => Y.getD k 0)).toFinset).card : ℝ)
    with hK
  rw [pearsonCell_congr Real.sqrt (math_t.val 0) n_samples RY RY _
    (fun i => (-1) * RY i + (K + 1)) _ (fun _ _ => rfl)
    (fun i hi => by
      rw [denseRank_reverse n_samples (fun k => Y.getD k 0)
        (fun k => Y_pred.getD (pid * n_samples + k) 0) hrev i hi]
      simp only [hRY, hK]
      ring)]
  have hRne : RY i0 ≠ RY j0 := by
    have hmi := getD_mem_map_range n_samples Y i0 hi0
    have hmj := getD_mem_map_range n_samples Y j0 hj0
    rcases lt_or_gt_of_ne hne with h | h
    · exact ((denseRank_lt_iff _ _ _ hmi hmj).mp h).ne
    · exact ((denseRank_lt_iff _ _ _ hmj hmi).mp h).ne'
  have hV : 0 < ∑ i in Finset.range n_samples,
      (RY i - weightedMean n_samples RY (fun i => W.getD i 0)) ^ 2 * W.getD i 0 := by
    have hk : ∃ k, k < n_samples ∧ RY k ≠ weightedMean n_samples RY (fun i => W.getD i 0) := by
      by_cases h : RY i0 = weightedMean n_samples RY (fun i => W.getD i 0)
      · exact ⟨j0, hj0, fun h' => hRne (h.trans h'.symm)⟩
      · exact ⟨i0, hi0, h⟩
    obtain ⟨k, hk, hkne⟩ := hk
    apply Finset.sum_pos'
    · intro i hi
      rw [hW i (Finset.mem_range.mp hi)]
      exact mul_nonneg (sq_nonneg _) hw.le
    · refine ⟨k, Finset.mem_range.mpr hk, ?_⟩
      rw [hW k hk]
      exact mul_pos (sq_pos_of_ne_zero (sub_ne_zero.mpr hkne)) hw
  rw [pearsonCell_init_zero_affine n_samples RY (fun i => W.getD i 0) (-1) (K + 1)
    (by norm_num) (fun i hi => by show 0 ≤ W.getD i 0; rw [hW i hi]; exact hw.le) hV]
  norm_num

@[simp] theorem math_t.neg_val (x : α) : (-(math_t.val x) : math_t α) = math_t.val (-x) := rfl

@[simp] theorem math_t.neg_undefined : (-(math_t.undefined) : math_t α) = math_t.undefined :=
  rfl

@[simp] theorem math_t.exp_val {β : Type} (f : β → β) (x : β) :
    math_t.exp f (math_t.val x) = math_t.val (f x) := rfl

theorem math_t.log1p_val (f : α → α) (x : α) :
    math_t.log1p f (math_t.val x)
      = if x ≤ -1 then math_t.undefined else math_t.val (f x) := rfl

theorem math_t.log1p_val_of_gt (f : α → α) (x : α) (hx : -1 < x) :
    math_t.log1p f (math_t.val x) = math_t.val (f x) := by
  rw [math_t.log1p_val, if_neg (not_le.mpr hx)]

theorem logLoss_getElem?_full (exp log1p : α → α) (d_progs : List (math_t α))
    (Y Y_pred W : List α) (n_samples n_progs pid : Nat) :
    (logLoss exp log1p d_progs n_samples n_progs Y Y_pred W)[pid]?
      = if pid < n_progs ∧ pid < d_progs.length then
          some (sumLoop n_samples
            (fun i => logLossTerm exp log1p (Y.getD i 0) (Y_pred.getD (pid * n_samples + i) 0)
              * (math_t.val (W.getD i 0)
                / math_t.val (∑ i in Finset.range n_samples, W.getD i 0))) (math_t.val 0))
        else d_progs[pid]? := by
  simp only [logLoss, getElem?_updateLoop, rd_val, logLossFactor_val, sumLoop_val, zero_add]

theorem logsig_real (yp : ℝ) :
    logsig Real.exp (fun x => Real.log (1 + x)) yp
      = math_t.val (logsigSpec Real.exp (fun x => Real.log (1 + x)) yp) := by
  unfold logsig logsigSpec
  by_cases h1 : yp < -33.3
  · rw [if_pos h1, if_pos h1]
  · rw [if_neg h1, if_neg h1]
    have h1' : (-33.3 : ℝ) ≤ yp := not_lt.mp h1
    by_cases h2 : yp ≤ -18
    · rw [if_pos h2, if_pos ⟨h1', h2⟩, math_t.exp_val, math_t.val_sub_val]
    · rw [if_neg h2, if_neg (show ¬ ((-33.3 : ℝ) ≤ yp ∧ yp ≤ -18) from fun h => h2 h.2)]
      have h2' : (-18 : ℝ) < yp := not_le.mp h2
      by_cases h3 : yp ≤ 37
      · rw [if_pos h3, if_pos ⟨h2', h3⟩, math_t.neg_val, math_t.exp_val,
          math_t.log1p_val_of_gt _ _ (lt_trans (by norm_num) (Real.exp_pos _)),
          math_t.neg_val]
      · rw [if_neg h3, if_neg (show ¬ ((-18 : ℝ) < yp ∧ yp ≤ 37) from fun h => h3 h.2),
          if_pos (not_le.mp h3), math_t.neg_val,
          math_t.exp_val, math_t.neg_val]

theorem logLossTerm_real (y yp : ℝ) :
    logLossTerm Real.exp (fun x => Real.log (1 + x)) y yp
      = math_t.val ((1 - y) * yp - logsigSpec Real.exp (fun x => Real.log (1 + x)) yp) := by
  rw [logLossTerm, logsig_real, math_t.val_sub_val, math_t.val_mul_val, math_t.val_sub_val]

theorem logLoss_real_getElem? (d_progs : List (math_t ℝ)) (Y Y_pred W : List ℝ)
    (n_samples n_progs pid : Nat) (hpid : pid < n_progs) (hd : pid < d_progs.length) :
    (logLoss Real.exp (fun x => Real.log (1 + x)) d_progs n_samples n_progs Y Y_pred W)[pid]?
      = some (sumLoop n_samples
          (fun i => math_t.val ((1 - Y.getD i 0) * Y_pred.getD (pid * n_samples + i) 0
              - logsigSpec Real.exp (fun x => Real.log (1 + x))
                  (Y_pred.getD (pid * n_samples + i) 0))
            * (math_t.val (W.getD i 0)
              / math_t.val (∑ i in Finset.range n_samples, W.getD i 0))) (math_t.val 0)) := by
  rw [logLoss_getElem?_full, if_pos ⟨hpid, hd⟩]
  simp only [logLossTerm_real]

theorem logLoss_real_getElem?_of_ne (d_progs : List (math_t ℝ)) (Y Y_pred W : List ℝ)
    (n_samples n_progs pid : Nat) (hpid : pid < n_progs) (hd : pid < d_progs.length)
    (hWS : (∑ i in Finset.range n_samples, W.getD i 0) ≠ 0) :
    (logLoss Real.exp (fun x => Real.log (1 + x)) d_progs n_samples n_progs Y Y_pred W)[pid]?
      = some (math_t.val (∑ i in Finset.range n_samples,
          ((1 - Y.getD i 0) * Y_pred.getD (pid * n_samples + i) 0
              - logsigSpec Real.exp (fun x => Real.log (1 + x))
                  (Y_pred.getD (pid * n_samples + i) 0))
            * (W.getD i 0 / ∑ i in Finset.range n_samples, W.getD i 0))) := by
  rw [logLoss_real_getElem? _ _ _ _ _ _ _ hpid hd]
  simp only [math_t.val_div_val_of_ne _ _ hWS, math_t.val_mul_val, sumLoop_val, zero_add]

theorem logsigSpec_real_points :
    logsigSpec Real.exp (fun x => Real.log (1 + x)) (-40) = -40 ∧
    logsigSpec Real.exp (fun x => Real.log (1 + x)) (-20) = -20 - Real.exp (-20) ∧
    logsigSpec Real.exp (fun x => Real.log (1 + x)) 0 = -Real.log 2 ∧
    logsigSpec Real.exp (fun x => Real.log (1 + x)) 40 = -Real.exp (-40) := by
  refine ⟨?_, ?_, ?_, ?_⟩
  · unfold logsigSpec
    norm_num
  · unfold logsigSpec
    norm_num
  · unfold logsigSpec
    norm_num
  · unfold logsigSpec
    norm_num

theorem logLossTerm_real_nonneg (y yp : ℝ) (hy : y = 0 ∨ y = 1) :
    0 ≤ (1 - y) * yp - logsigSpec Real.exp (fun x => Real.log (1 + x)) yp := by
  unfold logsigSpec
  by_cases h1 : yp < -33.3
  · rw [if_pos h1]
    rcases hy with h | h
    · rw [h]; linarith
    · rw [h]
      have : yp < 0 := lt_trans h1 (by norm_num)
      linarith
  · rw [if_neg h1]
    have h1' : (-33.3 : ℝ) ≤ yp := not_lt.mp h1
    by_cases h2 : yp ≤ -18
    · rw [if_pos ⟨h1', h2⟩]
      have he := Real.exp_pos yp
      rcases hy with h | h
      · rw [h]; linarith
      · rw [h]
        have : yp < 0 := lt_of_le_of_lt h2 (by norm_num)
        linarith
    · rw [if_neg (show ¬ ((-33.3 : ℝ) ≤ yp ∧ yp ≤ -18) from fun h => h2 h.2)]
      have h2' : (-18 : ℝ) < yp := not_le.mp h2
      by_cases h3 : yp ≤ 37
      · rw [if_pos ⟨h2', h3⟩]
        have he := Real.exp_pos (-yp)
        have hlog : 0 ≤ Real.log (1 + Real.exp (-yp)) := Real.log_nonneg (by linarith)
        rcases hy with h | h
        · rw [h]
          have hyp : yp = Real.log (Real.exp yp) := (Real.log_exp yp).symm
          have hsum : Real.log (Real.exp yp) + Real.log (1 + Real.exp (-yp))
              = Real.log (Real.exp yp + 1) := by
            rw [← Real.log_mul (Real.exp_pos yp).ne' (by linarith)]
            congr 1
            rw [mul_add, mul_one, ← Real.exp_add, add_neg_cancel, Real.exp_zero]
          have hpos : 0 ≤ Real.log (Real.exp yp + 1) :=
            Real.log_nonneg (by linarith [Real.exp_pos yp])
          simp only [sub_zero, one_mul, sub_neg_eq_add]
          linarith
        · rw [h]
          simp only [sub_self, zero_mul, zero_sub, neg_neg]
          exact hlog
      · rw [if_neg (show ¬ ((-18 : ℝ) < yp ∧ yp ≤ 37) from fun h => h3 h.2),
          if_pos (not_le.mp h3)]
        have he := Real.exp_pos (-yp)
        have h3' : (37 : ℝ) < yp := not_le.mp h3
        rcases hy with h | h
        · rw [h]; linarith
        · rw [h]; linarith

/-- Row `pid` of a prediction matrix, passed as the matrix of a one-program
batch, is read at `0 * n + i` as the whole matrix is at `pid * n + i`. -/
theorem getD_row {β : Type} (X : List β) (n pid i : Nat) (hi : i < n) (z : β) :
    ((X.drop (pid * n)).take n).getD (0 * n + i) z = X.getD (pid * n + i) z := by
  simp only [Nat.zero_mul, Nat.zero_add, List.getD_eq_getElem?_getD, List.getElem?_take, hi,
    if_true, List.getElem?_drop]

theorem meanAbsoluteError_getElem?_full [FloorRing α] (d_progs : List (math_t α))
    (Y Y_pred W : List α)
    (n_samples n_progs pid : Nat) (hpid : pid < n_progs) (hd : pid < d_progs.length) :
    (meanAbsoluteError d_progs n_samples n_progs Y Y_pred W)[pid]?
      = some (sumLoop n_samples
          (fun i => math_t.val (n_samples : α) * rd W i
              * math_t.abs (math_t.val (Y_pred.getD (pid * n_samples + i) 0) - rd Y i)
              / sumLoop n_samples (fun i => rd W i) (math_t.val 0)
              / math_t.val (n_samples : α)) (math_t.val 0)) := by
  simp only [meanAbsoluteError, getElem?_updateLoop, hpid, hd, and_self, if_true, rd_val]

theorem meanSquareError_getElem?_full (d_progs : List (math_t α)) (Y Y_pred W : List α)
    (n_samples n_progs pid : Nat) (hpid : pid < n_progs) (hd : pid < d_progs.length) :
    (meanSquareError d_progs n_samples n_progs Y Y_pred W)[pid]?
      = some (sumLoop n_samples
          (fun i => math_t.val (n_samples : α) * rd W i
              * (math_t.val (Y_pred.getD (pid * n_samples + i) 0) - rd Y i)
              * (math_t.val (Y_pred.getD (pid * n_samples + i) 0) - rd Y i)
              / sumLoop n_samples (fun i => rd W i) (math_t.val 0)
              / math_t.val (n_samples : α)) (math_t.val 0)) := by
  simp only [meanSquareError, getElem?_updateLoop, hpid, hd, and_self, if_true, rd_val]

theorem weightedPearson_row (sqrt : α → α) (y_mu0 : math_t α) (d_progs : List (math_t α))
    (d0 : math_t α) (Y X W : List α) (n_samples n_progs pid : Nat) (hpid : pid < n_progs)
    (hd : pid < d_progs.length) :
    (weightedPearson sqrt y_mu0 d_progs n_samples n_progs Y X W)[pid]?
      = (weightedPearson sqrt y_mu0 [d0] n_samples 1 Y
          ((X.drop (pid * n_samples)).take n_samples) W)[0]? := by
  rw [weightedPearson_getElem? _ _ _ _ _ _ _ _ _ hpid hd,
    weightedPearson_getElem? _ _ _ _ _ _ _ _ _ Nat.zero_lt_one (by simp)]
  congr 1
  exact pearsonCell_congr _ _ _ _ _ _ _ _ (fun _ _ => rfl)
    (fun i hi => (getD_row X n_samples pid i hi 0).symm)

theorem weightedSpearman_row (sqrt : α → α)
    (sort : (Nat → Nat → Bool) → List Nat → List Nat) (hsort : SortContract α sort)
    (y_mu0 : math_t α) (d_progs : List (math_t α)) (d0 : math_t α) (Y X W : List α)
    (n_samples n_progs pid : Nat) (hpid : pid < n_progs) (hd : pid < d_progs.length) :
    (weightedSpearman sqrt sort y_mu0 d_progs n_samples n_progs Y X W
        (seqSched n_progs))[pid]?
      = (weightedSpearman sqrt sort y_mu0 [d0] n_samples 1 Y
          ((X.drop (pid * n_samples)).take n_samples) W (seqSched 1))[0]? := by
  rw [weightedSpearman_getElem? sqrt sort hsort, weightedSpearman_getElem? sqrt sort hsort,
    if_pos ⟨hpid, hd⟩, if_pos ⟨Nat.zero_lt_one, by simp⟩]
  congr 1
  have hl : (List.range n_samples).map (fun k => X.getD (pid * n_samples + k) 0)
      = (List.range n_samples).map
          (fun k => ((X.drop (pid * n_samples)).take n_samples).getD (0 * n_samples + k) 0) :=
    List.map_congr_left (fun k hk => (getD_row X n_samples pid k (List.mem_range.mp hk) 0).symm)
  rw [hl]
  exact pearsonCell_congr _ _ _ _ _ _ _ _ (fun _ _ => rfl)
    (fun i hi => by rw [getD_row X n_samples pid i hi 0])

theorem meanAbsoluteError_row [FloorRing α] (d_progs : List (math_t α)) (d0 : math_t α)
    (Y X W : List α)
    (n_samples n_progs pid : Nat) (hpid : pid < n_progs) (hd : pid < d_progs.length) :
    (meanAbsoluteError d_progs n_samples n_progs Y X W)[pid]?
      = (meanAbsoluteError [d0] n_samples 1 Y
          ((X.drop (pid * n_samples)).take n_samples) W)[0]? := by
  rw [meanAbsoluteError_getElem?_full _ _ _ _ _ _ _ hpid hd,
    meanAbsoluteError_getElem?_full _ _ _ _ _ _ _ Nat.zero_lt_one (by simp)]
  congr 1
  exact sumLoop_congr _ _ _ _ (fun i hi => by rw [getD_row X n_samples pid i hi 0])

theorem meanSquareError_row (d_progs : List (math_t α)) (d0 : math_t α) (Y X W : List α)
    (n_samples n_progs pid : Nat) (hpid : pid < n_progs) (hd : pid < d_progs.length) :
    (meanSquareError d_progs n_samples n_progs Y X W)[pid]?
      = (meanSquareError [d0] n_samples 1 Y
          ((X.drop (pid * n_samples)).take n_samples) W)[0]? := by
  rw [meanSquareError_getElem?_full _ _ _ _ _ _ _ hpid hd,
    meanSquareError_getElem?_full _ _ _ _ _ _ _ Nat.zero_lt_one (by simp)]
  congr 1
  exact sumLoop_congr _ _ _ _ (fun i hi => by rw [getD_row X n_samples pid i hi 0])

theorem rootMeanSquareError_row (sqrt : α → α) (d_progs : List (math_t α)) (d0 : math_t α)
    (Y X W : List α) (n_samples n_progs pid : Nat) (hpid : pid < n_progs)
    (hd : pid < d_progs.length) :
    (rootMeanSquareError sqrt d_progs n_samples n_progs Y X W)[pid]?
      = (rootMeanSquareError sqrt [d0] n_samples 1 Y
          ((X.drop (pid * n_samples)).take n_samples) W)[0]? := by
  rw [rootMeanSquareError_getElem? _ _ _ _ _ _ _ _ hpid hd,
    rootMeanSquareError_getElem? _ _ _ _ _ _ _ _ Nat.zero_lt_one (by simp),
    meanSquareError_row d_progs d0 Y X W n_samples n_progs pid hpid hd]

theorem logLoss_row (exp log1p : α → α) (d_progs : List (math_t α)) (d0 : math_t α)
    (Y X W : List α) (n_samples n_progs pid : Nat) (hpid : pid < n_progs)
    (hd : pid < d_progs.length) :
    (logLoss exp log1p d_progs n_samples n_progs Y X W)[pid]?
      = (logLoss exp log1p [d0] n_samples 1 Y
          ((X.drop (pid * n_samples)).take n_samples) W)[0]? := by
  simp only [logLoss, getElem?_updateLoop, hpid, hd, and_self, if_true, Nat.zero_lt_one,
    List.length_singleton, rd_val]
  congr 1
  exact sumLoop_congr _ _ _ _ (fun i hi => by rw [getD_row X n_samples pid i hi 0])

/-- Cauchy-Schwarz with non-negative weights. -/
theorem weighted_cauchy_schwarz (n : Nat) (W xd yd : Nat → ℝ)
    (hW : ∀ i, i < n → 0 ≤ W i) :
    (∑ i in Finset.range n, W i * xd i * yd i) ^ 2
      ≤ (∑ i in Finset.range n, yd i * yd i * W i)
        * ∑ i in Finset.range n, xd i * xd i * W i :=
  Finset.sum_sq_le_sum_mul_sum_of_sq_eq_mul (Finset.range n)
    (fun i hi => mul_nonneg (mul_self_nonneg _) (hW i (Finset.mem_range.mp hi)))
    (fun i hi => mul_nonneg (mul_self_nonneg _) (hW i (Finset.mem_range.mp hi)))
    (fun i _ => by ring)

theorem quotient_abs_le_one (num A B : ℝ) (hA : 0 < A) (hB : 0 < B)
    (h : num ^ 2 ≤ A * B) :
    -1 ≤ num / (Real.sqrt A * Real.sqrt B) ∧ num / (Real.sqrt A * Real.sqrt B) ≤ 1 := by
  have hpos : 0 < Real.sqrt A * Real.sqrt B :=
    mul_pos (Real.sqrt_pos.mpr hA) (Real.sqrt_pos.mpr hB)
  have habs : |num| ≤ Real.sqrt A * Real.sqrt B := by
    rw [← Real.sqrt_mul hA.le]
    exact Real.abs_le_sqrt h
  obtain ⟨h1, h2⟩ := abs_le.mp habs
  constructor
  · rw [le_div_iff₀ hpos]
    linarith
  · rw [div_le_one hpos]
    exact h2

/-- The sum of squared deviations about any centre `c` is the one about the
weighted mean plus `Σ W · (mean - c)²`. -/
theorem sqDev_centre_shift (n : Nat) (V W : Nat → ℝ) (c : ℝ)
    (hWS : (∑ i in Finset.range n, W i) ≠ 0) :
    sqDev n V W c
      = (∑ i in Finset.range n, (V i - weightedMean n V W) ^ 2 * W i)
        + (∑ i in Finset.range n, W i) * (weightedMean n V W - c) ^ 2 := by
  set m := weightedMean n V W with hm
  have hmean : ∑ i in Finset.range n, V i * W i = m * ∑ i in Finset.range n, W i := by
    rw [hm, weightedMean, div_mul_cancel₀ _ hWS]
  have hzero : ∑ i in Finset.range n, (V i - m) * W i = 0 := by
    simp only [sub_mul, Finset.sum_sub_distrib, ← Finset.mul_sum, hmean, sub_self]
  have hsplit : sqDev n V W c
      = (∑ i in Finset.range n, (V i - m) ^ 2 * W i)
        + (2 * (m - c)) * (∑ i in Finset.range n, (V i - m) * W i)
        + (m - c) ^ 2 * ∑ i in Finset.range n, W i := by
    simp only [sqDev, Finset.mul_sum, ← Finset.sum_add_distrib]
    exact Finset.sum_congr rfl (fun i _ => by ring)
  rw [hsplit, hzero]
  ring

/-- For a real entry value of `y_mu`, non-negative weights and non-zero weighted
deviations of target and row, the value `pearsonCell` leaves is a number between
`-1` and `1`. -/
theorem pearsonCell_real_range (y_mu0 : ℝ) (n : Nat) (Y Xrow W : Nat → ℝ)
    (hW : ∀ i, i < n → 0 ≤ W i)
    (hsy : weightedSigma Real.sqrt n Y W ≠ 0) (hsx : weightedSigma Real.sqrt n Xrow W ≠ 0) :
    ∃ v : ℝ, pearsonCell Real.sqrt (math_t.val y_mu0) n Y Xrow W = math_t.val v
      ∧ -1 ≤ v ∧ v ≤ 1 := by
  have hVy : 0 < ∑ i in Finset.range n, (Y i - weightedMean n Y W) ^ 2 * W i :=
    Real.sqrt_ne_zero'.mp hsy
  have hVx : 0 < ∑ i in Finset.range n, (Xrow i - weightedMean n Xrow W) ^ 2 * W i :=
    Real.sqrt_ne_zero'.mp hsx
  have hWSpos := weightSum_pos_of_variance_pos n Y W hW hVy
  have hWS := hWSpos.ne'
  have hn : 1 ≤ n := by
    rcases Nat.eq_zero_or_pos n with h | h
    · rw [h] at hVy; simp at hVy
    · exact h
  have hA : 0 < sqDev n Y W
      ((y_mu0 + ∑ i in Finset.range n, Y i * W i) / ∑ i in Finset.range n, W i) := by
    rw [sqDev_centre_shift n Y W _ hWS]
    have := mul_nonneg hWSpos.le (sq_nonneg (weightedMean n Y W
      - (y_mu0 + ∑ i in Finset.range n, Y i * W i) / ∑ i in Finset.range n, W i))
    linarith
  have hB : 0 < sqDev n Xrow W
      ((∑ i in Finset.range n, Xrow i * W i) / ∑ i in Finset.range n, W i) := by
    rw [sqDev_eq_sum_sq]
    exact hVx
  refine ⟨_, pearsonCell_real_eq_val y_mu0 n Y Xrow W hWS hA hB, ?_⟩
  rw [pearsonRow_eq_quotient Real.sqrt y_mu0 n Y Xrow W hn]
  exact quotient_abs_le_one _ _ _ hA hB (weighted_cauchy_schwarz n W _ _ hW)

/-- Reading the weights rescaled by `c`. -/
theorem getD_map_scale (W : List α) (c : α) (i : Nat) :
    (W.map (fun w => c * w)).getD i 0 = c * W.getD i 0 := by
  simp only [List.getD_eq_getElem?_getD, List.getElem?_map]
  cases W[i]? <;> simp

theorem sum_getD_map_scale (W : List α) (c : α) (n : Nat) (e : Nat → α) :
    ∑ i in Finset.range n, (W.map (fun w => c * w)).getD i 0 * e i
      = c * ∑ i in Finset.range n, W.getD i 0 * e i := by
  rw [Finset.mul_sum]
  exact Finset.sum_congr rfl (fun i _ => by rw [getD_map_scale, mul_assoc])

theorem sum_getD_map_scale_one (W : List α) (c : α) (n : Nat) :
    ∑ i in Finset.range n, (W.map (fun w => c * w)).getD i 0
      = c * ∑ i in Finset.range n, W.getD i 0 := by
  rw [Finset.mul_sum]
  exact Finset.sum_congr rfl (fun i _ => getD_map_scale W c i)

theorem one_le_of_sum_ne_zero (n : Nat) (f : Nat → α)
    (h : (∑ i in Finset.range n, f i) ≠ 0) : 1 ≤ n := by
  rcases Nat.eq_zero_or_pos n with h0 | h0
  · rw [h0] at h; simp at h
  · exact h0

/-- Rescaling the weights by `c ≠ 0` leaves the fitness written by
`meanAbsoluteError` unchanged when the weights do not sum to `0`. -/
theorem meanAbsoluteError_scale [FloorRing α] (d_progs : List (math_t α))
    (Y Y_pred W : List α)
    (n_samples n_progs pid : Nat) (c : α) (hc : c ≠ 0) (hpid : pid < n_progs)
    (hd : pid < d_progs.length) (hWS : (∑ i in Finset.range n_samples, W.getD i 0) ≠ 0) :
    (meanAbsoluteError d_progs n_samples n_progs Y Y_pred (W.map (fun w => c * w)))[pid]?
      = (meanAbsoluteError d_progs n_samples n_progs Y Y_pred W)[pid]? := by
  have hn := one_le_of_sum_ne_zero n_samples _ hWS
  rw [meanAbsoluteError_getElem? _ _ _ _ _ _ _ hn hpid hd,
    meanAbsoluteError_getElem? _ _ _ _ _ _ _ hn hpid hd, sum_getD_map_scale,
    sum_getD_map_scale_one, math_t.val_div_val_of_ne _ _ (mul_ne_zero hc hWS),
    math_t.val_div_val_of_ne _ _ hWS, mul_div_mul_left _ _ hc]

/-- Rescaling the weights by `c ≠ 0` leaves the fitness written by
`meanSquareError` unchanged when the weights do not sum to `0`. -/
theorem meanSquareError_scale (d_progs : List (math_t α)) (Y Y_pred W : List α)
    (n_samples n_progs pid : Nat) (c : α) (hc : c ≠ 0) (hpid : pid < n_progs)
    (hd : pid < d_progs.length) (hWS : (∑ i in Finset.range n_samples, W.getD i 0) ≠ 0) :
    (meanSquareError d_progs n_samples n_progs Y Y_pred (W.map (fun w => c * w)))[pid]?
      = (meanSquareError d_progs n_samples n_progs Y Y_pred W)[pid]? := by
  have hn := one_le_of_sum_ne_zero n_samples _ hWS
  rw [meanSquareError_getElem? _ _ _ _ _ _ _ hn hpid hd,
    meanSquareError_getElem? _ _ _ _ _ _ _ hn hpid hd, sum_getD_map_scale,
    sum_getD_map_scale_one, math_t.val_div_val_of_ne _ _ (mul_ne_zero hc hWS),
    math_t.val_div_val_of_ne _ _ hWS, mul_div_mul_left _ _ hc]

/-- Rescaling the weights by `c ≠ 0` leaves the fitness written by
`rootMeanSquareError` unchanged when the weights do not sum to `0`. -/
theorem rootMeanSquareError_scale (sqrt : α → α) (d_progs : List (math_t α))
    (Y Y_pred W : List α) (n_samples n_progs pid : Nat) (c : α) (hc : c ≠ 0)
    (hpid : pid < n_progs) (hd : pid < d_progs.length)
    (hWS : (∑ i in Finset.range n_samples, W.getD i 0) ≠ 0) :
    (rootMeanSquareError sqrt d_progs n_samples n_progs Y Y_pred
        (W.map (fun w => c * w)))[pid]?
      = (rootMeanSquareError sqrt d_progs n_samples n_progs Y Y_pred W)[pid]? := by
  rw [rootMeanSquareError_getElem? _ _ _ _ _ _ _ _ hpid hd,
    rootMeanSquareError_getElem? _ _ _ _ _ _ _ _ hpid hd,
    meanSquareError_scale d_progs Y Y_pred W n_samples n_progs pid c hc hpid hd hWS]

/-- Rescaling the weights by `c ≠ 0` leaves the fitness written by `logLoss`
unchanged when the weights do not sum to `0`. -/
theorem logLoss_scale (exp log1p : α → α) (d_progs : List (math_t α)) (Y Y_pred W : List α)
    (n_samples n_progs pid : Nat) (c : α) (hc : c ≠ 0) (hpid : pid < n_progs)
    (hd : pid < d_progs.length) (hWS : (∑ i in Finset.range n_samples, W.getD i 0) ≠ 0) :
    (logLoss exp log1p d_progs n_samples n_progs Y Y_pred (W.map (fun w => c * w)))[pid]?
      = (logLoss exp log1p d_progs n_samples n_progs Y Y_pred W)[pid]? := by
  simp only [logLoss, getElem?_updateLoop, hpid, hd, and_self, if_true, rd_val, sumLoop_val,
    zero_add, getD_map_scale, ← Finset.mul_sum,
    math_t.val_div_val_of_ne _ _ (mul_ne_zero hc hWS), math_t.val_div_val_of_ne _ _ hWS,
    mul_div_mul_left _ _ hc]

theorem weightedMean_scale (n : Nat) (V W : Nat → ℝ) (c : ℝ) (hc : c ≠ 0) :
    weightedMean n V (fun i => c * W i) = weightedMean n V W := by
  simp only [weightedMean]
  have h1 : ∑ i in Finset.range n, V i * (c * W i) = c * ∑ i in Finset.range n, V i * W i := by
    rw [Finset.mul_sum]
    exact Finset.sum_congr rfl (fun i _ => by ring)
  rw [h1, ← Finset.mul_sum, mul_div_mul_left _ _ hc]

/-- With `y_mu` entered as `0`, positive weight sum and non-zero deviations,
the value `pearsonCell` leaves does not change when the weights are rescaled by
`c > 0`. -/
theorem pearsonCell_init_zero_scale (n : Nat) (Y Xrow W : Nat → ℝ) (c : ℝ) (hc : 0 < c)
    (hWS : (∑ i in Finset.range n, W i) ≠ 0)
    (hVy : 0 < ∑ i in Finset.range n, (Y i - weightedMean n Y W) ^ 2 * W i)
    (hVx : 0 < ∑ i in Finset.range n, (Xrow i - weightedMean n Xrow W) ^ 2 * W i) :
    pearsonCell Real.sqrt (math_t.val 0) n Y Xrow (fun i => c * W i)
      = pearsonCell Real.sqrt (math_t.val 0) n Y Xrow W := by
  have hn := one_le_of_sum_ne_zero n _ hWS
  have hsc : ∀ V : Nat → ℝ,
      ∑ i in Finset.range n, (V i - weightedMean n V W) ^ 2 * (c * W i)
        = c * ∑ i in Finset.range n, (V i - weightedMean n V W) ^ 2 * W i := fun V => by
    rw [Finset.mul_sum]
    exact Finset.sum_congr rfl (fun i _ => by ring)
  have hWS' : (∑ i in Finset.range n, c * W i) ≠ 0 := by
    rw [← Finset.mul_sum]
    exact mul_ne_zero hc.ne' hWS
  have key : ∀ (W' : Nat → ℝ), (∑ i in Finset.range n, W' i) ≠ 0 →
      0 < (∑ i in Finset.range n, (Y i - weightedMean n Y W') ^ 2 * W' i) →
      0 < (∑ i in Finset.range n, (Xrow i - weightedMean n Xrow W') ^ 2 * W' i) →
      pearsonCell Real.sqrt (math_t.val 0) n Y Xrow W'
        = math_t.val (standardWeightedPearson Real.sqrt n Y Xrow W') := by
    intro W' h1 h2 h3
    rw [pearsonCell_real_eq_val 0 n Y Xrow W' h1
      (by rw [sqDev_eq_sum_sq, zero_add]; exact h2) (by rw [sqDev_eq_sum_sq]; exact h3),
      pearsonRow_init_zero_eq_standard Real.sqrt n Y Xrow W' hn]
  rw [key W hWS hVy hVx, key (fun i => c * W i) hWS'
    (by rw [weightedMean_scale n Y W c hc.ne', hsc]; exact mul_pos hc hVy)
    (by rw [weightedMean_scale n Xrow W c hc.ne', hsc]; exact mul_pos hc hVx)]
  congr 1
  simp only [standardWeightedPearson, weightedSigma, weightedMean_scale n _ W c hc.ne', hsc]
  have hnum : ∑ i in Finset.range n,
      c * W i * (Xrow i - weightedMean n Xrow W) * (Y i - weightedMean n Y W)
      = c * ∑ i in Finset.range n,
          W i * (Xrow i - weightedMean n Xrow W) * (Y i - weightedMean n Y W) := by
    rw [Finset.mul_sum]
    exact Finset.sum_congr rfl (fun i _ => by ring)
  rw [hnum, Real.sqrt_mul hc.le, Real.sqrt_mul hc.le]
  have hden : ∀ a b : ℝ, Real.sqrt c * a * (Real.sqrt c * b) = c * (a * b) := fun a b => by
    calc Real.sqrt c * a * (Real.sqrt c * b) = (Real.sqrt c * Real.sqrt c) * (a * b) := by ring
      _ = c * (a * b) := by rw [Real.mul_self_sqrt hc.le]
  rw [hden, mul_div_mul_left _ _ hc.ne']

/-- With `y_mu` entered as `0`: rescaling the weights by `c > 0` leaves the
fitness `weightedPearson` writes to a program unchanged, when the weights do not
sum to `0` and target and prediction row have positive weighted variance. -/
theorem weightedPearson_init_zero_scale (d_progs : List (math_t ℝ)) (Y X W : List ℝ)
    (n_samples n_progs pid : Nat) (c : ℝ) (hc : 0 < c) (hpid : pid < n_progs)
    (hd : pid < d_progs.length) (hWS : (∑ i in Finset.range n_samples, W.getD i 0) ≠ 0)
    (hVy : 0 < ∑ i in Finset.range n_samples,
      (Y.getD i 0 - weightedMean n_samples (fun i => Y.getD i 0) (fun i => W.getD i 0)) ^ 2
        * W.getD i 0)
    (hVx : 0 < ∑ i in Finset.range n_samples,
      (X.getD (pid * n_samples + i) 0
        - weightedMean n_samples (fun i => X.getD (pid * n_samples + i) 0)
            (fun i => W.getD i 0)) ^ 2 * W.getD i 0) :
    (weightedPearson Real.sqrt (math_t.val 0) d_progs n_samples n_progs Y X
        (W.map (fun w => c * w)))[pid]?
      = (weightedPearson Real.sqrt (math_t.val 0) d_progs n_samples n_progs Y X W)[pid]? := by
  rw [weightedPearson_getElem? _ _ _ _ _ _ _ _ _ hpid hd,
    weightedPearson_getElem? _ _ _ _ _ _ _ _ _ hpid hd]
  simp only [getD_map_scale]
  rw [pearsonCell_init_zero_scale n_samples _ _ (fun i => W.getD i 0) c hc hWS hVy hVx]

theorem quotients_of_sqrt_ne (n1 A1 B1 n2 A2 B2 : ℝ) (hA1 : 0 < A1) (hB1 : 0 < B1)
    (hA2 : 0 < A2) (hB2 : 0 < B2) (h : n1 ^ 2 * (A2 * B2) ≠ n2 ^ 2 * (A1 * B1)) :
    n1 / (Real.sqrt A1 * Real.sqrt B1) ≠ n2 / (Real.sqrt A2 * Real.sqrt B2) := by
  intro heq
  apply h
  have h1 : 0 < Real.sqrt A1 * Real.sqrt B1 :=
    mul_pos (Real.sqrt_pos.mpr hA1) (Real.sqrt_pos.mpr hB1)
  have h2 : 0 < Real.sqrt A2 * Real.sqrt B2 :=
    mul_pos (Real.sqrt_pos.mpr hA2) (Real.sqrt_pos.mpr hB2)
  have hx : n1 * (Real.sqrt A2 * Real.sqrt B2) = n2 * (Real.sqrt A1 * Real.sqrt B1) := by
    rw [div_eq_div_iff h1.ne' h2.ne'] at heq
    exact heq
  have hsq := congrArg (fun t => t ^ 2) hx
  simp only [mul_pow, Real.sq_sqrt hA1.le, Real.sq_sqrt hB1.le, Real.sq_sqrt hA2.le,
    Real.sq_sqrt hB2.le] at hsq
  exact hsq

/-- With `y_mu` entered as `0`: rescaling the weights by `c > 0` leaves the
fitness `weightedSpearman` writes to a program unchanged, when the weights do
not sum to `0` and the ranks of target and prediction row have positive
weighted variance. -/
theorem weightedSpearman_init_zero_scale
    (sort : (Nat → Nat → Bool) → List Nat → List Nat) (hsort : SortContract ℝ sort)
    (d_progs : List (math_t ℝ)) (Y X W : List ℝ) (n_samples n_progs pid : Nat) (c : ℝ)
    (hc : 0 < c) (hpid : pid < n_progs) (hd : pid < d_progs.length)
    (hWS : (∑ i in Finset.range n_samples, W.getD i 0) ≠ 0)
    (hVy : 0 < ∑ i in Finset.range n_samples,
      (denseRank ((List.range n_samples).map (fun k => Y.getD k 0)) (Y.getD i 0)
        - weightedMean n_samples
            (fun i => denseRank ((List.range n_samples).map (fun k => Y.getD k 0))
              (Y.getD i 0)) (fun i => W.getD i 0)) ^ 2 * W.getD i 0)
    (hVx : 0 < ∑ i in Finset.range n_samples,
      (denseRank ((List.range n_samples).map (fun k => X.getD (pid * n_samples + k) 0))
          (X.getD (pid * n_samples + i) 0)
        - weightedMean n_samples
            (fun i => denseRank
              ((List.range n_samples).map (fun k => X.getD (pid * n_samples + k) 0))
              (X.getD (pid * n_samples + i) 0)) (fun i => W.getD i 0)) ^ 2 * W.getD i 0) :
    (weightedSpearman Real.sqrt sort (math_t.val 0) d_progs n_samples n_progs Y X
        (W.map (fun w => c * w)) (seqSched n_progs))[pid]?
      = (weightedSpearman Real.sqrt sort (math_t.val 0) d_progs n_samples n_progs Y X
          W (seqSched n_progs))[pid]? := by
  rw [weightedSpearman_getElem? Real.sqrt sort hsort,
    weightedSpearman_getElem? Real.sqrt sort hsort, if_pos ⟨hpid, hd⟩, if_pos ⟨hpid, hd⟩]
  simp only [getD_map_scale]
  rw [pearsonCell_init_zero_scale n_samples _ _ (fun i => W.getD i 0) c hc hWS hVy hVx]

@[simp] theorem float_t.zero_eq : (0 : float_t α) = float_t.val 0 := rfl

@[simp] theorem float_t.one_eq : (1 : float_t α) = float_t.val 1 := rfl

@[simp] theorem float_t.val_lt_val (a b : α) :
    (float_t.val a < float_t.val b) ↔ a < b := by
  show float_t.lt (float_t.val a) (float_t.val b) = true ↔ a < b
  simp [float_t.lt]

@[simp] theorem float_t.not_pinf_lt (x : float_t α) : ¬ (float_t.pinf < x) := by
  show ¬ float_t.lt float_t.pinf x = true
  cases x <;> simp [float_t.lt]

@[simp] theorem float_t.not_lt_ninf (x : float_t α) : ¬ (x < float_t.ninf) := by
  show ¬ float_t.lt x float_t.ninf = true
  cases x <;> simp [float_t.lt]

@[simp] theorem float_t.not_nan_lt (x : float_t α) : ¬ (float_t.nan < x) := by
  show ¬ float_t.lt float_t.nan x = true
  cases x <;> simp [float_t.lt]

@[simp] theorem float_t.not_lt_nan (x : float_t α) : ¬ (x < float_t.nan) := by
  show ¬ float_t.lt x float_t.nan = true
  cases x <;> simp [float_t.lt]

@[simp] theorem float_t.sub_of_val (a b : α) :
    (float_t.val a - float_t.val b : float_t α) = float_t.val (a - b) := rfl

@[simp] theorem float_t.add_of_val (a b : α) :
    (float_t.val a + float_t.val b : float_t α) = float_t.val (a + b) := rfl

/-- The difference of two infinities of the same sign is a NaN. -/
@[simp] theorem float_t.pinf_sub_pinf :
    (float_t.pinf - float_t.pinf : float_t α) = float_t.nan := rfl

@[simp] theorem float_t.ninf_sub_ninf :
    (float_t.ninf - float_t.ninf : float_t α) = float_t.nan := rfl

@[simp] theorem Scalar.toMath_val {γ : Type} (a : γ) :
    (Scalar.toMath (float_t.val a) : math_t γ) = math_t.val a := rfl

@[simp] theorem Scalar.toMath_nan {γ : Type} :
    (Scalar.toMath (float_t.nan : float_t γ) : math_t γ) = math_t.undefined := rfl

@[simp] theorem Scalar.toMath_pinf {γ : Type} :
    (Scalar.toMath (float_t.pinf : float_t γ) : math_t γ) = math_t.undefined := rfl

@[simp] theorem Scalar.toMath_ninf {γ : Type} :
    (Scalar.toMath (float_t.ninf : float_t γ) : math_t γ) = math_t.undefined := rfl

/-- `rank_functor` gives `1` on a NaN. -/
theorem rank_functor_nan : rank_functor (float_t.nan : float_t α) = 1 := by
  simp [rank_functor]

theorem squash_val_lt (a b : α) (h : a < b) : a / (1 + |a|) < b / (1 + |b|) := by
  have ha : 0 < 1 + |a| := by have := abs_nonneg a; linarith
  have hb : 0 < 1 + |b| := by have := abs_nonneg b; linarith
  rw [div_lt_div_iff₀ ha hb]
  rcases le_or_lt 0 a with h0 | h0
  · have hb0 : 0 ≤ b := le_trans h0 h.le
    rw [abs_of_nonneg h0, abs_of_nonneg hb0]
    nlinarith
  · rcases le_or_lt 0 b with h1 | h1
    · rw [abs_of_neg h0, abs_of_nonneg h1]
      nlinarith
    · rw [abs_of_neg h0, abs_of_neg h1]
      nlinarith

theorem squash_val_lt_one (a : α) : a / (1 + |a|) < 1 := by
  have ha : 0 < 1 + |a| := by have := abs_nonneg a; linarith
  rw [div_lt_one ha]
  have := le_abs_self a
  linarith

theorem neg_one_lt_squash_val (a : α) : -1 < a / (1 + |a|) := by
  have ha : 0 < 1 + |a| := by have := abs_nonneg a; linarith
  rw [lt_div_iff₀ ha]
  have := neg_abs_le a
  linarith

@[simp] theorem float_t.ninf_lt_val (a : α) : (float_t.ninf : float_t α) < float_t.val a := by
  show float_t.lt float_t.ninf (float_t.val a) = true
  rfl

@[simp] theorem float_t.val_lt_pinf (a : α) : float_t.val a < (float_t.pinf : float_t α) := by
  show float_t.lt (float_t.val a) float_t.pinf = true
  rfl

@[simp] theorem float_t.ninf_lt_pinf : (float_t.ninf : float_t α) < float_t.pinf := by
  show float_t.lt float_t.ninf float_t.pinf = true
  rfl

/-- The transform `squash` is strictly increasing on floats. -/
theorem squash_strictMono (x y : float_t α) (h : x < y) : squash x < squash y := by
  cases x <;> cases y <;>
    simp [squash, squash_val_lt_one, neg_one_lt_squash_val] at h ⊢
  exact squash_val_lt _ _ h

theorem rd_map_val (p : List α) (i : Nat) :
    (rd (p.map float_t.val) i : math_t α) = math_t.val (p.getD i 0) := by
  show Scalar.toMath ((p.map float_t.val).getD i (float_t.val 0)) = _
  rw [List.getD_map]
  rfl

/-- On arrays of floats that are all numbers `weightedPearson` computes what it
computes on the numbers. -/
theorem weightedPearson_map_val (sqrt : α → α) (y_mu0 : math_t α) (d_progs : List (math_t α))
    (n_samples n_progs : Nat) (Y X W : List α) :
    weightedPearson sqrt y_mu0 d_progs n_samples n_progs (Y.map float_t.val)
        (X.map float_t.val) (W.map float_t.val)
      = weightedPearson sqrt y_mu0 d_progs n_samples n_progs Y X W := by
  simp only [weightedPearson, rd_map_val, rd_val]

/-- Two calls of `weightedSpearman` with different entry values of the
uninitialised `y_mu` of `weightedPearson`: on `Y = [1,2,3]`, `W = [1,1,1]` and
the predictions `[3,2,1]` with `y_mu` holding `0` the fitness written is `-1`;
on the transformed predictions `[7,5,3]` (`f x = 2 * x + 1`) with `y_mu` holding
`1` it is `-2 / sqrt (14/3)`. -/
theorem weightedSpearman_entry_values_transform_differ :
    (weightedSpearman Real.sqrt insertionSortIdx (math_t.val 0) [math_t.val (7 : ℝ)] 3 1
      [1, 2, 3] ([3, 2, 1] : List ℝ) [1, 1, 1] (seqSched 1))[0]? = some (math_t.val (-1 : ℝ)) ∧
    (weightedSpearman Real.sqrt insertionSortIdx (math_t.val 1) [math_t.val (7 : ℝ)] 3 1
      [1, 2, 3] (([3, 2, 1] : List ℝ).map (fun x => 2 * x + 1)) [1, 1, 1] (seqSched 1))[0]?
      ≠ some (math_t.val (-1 : ℝ)) := by
  constructor
  · exact weightedSpearman_init_zero_reverse insertionSortIdx insertionSortIdx_contract
      [math_t.val (7 : ℝ)] [1, 2, 3] [3, 2, 1] [1, 1, 1] 3 1 0 1 one_pos
      (by intro i hi; interval_cases i <;> simp) (by decide) (by simp)
      ⟨0, 1, by decide, by decide, by norm_num⟩
      (by intro i j hi hj; interval_cases i <;> interval_cases j <;> norm_num)
  · have hY : ∀ i, i < 3 →
        denseRank ((List.range 3).map (fun k => ([1, 2, 3] : List ℝ).getD k 0))
          (([1, 2, 3] : List ℝ).getD i 0) = ([1, 2, 3] : List ℝ).getD i 0 := by
      intro i hi
      interval_cases i <;>
        norm_num [denseRank, List.range_succ, Finset.filter_insert, Finset.filter_singleton]
    have hP : ∀ i, i < 3 →
        denseRank ((List.range 3).map
            (fun k => (([3, 2, 1] : List ℝ).map (fun x => 2 * x + 1)).getD (0 * 3 + k) 0))
          ((([3, 2, 1] : List ℝ).map (fun x => 2 * x + 1)).getD (0 * 3 + i) 0)
          = ([3, 2, 1] : List ℝ).getD i 0 := by
      intro i hi
      interval_cases i <;>
        norm_num [denseRank, List.range_succ, Finset.filter_insert, Finset.filter_singleton]
    rw [weightedSpearman_getElem? _ _ insertionSortIdx_contract, if_pos ⟨by decide, by simp⟩,
      pearsonCell_congr Real.sqrt (math_t.val 1) 3 _ (fun i => ([1, 2, 3] : List ℝ).getD i 0)
        _ (fun i => ([3, 2, 1] : List ℝ).getD i 0) _ hY hP,
      pearsonCell_real_eq_val _ _ _ _ _ (by norm_num [Finset.sum_range_succ])
        (by norm_num [sqDev, Finset.sum_range_succ])
        (by norm_num [sqDev, Finset.sum_range_succ]),
      pearsonRow_eq_quotient _ _ _ _ _ _ (by decide)]
    intro h
    revert h
    rw [Option.some.injEq, math_t.val.injEq]
    apply quotient_of_sqrt_ne <;> norm_num [Finset.sum_range_succ]

/-- The ranks a pass run by one thread writes do not depend on what the buffers
`rank_idx`, `Ysorted` and `rank_diff` held before the pass. -/
theorem rankPass_ranks_independent_of_buffers
    (sort : (Nat → Nat → Bool) → List Nat → List Nat) (hsort : SortContract α sort)
    (n_samples off : Nat) (X : List α) (s s' : RankState α)
    (h1 : s.rank_idx.length = n_samples) (h2 : s.Ysorted.length = n_samples)
    (h3 : s.rank_diff.length = n_samples) (h1' : s'.rank_idx.length = n_samples)
    (h2' : s'.Ysorted.length = n_samples) (h3' : s'.rank_diff.length = n_samples)
    (i : Nat) (hi : i < n_samples) (hl : off + i < s.ranks.length)
    (hl' : off + i < s'.ranks.length) :
    (rankPass sort n_samples X off s).ranks[off + i]?
      = (rankPass sort n_samples X off s').ranks[off + i]? := by
  rw [(rankPass_spec sort hsort n_samples X off s h1 h2 h3).2.2.2.2.1 i hi hl,
    (rankPass_spec sort hsort n_samples X off s' h1' h2' h3').2.2.2.2.1 i hi hl']

/-! ## The claims -/

/-- C1, as stated, fails: for the constant target `Y = [2,2]` with the
normalised weights `[1/2,1/2]` and a program predicting `Y` exactly, both
deviations are `0`, the cross terms are divided by zero, and no entry value of
`y_mu` makes `weightedPearson` write fitness `1`. -/
theorem weightedPearson_exact_constant_target_not_one :
    ¬ ∃ y_mu0 : math_t ℝ,
      (weightedPearson Real.sqrt y_mu0 [math_t.val (7 : ℝ)] 2 1 [2, 2] [2, 2] [1 / 2, 1 / 2])[0]?
        = some (math_t.val 1) := by
  rintro ⟨y, h⟩
  rw [weightedPearson_getElem? _ _ _ _ _ _ _ _ _ (by decide) (by simp)] at h
  cases y with
  | val y0 =>
    norm_num [pearsonCell, sumLoop, List.range_succ, math_t.val_div_val, math_t.sqrt_val] at h
    cases h
  | undefined =>
    norm_num [pearsonCell, sumLoop, List.range_succ, math_t.val_div_val, math_t.sqrt_val] at h
    cases h

/-- C1, amended: with `y_mu` entered as `0`, for every target `Y` and
non-negative weights `W` under which `Y` has positive weighted variance, a
program of the batch whose prediction row equals `Y` exactly gets fitness `1`. -/
theorem weightedPearson_exact_prediction (d_progs : List (math_t ℝ)) (Y X W : List ℝ)
    (n_samples n_progs pid : Nat) (hpid : pid < n_progs) (hd : pid < d_progs.length)
    (hW : ∀ i, i < n_samples → 0 ≤ W.getD i 0)
    (hV : 0 < ∑ i in Finset.range n_samples,
      (Y.getD i 0 - weightedMean n_samples (fun i => Y.getD i 0) (fun i => W.getD i 0)) ^ 2
        * W.getD i 0)
    (hexact : ∀ i, i < n_samples → X.getD (pid * n_samples + i) 0 = Y.getD i 0) :
    (weightedPearson Real.sqrt (math_t.val 0) d_progs n_samples n_progs Y X W)[pid]?
      = some (math_t.val 1) := by
  have h := weightedPearson_init_zero_affine d_progs Y X W n_samples n_progs pid 1 0
    one_ne_zero hpid hd hW hV (fun i hi => by rw [hexact i hi]; ring)
  rw [h]
  norm_num

/-- Witness for the amended C1: `Y = [0,1,1]`, `W = [1,1,1]`, predictions `[0,1,1]`. -/
theorem weightedPearson_exact_prediction_witness :
    (weightedPearson Real.sqrt (math_t.val 0) [math_t.val (7 : ℝ)] 3 1 [0, 1, 1] [0, 1, 1]
      [1, 1, 1])[0]? = some (math_t.val 1) :=
  weightedPearson_exact_prediction [math_t.val (7 : ℝ)] [0, 1, 1] [0, 1, 1] [1, 1, 1] 3 1 0
    (by decide) (by simp) (by intro i hi; interval_cases i <;> simp)
    (by norm_num [weightedMean, Finset.sum_range_succ]) (by intro i _; simp)

/-- C2, as stated, fails: for the weight vector `W = [0,0,0]`, whose sum is `0`,
and a program predicting `Y = [0,1,1]` exactly, every error term is divided by
the zero weight sum and none of the three metrics writes fitness `0`. -/
theorem error_metrics_zero_weight_sum_not_zero :
    (meanAbsoluteError [math_t.val (7 : ℝ)] 3 1 [0, 1, 1] [0, 1, 1] [0, 0, 0])[0]?
      ≠ some (math_t.val (0 : ℝ)) ∧
    (meanSquareError [math_t.val (7 : ℝ)] 3 1 [0, 1, 1] [0, 1, 1] [0, 0, 0])[0]?
      ≠ some (math_t.val (0 : ℝ)) ∧
    (rootMeanSquareError Real.sqrt [math_t.val (7 : ℝ)] 3 1 [0, 1, 1] [0, 1, 1] [0, 0, 0])[0]?
      ≠ some (math_t.val (0 : ℝ)) := by
  have hmse : (meanSquareError [math_t.val (7 : ℝ)] 3 1 [0, 1, 1] [0, 1, 1] [0, 0, 0])[0]?
      = some (math_t.undefined : math_t ℝ) := by
    rw [meanSquareError_getElem? _ _ _ _ _ _ _ (by decide) (by decide) (by simp)]
    norm_num [Finset.sum_range_succ]
  refine ⟨?_, ?_, ?_⟩
  · rw [meanAbsoluteError_getElem? _ _ _ _ _ _ _ (by decide) (by decide) (by simp)]
    norm_num [Finset.sum_range_succ]
    intro h
    cases h
  · rw [hmse]
    intro h
    cases h
  · rw [rootMeanSquareError_getElem? _ _ _ _ _ _ _ _ (by decide) (by simp), hmse]
    intro h
    cases h

/-- C2, amended: for every target `Y`, every weight vector `W` whose sum is not
`0` and a program of the batch whose prediction row equals `Y` exactly,
`meanAbsoluteError`, `meanSquareError` and `rootMeanSquareError` each write
fitness `0` to that program. -/
theorem error_metrics_zero_of_exact (d_progs : List (math_t ℝ)) (Y Y_pred W : List ℝ)
    (n_samples n_progs pid : Nat) (hpid : pid < n_progs) (hd : pid < d_progs.length)
    (hWS : (∑ i in Finset.range n_samples, W.getD i 0) ≠ 0)
    (hexact : ∀ i, i < n_samples → Y_pred.getD (pid * n_samples + i) 0 = Y.getD i 0) :
    (meanAbsoluteError d_progs n_samples n_progs Y Y_pred W)[pid]? = some (math_t.val 0) ∧
    (meanSquareError d_progs n_samples n_progs Y Y_pred W)[pid]? = some (math_t.val 0) ∧
    (rootMeanSquareError Real.sqrt d_progs n_samples n_progs Y Y_pred W)[pid]?
      = some (math_t.val 0) := by
  have hn : 1 ≤ n_samples := by
    rcases Nat.eq_zero_or_pos n_samples with h | h
    · rw [h] at hWS; simp at hWS
    · exact h
  have hmse : (meanSquareError d_progs n_samples n_progs Y Y_pred W)[pid]?
      = some (math_t.val 0) := by
    rw [meanSquareError_getElem? _ _ _ _ _ _ _ hn hpid hd,
      math_t.val_div_val_of_ne _ _ hWS]
    congr 2
    rw [Finset.sum_eq_zero (fun i hi => by rw [hexact i (Finset.mem_range.mp hi)]; simp),
      zero_div]
  refine ⟨?_, hmse, ?_⟩
  · rw [meanAbsoluteError_getElem? _ _ _ _ _ _ _ hn hpid hd,
      math_t.val_div_val_of_ne _ _ hWS]
    congr 2
    rw [Finset.sum_eq_zero (fun i hi => by rw [hexact i (Finset.mem_range.mp hi)]; simp),
      zero_div]
  · rw [rootMeanSquareError_getElem? _ _ _ _ _ _ _ _ hpid hd, hmse, Option.getD_some,
      math_t.sqrt_val_of_nonneg _ _ (le_refl _), Real.sqrt_zero]

/-- Witness for the amended C2: `Y = [0,1,1]`, `W = [1,1,1]`, one program
predicting `[0,1,1]`. -/
theorem error_metrics_zero_of_exact_witness :
    (meanAbsoluteError [math_t.val (7 : ℝ)] 3 1 [0, 1, 1] [0, 1, 1] [1, 1, 1])[0]?
      = some (math_t.val (0 : ℝ)) ∧
    (meanSquareError [math_t.val (7 : ℝ)] 3 1 [0, 1, 1] [0, 1, 1] [1, 1, 1])[0]?
      = some (math_t.val (0 : ℝ)) ∧
    (rootMeanSquareError Real.sqrt [math_t.val (7 : ℝ)] 3 1 [0, 1, 1] [0, 1, 1] [1, 1, 1])[0]?
      = some (math_t.val (0 : ℝ)) :=
  error_metrics_zero_of_exact [math_t.val (7 : ℝ)] [0, 1, 1] [0, 1, 1] [1, 1, 1] 3 1 0 (by decide)
    (by simp) (by norm_num [Finset.sum_range_succ]) (by intro i _; simp)

/-- C3 at a failing input: `Y = X = [0,1,1]`, `W = [1,1,1]`, with the
uninitialised `y_mu` holding `1` on entry.  The code computes
`y_mu = (1 + 2) / 3 = 1` instead of `2/3` and writes `sqrt (2/3)`, not the
standard weighted Pearson coefficient (which is `1` here). -/
theorem weightedPearson_uninit_y_mu_not_standard :
    standardWeightedPearson Real.sqrt 3 (fun i => ([0, 1, 1] : List ℝ).getD i 0)
        (fun i => ([0, 1, 1] : List ℝ).getD (0 * 3 + i) 0)
        (fun i => ([1, 1, 1] : List ℝ).getD i 0) = 1 ∧
    (weightedPearson Real.sqrt (math_t.val 1) [math_t.val (7 : ℝ)] 3 1 [0, 1, 1] [0, 1, 1]
        [1, 1, 1])[0]?
      ≠ some (math_t.val
          (standardWeightedPearson Real.sqrt 3 (fun i => ([0, 1, 1] : List ℝ).getD i 0)
            (fun i => ([0, 1, 1] : List ℝ).getD (0 * 3 + i) 0)
            (fun i => ([1, 1, 1] : List ℝ).getD i 0))) := by
  have hstd : standardWeightedPearson Real.sqrt 3 (fun i => ([0, 1, 1] : List ℝ).getD i 0)
      (fun i => ([0, 1, 1] : List ℝ).getD (0 * 3 + i) 0)
      (fun i => ([1, 1, 1] : List ℝ).getD i 0) = 1 := by
    have := standardWeightedPearson_affine 3 (fun i => ([0, 1, 1] : List ℝ).getD i 0)
      (fun i => ([1, 1, 1] : List ℝ).getD i 0) 1 0 one_ne_zero
      (by intro i hi; interval_cases i <;> simp)
      (by norm_num [weightedMean, Finset.sum_range_succ])
    simpa using this
  refine ⟨hstd, ?_⟩
  rw [hstd, weightedPearson_getElem? _ _ _ _ _ _ _ _ _ (by decide) (by simp),
    pearsonCell_real_eq_val _ _ _ _ _ (by norm_num [Finset.sum_range_succ])
      (by norm_num [sqDev, Finset.sum_range_succ])
      (by norm_num [sqDev, Finset.sum_range_succ]),
    pearsonRow_eq_quotient _ _ _ _ _ _ (by decide)]
  intro h
  revert h
  rw [Option.some.injEq, math_t.val.injEq]
  apply quotient_of_sqrt_ne <;> norm_num [Finset.sum_range_succ]

/-- C4 at a failing input: `Y = [1,2,3]`, predictions `[3,2,1]`, `W = [1,1,1]`,
with the uninitialised `y_mu` holding `1` on entry.  The code computes
`y_mu = 7/3` instead of `2` and the fitness written is `-2 / sqrt (14/3)`, not
`-1`. -/
theorem weightedPearson_uninit_y_mu_inverse_not_minus_one :
    (weightedPearson Real.sqrt (math_t.val 1) [math_t.val (7 : ℝ)] 3 1 [1, 2, 3] [3, 2, 1]
      [1, 1, 1])[0]? ≠ some (math_t.val (-1 : ℝ)) := by
  rw [weightedPearson_getElem? _ _ _ _ _ _ _ _ _ (by decide) (by simp),
    pearsonCell_real_eq_val _ _ _ _ _ (by norm_num [Finset.sum_range_succ])
      (by norm_num [sqDev, Finset.sum_range_succ])
      (by norm_num [sqDev, Finset.sum_range_succ]),
    pearsonRow_eq_quotient _ _ _ _ _ _ (by decide)]
  intro h
  revert h
  rw [Option.some.injEq, math_t.val.injEq]
  apply quotient_of_sqrt_ne <;> norm_num [Finset.sum_range_succ]

/-- C5, as stated, fails: for the prediction row `[+inf, +inf]` (`Y = [1,2]`,
`W = [1,1]`, `y_mu` entered as `0` in both calls) and the strictly increasing
transform `squash`, which takes `+inf` to `1`.  The two infinities are ranked
apart, `1` and `2` (their difference is a NaN), and the fitness written is `1`;
the transformed row `[1, 1]` gets the ranks `1` and `1`, its deviation is `0`
and the fitness written is undefined. -/
theorem weightedSpearman_tied_infinities_transform_differs :
    (∀ x y : float_t ℝ, x < y → squash x < squash y) ∧
    (weightedSpearman Real.sqrt insertionSortIdx (math_t.val 0) [math_t.val (7 : ℝ)] 2 1
        ([float_t.val 1, float_t.val 2] : List (float_t ℝ)) [float_t.pinf, float_t.pinf]
        [float_t.val 1, float_t.val 1] (seqSched 1))[0]? = some (math_t.val 1) ∧
    (weightedSpearman Real.sqrt insertionSortIdx (math_t.val 0) [math_t.val (7 : ℝ)] 2 1
        ([float_t.val 1, float_t.val 2] : List (float_t ℝ))
        (([float_t.pinf, float_t.pinf] : List (float_t ℝ)).map squash)
        [float_t.val 1, float_t.val 1] (seqSched 1))[0]? = some math_t.undefined := by
  have hY : (rankY insertionSortIdx 2 ([float_t.val 1, float_t.val 2] : List (float_t ℝ))).ranks
      = ([1, 2] : List ℝ).map float_t.val := by
    norm_num [rankY, rankPass, rankStep, insertionSortIdx, List.range_succ,
      updateLoop, scatterLoop, adjacent_difference, inclusive_scan, rank_functor,
      writeRange, List.replicate]
    refine ⟨rfl, ?_⟩
    rw [float_t.zero_eq, float_t.one_eq]
    norm_num
  have hP : (rankPred insertionSortIdx 2 1 ([float_t.pinf, float_t.pinf] : List (float_t ℝ))
      (rankY insertionSortIdx 2 ([float_t.val 1, float_t.val 2] : List (float_t ℝ)))
      (seqSched 1)).ranks = ([1, 2] : List ℝ).map float_t.val := by
    norm_num [rankPred, rankY, rankPass, rankStep, seqSched, insertionSortIdx, List.range_succ,
      List.flatMap, updateLoop, scatterLoop, adjacent_difference, inclusive_scan, rank_functor,
      writeRange, List.replicate]
    refine ⟨rfl, ?_⟩
    rw [float_t.zero_eq, if_neg (by simp), float_t.one_eq, float_t.add_of_val]
    norm_num
  have hQ : (rankPred insertionSortIdx 2 1
      (([float_t.pinf, float_t.pinf] : List (float_t ℝ)).map squash)
      (rankY insertionSortIdx 2 ([float_t.val 1, float_t.val 2] : List (float_t ℝ)))
      (seqSched 1)).ranks = ([1, 1] : List ℝ).map float_t.val := by
    norm_num [rankPred, rankY, rankPass, rankStep, seqSched, insertionSortIdx, List.range_succ,
      List.flatMap, updateLoop, scatterLoop, adjacent_difference, inclusive_scan, rank_functor,
      writeRange, List.replicate, squash]
    refine ⟨rfl, ?_⟩
    rw [float_t.zero_eq, float_t.one_eq]
    norm_num
  have hW : ([float_t.val 1, float_t.val 1] : List (float_t ℝ))
      = ([1, 1] : List ℝ).map float_t.val := rfl
  refine ⟨squash_strictMono, ?_, ?_⟩
  · show (weightedPearson Real.sqrt (math_t.val 0) [math_t.val (7 : ℝ)] 2 1
      (rankY insertionSortIdx 2 ([float_t.val 1, float_t.val 2] : List (float_t ℝ))).ranks
      (rankPred insertionSortIdx 2 1 ([float_t.pinf, float_t.pinf] : List (float_t ℝ))
        (rankY insertionSortIdx 2 ([float_t.val 1, float_t.val 2] : List (float_t ℝ)))
        (seqSched 1)).ranks [float_t.val 1, float_t.val 1])[0]? = _
    rw [hY, hP, hW, weightedPearson_map_val,
      weightedPearson_init_zero_affine _ _ _ _ 2 1 0 1 0 (by norm_num)
        (by decide) (by simp) (by intro i hi; interval_cases i <;> simp)
        (by norm_num [weightedMean, Finset.sum_range_succ])
        (by intro i hi; interval_cases i <;> norm_num)]
    norm_num
  · show (weightedPearson Real.sqrt (math_t.val 0) [math_t.val (7 : ℝ)] 2 1
      (rankY insertionSortIdx 2 ([float_t.val 1, float_t.val 2] : List (float_t ℝ))).ranks
      (rankPred insertionSortIdx 2 1
        (([float_t.pinf, float_t.pinf] : List (float_t ℝ)).map squash)
        (rankY insertionSortIdx 2 ([float_t.val 1, float_t.val 2] : List (float_t ℝ)))
        (seqSched 1)).ranks [float_t.val 1, float_t.val 1])[0]? = _
    rw [hY, hQ, hW, weightedPearson_map_val,
      weightedPearson_getElem? _ _ _ _ _ _ _ _ _ (by decide) (by simp)]
    norm_num [pearsonCell, sumLoop, List.range_succ, math_t.val_div_val, math_t.sqrt_val]

/-- C5, amended: for predictions and targets that are finite numbers, at least
one sample, the program loop run by a single thread and `y_mu` of
`weightedPearson` entered as `0` in both calls: applying a strictly increasing
transform `f` elementwise to the prediction matrix leaves the fitness
`weightedSpearman` writes to every program unchanged, for any `std::sort`
meeting its contract. -/
theorem weightedSpearman_monotone_invariant
    (sort : (Nat → Nat → Bool) → List Nat → List Nat) (hsort : SortContract ℝ sort)
    (d_progs : List (math_t ℝ)) (Y Y_pred W : List ℝ)
    (n_samples n_progs : Nat) (f : ℝ → ℝ) (_hn : 1 ≤ n_samples)
    (hf : ∀ x y, x < y → f x < f y) (hlen : n_samples * n_progs ≤ Y_pred.length) :
    weightedSpearman Real.sqrt sort (math_t.val 0) d_progs n_samples n_progs Y (Y_pred.map f) W
        (seqSched n_progs)
      = weightedSpearman Real.sqrt sort (math_t.val 0) d_progs n_samples n_progs Y Y_pred W
          (seqSched n_progs) := by
  apply List.ext_getElem?
  intro pid
  rw [weightedSpearman_getElem? _ _ hsort, weightedSpearman_getElem? _ _ hsort]
  by_cases h : pid < n_progs ∧ pid < d_progs.length
  · rw [if_pos h, if_pos h]
    congr 1
    have hb : ∀ k, k < n_samples → pid * n_samples + k < Y_pred.length := by
      intro k hk
      have : (pid + 1) * n_samples ≤ n_progs * n_samples :=
        Nat.mul_le_mul_right n_samples h.1
      have h' : (pid + 1) * n_samples = pid * n_samples + n_samples := by ring
      rw [Nat.mul_comm n_samples n_progs] at hlen
      omega
    have hget : ∀ k, k < n_samples →
        (Y_pred.map f).getD (pid * n_samples + k) 0 = f (Y_pred.getD (pid * n_samples + k) 0) := by
      intro k hk
      rw [List.getD_eq_getElem _ _ (by rw [List.length_map]; exact hb k hk),
        List.getD_eq_getElem _ _ (hb k hk), List.getElem_map]
    have hrow : (List.range n_samples).map
        (fun k => (Y_pred.map f).getD (pid * n_samples + k) 0)
        = ((List.range n_samples).map (fun k => Y_pred.getD (pid * n_samples + k) 0)).map f := by
      rw [List.map_map]
      exact List.map_congr_left (fun k hk => hget k (List.mem_range.mp hk))
    apply pearsonCell_congr
    · intro i _; rfl
    · intro i hi
      rw [hrow, hget i hi]
      exact denseRank_map_of_order_embedding f _ (fun a _ b _ hab => hf a b hab) _
        (List.mem_map.mpr ⟨i, List.mem_range.mpr hi, rfl⟩)
  · rw [if_neg h, if_neg h]

/-- Witness for the amended C5: two programs over three samples,
`f x = 2 * x + 1`. -/
theorem weightedSpearman_monotone_invariant_witness :
    weightedSpearman Real.sqrt insertionSortIdx (math_t.val 0)
        [math_t.val (7 : ℝ), math_t.val (7 : ℝ)] 3 2 [1, 2, 3]
        (([3, 2, 1, 1, 1, 5] : List ℝ).map (fun x => 2 * x + 1)) [1, 1, 1] (seqSched 2)
      = weightedSpearman Real.sqrt insertionSortIdx (math_t.val 0)
        [math_t.val (7 : ℝ), math_t.val (7 : ℝ)] 3 2 [1, 2, 3] [3, 2, 1, 1, 1, 5] [1, 1, 1]
        (seqSched 2) :=
  weightedSpearman_monotone_invariant insertionSortIdx insertionSortIdx_contract
    [math_t.val (7 : ℝ), math_t.val (7 : ℝ)]
    [1, 2, 3] [3, 2, 1, 1, 1, 5] [1, 1, 1] 3 2 (fun x => 2 * x + 1) (by decide)
    (fun x y hxy => by show 2 * x + 1 < 2 * y + 1; linarith) (by simp)

/-- C6, as stated, fails: in a prediction row that holds the value `+inf` twice
the two equal values get the ranks `1` and `2`.  The sorted row is
`[+inf, +inf]`, `std::adjacent_difference` gives `inf - inf`, a NaN, for the
second element, and `rank_functor` gives `1` for a NaN, as for a change of
value. -/
theorem tied_infinities_ranked_apart :
    (rankPred insertionSortIdx 2 1 ([float_t.pinf, float_t.pinf] : List (float_t ℝ))
        (rankY insertionSortIdx 2 ([float_t.val 1, float_t.val 2] : List (float_t ℝ)))
        (seqSched 1)).ranks
      = [float_t.val 1, float_t.val 2] := by
  norm_num [rankPred, rankY, rankPass, rankStep, seqSched, insertionSortIdx, List.range_succ,
    List.flatMap, updateLoop, scatterLoop, adjacent_difference, inclusive_scan, rank_functor,
    writeRange, List.replicate]
  refine ⟨rfl, ?_⟩
  rw [float_t.zero_eq, if_neg (by simp), float_t.one_eq, float_t.add_of_val]
  norm_num

/-- C6, amended: for vectors of finite values, at least one sample, and
whatever order `std::sort` leaves tied values in, the ranks `weightedSpearman`
computes for `Y`, and for every program's prediction row when a single thread
runs the program loop, are the dense ranks: one more than the number of distinct
values of the vector that are strictly smaller.  Hence `Y[i] < Y[j]` exactly
when `Yrank[i] < Yrank[j]`, equal values share a rank, and a smallest value has
rank `1`. -/
theorem ranks_are_dense_ranks {α : Type} [LinearOrderedField α]
    (sort : (Nat → Nat → Bool) → List Nat → List Nat) (hsort : SortContract α sort)
    (n_samples n_progs : Nat) (Y Y_pred : List α) (_hn : 1 ≤ n_samples) :
    (∀ i, i < n_samples →
      (rankY sort n_samples Y).ranks[i]?
        = some (denseRank ((List.range n_samples).map (fun k => Y.getD k 0)) (Y.getD i 0))) ∧
    (∀ pid i, pid < n_progs → i < n_samples →
      (rankPred sort n_samples n_progs Y_pred (rankY sort n_samples Y)
          (seqSched n_progs)).ranks[pid * n_samples + i]?
        = some (denseRank
            ((List.range n_samples).map (fun k => Y_pred.getD (pid * n_samples + k) 0))
            (Y_pred.getD (pid * n_samples + i) 0))) ∧
    (∀ i j, i < n_samples → j < n_samples →
      (Y.getD i 0 < Y.getD j 0 ↔
        (rankY sort n_samples Y).ranks.getD i 0 < (rankY sort n_samples Y).ranks.getD j 0)) ∧
    (∀ i j, i < n_samples → j < n_samples → Y.getD i 0 = Y.getD j 0 →
      (rankY sort n_samples Y).ranks.getD i 0 = (rankY sort n_samples Y).ranks.getD j 0) ∧
    (∀ i, i < n_samples → (∀ j, j < n_samples → Y.getD i 0 ≤ Y.getD j 0) →
      (rankY sort n_samples Y).ranks.getD i 0 = 1) := by
  obtain ⟨a1, a2, a3, a4⟩ := rankY_spec sort hsort n_samples Y
  have hgetD : ∀ i, i < n_samples → (rankY sort n_samples Y).ranks.getD i 0
      = denseRank ((List.range n_samples).map (fun k => Y.getD k 0)) (Y.getD i 0) := by
    intro i hi
    rw [a4, getD_map_range n_samples _ i hi]
  refine ⟨?_, ?_, ?_, ?_, ?_⟩
  · intro i hi
    rw [a4]
    simp [List.getElem?_range, hi]
  · intro pid i hpid hi
    obtain ⟨_, _, _, _, b5⟩ := rankLoop_spec sort hsort n_samples
      ((List.range (n_samples * n_progs)).map (fun i => Y_pred.getD i 0))
      { rankY sort n_samples Y with ranks := List.replicate (n_samples * n_progs) 0 }
      a1 a2 a3 n_progs (by simp [Nat.mul_comm])
    have hb : ∀ k, k < n_samples → pid * n_samples + k < n_samples * n_progs := by
      intro k hk
      have : (pid + 1) * n_samples ≤ n_progs * n_samples :=
        Nat.mul_le_mul_right n_samples hpid
      have h' : (pid + 1) * n_samples = pid * n_samples + n_samples := by ring
      rw [Nat.mul_comm n_samples n_progs]
      omega
    have hrow : (List.range n_samples).map
        (fun k => ((List.range (n_samples * n_progs)).map
          (fun i => Y_pred.getD i 0)).getD (pid * n_samples + k) 0)
        = (List.range n_samples).map (fun k => Y_pred.getD (pid * n_samples + k) 0) :=
      List.map_congr_left (fun k hk => getD_map_range _ _ _ (hb k (List.mem_range.mp hk)))
    have := b5 pid i hpid hi
    rw [hrow, getD_map_range _ _ _ (hb i hi)] at this
    rw [rankPred_seqSched]
    exact this
  · intro i j hi hj
    rw [hgetD i hi, hgetD j hj]
    exact denseRank_lt_iff _ _ _ (getD_mem_map_range n_samples Y i hi)
      (getD_mem_map_range n_samples Y j hj)
  · intro i j hi hj hij
    rw [hgetD i hi, hgetD j hj, hij]
  · intro i hi hmin
    rw [hgetD i hi]
    apply denseRank_of_le_all
    intro y hy
    obtain ⟨j, hj, rfl⟩ := List.mem_map.mp hy
    exact hmin j (List.mem_range.mp hj)

/-- Witness for the amended C6 with the insertion sort, on `Y = [3,2,1,2,7]`
(sample 3) and two programs (program 1, sample 2). -/
theorem ranks_are_dense_ranks_witness :
    (rankY insertionSortIdx 5 ([3, 2, 1, 2, 7] : List ℚ)).ranks[3]?
      = some (denseRank ((List.range 5).map (fun k => ([3, 2, 1, 2, 7] : List ℚ).getD k 0))
          (([3, 2, 1, 2, 7] : List ℚ).getD 3 0)) ∧
    (rankPred insertionSortIdx 5 2 ([3, 2, 1, 2, 7, 7, 0, 0, 1, 1] : List ℚ)
        (rankY insertionSortIdx 5 ([3, 2, 1, 2, 7] : List ℚ)) (seqSched 2)).ranks[1 * 5 + 2]?
      = some (denseRank
          ((List.range 5).map
            (fun k => ([3, 2, 1, 2, 7, 7, 0, 0, 1, 1] : List ℚ).getD (1 * 5 + k) 0))
          (([3, 2, 1, 2, 7, 7, 0, 0, 1, 1] : List ℚ).getD (1 * 5 + 2) 0)) :=
  ⟨(ranks_are_dense_ranks insertionSortIdx insertionSortIdx_contract 5 2
      ([3, 2, 1, 2, 7] : List ℚ) [3, 2, 1, 2, 7, 7, 0, 0, 1, 1] (by decide)).1 3 (by decide),
   (ranks_are_dense_ranks insertionSortIdx insertionSortIdx_contract 5 2
      ([3, 2, 1, 2, 7] : List ℚ) [3, 2, 1, 2, 7, 7, 0, 0, 1, 1] (by decide)).2.1 1 2
      (by decide) (by decide)⟩

/-- C7: dense ranking is idempotent: ranking the rank vector that
`weightedSpearman` computes for a non-empty `Y` gives that rank vector back. -/
theorem dense_rank_idempotent {α : Type} [LinearOrderedField α]
    (sort : (Nat → Nat → Bool) → List Nat → List Nat) (hsort : SortContract α sort)
    (n_samples : Nat) (Y : List α) (_hn : 1 ≤ n_samples) :
    (rankY sort n_samples (rankY sort n_samples Y).ranks).ranks
      = (rankY sort n_samples Y).ranks := by
  obtain ⟨_, _, _, a4⟩ := rankY_spec sort hsort n_samples Y
  obtain ⟨_, _, _, b4⟩ := rankY_spec sort hsort n_samples (rankY sort n_samples Y).ranks
  rw [b4]
  have hR : (List.range n_samples).map (fun k => (rankY sort n_samples Y).ranks.getD k 0)
      = ((List.range n_samples).map (fun k => Y.getD k 0)).map
          (denseRank ((List.range n_samples).map (fun k => Y.getD k 0))) := by
    rw [List.map_map]
    apply List.map_congr_left
    intro k hk
    rw [a4, getD_map_range n_samples _ k (List.mem_range.mp hk)]
    rfl
  rw [hR]
  conv_rhs => rw [a4]
  apply List.map_congr_left
  intro i hi
  have hi' := List.mem_range.mp hi
  rw [a4, getD_map_range n_samples _ i hi']
  exact denseRank_map_of_order_embedding _ _
    (fun a ha b _ hab => denseRank_lt_of_lt _ a b ha hab) _
    (getD_mem_map_range n_samples Y i hi')

/-- Witness for C7 with the insertion sort on `Y = [3,2,1,2,7]`. -/
theorem dense_rank_idempotent_witness :
    (rankY insertionSortIdx 5
        (rankY insertionSortIdx 5 ([3, 2, 1, 2, 7] : List ℚ)).ranks).ranks
      = (rankY insertionSortIdx 5 ([3, 2, 1, 2, 7] : List ℚ)).ranks :=
  dense_rank_idempotent insertionSortIdx insertionSortIdx_contract 5 [3, 2, 1, 2, 7]
    (by decide)

/-- C8 at a failing input: `Y = [1,2,3]`, predictions `[3,2,1]`, `W = [1,1,1]`,
with the uninitialised `y_mu` of `weightedPearson` holding `1` on entry (one
program, so the program loop has a single iteration).  The ranks are `[1,2,3]`
and `[3,2,1]`, and the fitness written is `-2 / sqrt (14/3)`, not `-1`. -/
theorem weightedSpearman_uninit_y_mu_reverse_not_minus_one :
    (weightedSpearman Real.sqrt insertionSortIdx (math_t.val 1) [math_t.val (7 : ℝ)] 3 1
      [1, 2, 3] [3, 2, 1] [1, 1, 1] (seqSched 1))[0]? ≠ some (math_t.val (-1 : ℝ)) := by
  have hY : ∀ i, i < 3 →
      denseRank ((List.range 3).map (fun k => ([1, 2, 3] : List ℝ).getD k 0))
        (([1, 2, 3] : List ℝ).getD i 0) = ([1, 2, 3] : List ℝ).getD i 0 := by
    intro i hi
    interval_cases i <;>
      norm_num [denseRank, List.range_succ, Finset.filter_insert, Finset.filter_singleton]
  have hP : ∀ i, i < 3 →
      denseRank ((List.range 3).map (fun k => ([3, 2, 1] : List ℝ).getD (0 * 3 + k) 0))
        (([3, 2, 1] : List ℝ).getD (0 * 3 + i) 0) = ([3, 2, 1] : List ℝ).getD i 0 := by
    intro i hi
    interval_cases i <;>
      norm_num [denseRank, List.range_succ, Finset.filter_insert, Finset.filter_singleton]
  rw [weightedSpearman_getElem? _ _ insertionSortIdx_contract, if_pos ⟨by decide, by simp⟩,
    pearsonCell_congr Real.sqrt (math_t.val 1) 3 _ (fun i => ([1, 2, 3] : List ℝ).getD i 0)
      _ (fun i => ([3, 2, 1] : List ℝ).getD i 0) _ hY hP,
    pearsonCell_real_eq_val _ _ _ _ _ (by norm_num [Finset.sum_range_succ])
      (by norm_num [sqDev, Finset.sum_range_succ])
      (by norm_num [sqDev, Finset.sum_range_succ]),
    pearsonRow_eq_quotient _ _ _ _ _ _ (by decide)]
  intro h
  revert h
  rw [Option.some.injEq, math_t.val.injEq]
  apply quotient_of_sqrt_ne <;> norm_num [Finset.sum_range_succ]

/-- C9 at a failing input: `Y = [0,0]`, predictions `[1/2, 2]`, `W = [1,1]`.  The
`abs` that `meanAbsoluteError` calls is `int abs(int)`, which truncates the
error `1/2` to `0`: the fitness written is `(0 + 2) / 2 = 1`, while the standard
weighted MAE `Σ W[i]·|pred[i] - Y[i]| / WS` is `5/4`. -/
theorem meanAbsoluteError_int_abs_not_standard :
    (meanAbsoluteError [math_t.val (7 : ℝ)] 2 1 [0, 0] [1 / 2, 2] [1, 1])[0]?
      = some (math_t.val 1) ∧
    (∑ i in Finset.range 2,
        ([1, 1] : List ℝ).getD i 0
          * |([1 / 2, 2] : List ℝ).getD (0 * 2 + i) 0 - ([0, 0] : List ℝ).getD i 0|)
      / (∑ i in Finset.range 2, ([1, 1] : List ℝ).getD i 0) = 5 / 4 := by
  constructor
  · rw [meanAbsoluteError_getElem? _ _ _ _ _ _ _ (by decide) (by decide) (by simp)]
    have h0 : intAbs (1 / 2 : ℝ) = 0 :=
      intAbs_of_abs_lt_one _ (by rw [abs_of_pos (by norm_num)]; norm_num)
    have h2 : intAbs (2 : ℝ) = 2 := by
      have h : intAbs (((2 : Int) : ℝ)) = ((|(2 : Int)| : Int) : ℝ) :=
        intAbs_intCast 2 (by norm_num)
      norm_num at h
      exact h
    norm_num [Finset.sum_range_succ, h0, h2, math_t.val_div_val]
  · norm_num [Finset.sum_range_succ]
    rw [abs_of_pos (by norm_num : (0 : ℝ) < 1 / 2)]
    norm_num

/-- C10: for every program of the batch, the fitness `rootMeanSquareError`
writes is the square root of the fitness `meanSquareError` writes on the same
input. -/
theorem rmse_eq_sqrt_mse (d_progs : List (math_t ℝ)) (Y Y_pred W : List ℝ)
    (n_samples n_progs pid : Nat) (hpid : pid < n_progs) (hd : pid < d_progs.length) :
    ∃ mse : math_t ℝ,
      (meanSquareError d_progs n_samples n_progs Y Y_pred W)[pid]? = some mse ∧
      (rootMeanSquareError Real.sqrt d_progs n_samples n_progs Y Y_pred W)[pid]?
        = some (math_t.sqrt Real.sqrt mse) := by
  have hlen : pid < (meanSquareError d_progs n_samples n_progs Y Y_pred W).length := by
    rw [length_meanSquareError]; exact hd
  refine ⟨(meanSquareError d_progs n_samples n_progs Y Y_pred W)[pid], ?_, ?_⟩
  · exact List.getElem?_eq_getElem hlen
  · rw [rootMeanSquareError_getElem? _ _ _ _ _ _ _ _ hpid hd, List.getElem?_eq_getElem hlen,
      Option.getD_some]

/-- Witness for C10 on `Y = [1,2,3]`, predictions `[3,2,1]`, `W = [1,1,1]`. -/
theorem rmse_eq_sqrt_mse_witness :
    ∃ mse : math_t ℝ,
      (meanSquareError [math_t.val (7 : ℝ)] 3 1 [1, 2, 3] [3, 2, 1] [1, 1, 1])[0]? = some mse ∧
      (rootMeanSquareError Real.sqrt [math_t.val (7 : ℝ)] 3 1 [1, 2, 3] [3, 2, 1] [1, 1, 1])[0]?
        = some (math_t.sqrt Real.sqrt mse) :=
  rmse_eq_sqrt_mse [math_t.val (7 : ℝ)] [1, 2, 3] [3, 2, 1] [1, 1, 1] 3 1 0 (by decide) (by simp)

/-- C11, as stated, fails: for a prediction that is a NaN (sample `Y = [0]`,
weight `W = [1]`) the squared error is a NaN, and neither `meanSquareError`
nor `rootMeanSquareError` writes a non-negative number. -/
theorem error_metrics_nan_prediction_not_nonneg :
    (¬ ∃ v : ℝ,
      (meanSquareError [math_t.val (7 : ℝ)] 1 1 ([float_t.val 0] : List (float_t ℝ))
        [float_t.nan] [float_t.val 1])[0]? = some (math_t.val v) ∧ 0 ≤ v) ∧
    (¬ ∃ v : ℝ,
      (rootMeanSquareError Real.sqrt [math_t.val (7 : ℝ)] 1 1
        ([float_t.val 0] : List (float_t ℝ)) [float_t.nan] [float_t.val 1])[0]?
        = some (math_t.val v) ∧ 0 ≤ v) := by
  have hmse : (meanSquareError [math_t.val (7 : ℝ)] 1 1 ([float_t.val 0] : List (float_t ℝ))
      [float_t.nan] [float_t.val 1])[0]? = some math_t.undefined := by
    simp [meanSquareError, getElem?_updateLoop, rd, sumLoop, List.range_succ]
  constructor
  · rintro ⟨v, hv, _⟩
    rw [hmse] at hv
    cases hv
  · rintro ⟨v, hv, _⟩
    rw [rootMeanSquareError, getElem?_updateLoop, hmse] at hv
    simp at hv

/-- C11, amended: for predictions, targets and weights that are finite numbers,
with non-negative weights of positive sum, the fitness `meanSquareError` and
`rootMeanSquareError` write to a program of the batch is a non-negative number;
so is the fitness `meanAbsoluteError` writes when every error
`pred[p][i] - Y[i]` is of magnitude below `2^31`. -/
theorem error_metrics_nonneg (d_progs : List (math_t ℝ)) (Y Y_pred W : List ℝ)
    (n_samples n_progs pid : Nat) (hpid : pid < n_progs) (hd : pid < d_progs.length)
    (hW : ∀ i, i < n_samples → 0 ≤ W.getD i 0)
    (hWS : 0 < ∑ i in Finset.range n_samples, W.getD i 0) :
    (∃ mse rmse : ℝ,
      (meanSquareError d_progs n_samples n_progs Y Y_pred W)[pid]? = some (math_t.val mse) ∧
      (rootMeanSquareError Real.sqrt d_progs n_samples n_progs Y Y_pred W)[pid]?
        = some (math_t.val rmse) ∧
      0 ≤ mse ∧ 0 ≤ rmse) ∧
    ((∀ i, i < n_samples →
        |Y_pred.getD (pid * n_samples + i) 0 - Y.getD i 0| < 2147483648) →
      ∃ mae : ℝ,
        (meanAbsoluteError d_progs n_samples n_progs Y Y_pred W)[pid]? = some (math_t.val mae) ∧
        0 ≤ mae) := by
  have hn : 1 ≤ n_samples := by
    rcases Nat.eq_zero_or_pos n_samples with h | h
    · rw [h] at hWS; simp at hWS
    · exact h
  have hmse_nonneg : 0 ≤ (∑ i in Finset.range n_samples,
      W.getD i 0 * (Y_pred.getD (pid * n_samples + i) 0 - Y.getD i 0) ^ 2)
      / ∑ i in Finset.range n_samples, W.getD i 0 :=
    div_nonneg (Finset.sum_nonneg (fun i hi =>
      mul_nonneg (hW i (Finset.mem_range.mp hi)) (sq_nonneg _))) hWS.le
  have hmse : (meanSquareError d_progs n_samples n_progs Y Y_pred W)[pid]?
      = some (math_t.val ((∑ i in Finset.range n_samples,
          W.getD i 0 * (Y_pred.getD (pid * n_samples + i) 0 - Y.getD i 0) ^ 2)
          / ∑ i in Finset.range n_samples, W.getD i 0)) := by
    rw [meanSquareError_getElem? _ _ _ _ _ _ _ hn hpid hd,
      math_t.val_div_val_of_ne _ _ hWS.ne']
  constructor
  · refine ⟨_, Real.sqrt ((∑ i in Finset.range n_samples,
        W.getD i 0 * (Y_pred.getD (pid * n_samples + i) 0 - Y.getD i 0) ^ 2)
        / ∑ i in Finset.range n_samples, W.getD i 0), hmse, ?_, hmse_nonneg,
      Real.sqrt_nonneg _⟩
    rw [rootMeanSquareError_getElem? _ _ _ _ _ _ _ _ hpid hd, hmse, Option.getD_some,
      math_t.sqrt_val_of_nonneg _ _ hmse_nonneg]
  · intro hrange
    refine ⟨(∑ i in Finset.range n_samples,
        W.getD i 0 * intAbs (Y_pred.getD (pid * n_samples + i) 0 - Y.getD i 0))
        / ∑ i in Finset.range n_samples, W.getD i 0, ?_, ?_⟩
    · rw [meanAbsoluteError_getElem? _ _ _ _ _ _ _ hn hpid hd,
        math_t.val_div_val_of_ne _ _ hWS.ne']
    · exact div_nonneg (Finset.sum_nonneg (fun i hi =>
        mul_nonneg (hW i (Finset.mem_range.mp hi))
          (intAbs_nonneg_of_lt _ (hrange i (Finset.mem_range.mp hi))))) hWS.le

/-- Witness for the amended C11 on `Y = [1,2,3]`, predictions `[3,2,1]`,
`W = [1,1,1]`. -/
theorem error_metrics_nonneg_witness :
    (∃ mse rmse : ℝ,
      (meanSquareError [math_t.val (7 : ℝ)] 3 1 [1, 2, 3] [3, 2, 1] [1, 1, 1])[0]?
        = some (math_t.val mse) ∧
      (rootMeanSquareError Real.sqrt [math_t.val (7 : ℝ)] 3 1 [1, 2, 3] [3, 2, 1]
        [1, 1, 1])[0]? = some (math_t.val rmse) ∧
      0 ≤ mse ∧ 0 ≤ rmse) ∧
    ∃ mae : ℝ,
      (meanAbsoluteError [math_t.val (7 : ℝ)] 3 1 [1, 2, 3] [3, 2, 1] [1, 1, 1])[0]?
        = some (math_t.val mae) ∧ 0 ≤ mae :=
  ⟨(error_metrics_nonneg [math_t.val (7 : ℝ)] [1, 2, 3] [3, 2, 1] [1, 1, 1] 3 1 0 (by decide)
      (by simp) (by intro i hi; interval_cases i <;> simp)
      (by norm_num [Finset.sum_range_succ])).1,
   (error_metrics_nonneg [math_t.val (7 : ℝ)] [1, 2, 3] [3, 2, 1] [1, 1, 1] 3 1 0 (by decide)
      (by simp) (by intro i hi; interval_cases i <;> simp)
      (by norm_num [Finset.sum_range_succ])).2
      (by intro i hi; interval_cases i <;> norm_num [abs_lt])⟩

/-- C12: for every input `logLoss` writes
`Σ ((1 - Y[i]) * yp - logsig yp) * (W[i] / WS)`, `yp = Y_pred[p][i]`, `WS = Σ W[i]`
(the quotient undefined on both sides when `WS = 0`), where the `logsig` of the
code is the four-region function of the specification; `yp = -40, -20, 0, 40`
fall in the four regions in order and give `-40`, `-20 - exp (-20)`, `-ln 2`
and `-exp (-40)`. -/
theorem logLoss_formula (d_progs : List (math_t ℝ)) (Y Y_pred W : List ℝ)
    (n_samples n_progs pid : Nat) (hpid : pid < n_progs) (hd : pid < d_progs.length) :
    (∀ yp : ℝ, logsig Real.exp (fun x => Real.log (1 + x)) yp
      = math_t.val (logsigSpec Real.exp (fun x => Real.log (1 + x)) yp)) ∧
    (logLoss Real.exp (fun x => Real.log (1 + x)) d_progs n_samples n_progs Y Y_pred W)[pid]?
      = some (sumLoop n_samples
          (fun i => math_t.val ((1 - Y.getD i 0) * Y_pred.getD (pid * n_samples + i) 0
              - logsigSpec Real.exp (fun x => Real.log (1 + x))
                  (Y_pred.getD (pid * n_samples + i) 0))
            * (math_t.val (W.getD i 0)
              / math_t.val (∑ i in Finset.range n_samples, W.getD i 0))) (math_t.val 0)) ∧
    ((∑ i in Finset.range n_samples, W.getD i 0) ≠ 0 →
      (logLoss Real.exp (fun x => Real.log (1 + x)) d_progs n_samples n_progs Y Y_pred
        W)[pid]?
        = some (math_t.val (∑ i in Finset.range n_samples,
            ((1 - Y.getD i 0) * Y_pred.getD (pid * n_samples + i) 0
                - logsigSpec Real.exp (fun x => Real.log (1 + x))
                    (Y_pred.getD (pid * n_samples + i) 0))
              * (W.getD i 0 / ∑ i in Finset.range n_samples, W.getD i 0)))) ∧
    logsig Real.exp (fun x => Real.log (1 + x)) (-40) = math_t.val (-40) ∧
    logsig Real.exp (fun x => Real.log (1 + x)) (-20) = math_t.val (-20 - Real.exp (-20)) ∧
    logsig Real.exp (fun x => Real.log (1 + x)) 0 = math_t.val (-Real.log 2) ∧
    logsig Real.exp (fun x => Real.log (1 + x)) 40 = math_t.val (-Real.exp (-40)) := by
  obtain ⟨p1, p2, p3, p4⟩ := logsigSpec_real_points
  refine ⟨logsig_real, logLoss_real_getElem? d_progs Y Y_pred W n_samples n_progs pid hpid hd,
    logLoss_real_getElem?_of_ne d_progs Y Y_pred W n_samples n_progs pid hpid hd,
    ?_, ?_, ?_, ?_⟩
  · rw [logsig_real, p1]
  · rw [logsig_real, p2]
  · rw [logsig_real, p3]
  · rw [logsig_real, p4]

/-- Witness for C12: one program over the four samples `yp = -40, -20, 0, 40`
with labels `[1,0,1,0]` and unit weights, whose sum `4` is not `0`. -/
theorem logLoss_formula_witness :
    (logLoss Real.exp (fun x => Real.log (1 + x)) [math_t.val (7 : ℝ)] 4 1 [1, 0, 1, 0]
      [-40, -20, 0, 40] [1, 1, 1, 1])[0]?
      = some (math_t.val (∑ i in Finset.range 4,
          ((1 - ([1, 0, 1, 0] : List ℝ).getD i 0)
                * ([-40, -20, 0, 40] : List ℝ).getD (0 * 4 + i) 0
              - logsigSpec Real.exp (fun x => Real.log (1 + x))
                  (([-40, -20, 0, 40] : List ℝ).getD (0 * 4 + i) 0))
            * (([1, 1, 1, 1] : List ℝ).getD i 0
              / ∑ i in Finset.range 4, ([1, 1, 1, 1] : List ℝ).getD i 0))) :=
  (logLoss_formula [math_t.val (7 : ℝ)] [1, 0, 1, 0] [-40, -20, 0, 40] [1, 1, 1, 1] 4 1 0
    (by decide) (by simp)).2.2.1 (by norm_num [Finset.sum_range_succ])

/-- C13: with at least one sample, all labels `1`, uniform positive weights and
a program predicting `yp = 0` everywhere, the term of every sample before
weighting is `ln 2` and `logLoss` writes fitness `ln 2` to that program. -/
theorem logLoss_half_probability (d_progs : List (math_t ℝ)) (Y Y_pred W : List ℝ)
    (n_samples n_progs pid : Nat) (w : ℝ) (hn : 1 ≤ n_samples) (hpid : pid < n_progs)
    (hd : pid < d_progs.length) (hw : 0 < w)
    (hY : ∀ i, i < n_samples → Y.getD i 0 = 1)
    (hW : ∀ i, i < n_samples → W.getD i 0 = w)
    (hP : ∀ i, i < n_samples → Y_pred.getD (pid * n_samples + i) 0 = 0) :
    (∀ i, i < n_samples →
      logLossTerm Real.exp (fun x => Real.log (1 + x)) (Y.getD i 0)
        (Y_pred.getD (pid * n_samples + i) 0) = math_t.val (Real.log 2)) ∧
    (logLoss Real.exp (fun x => Real.log (1 + x)) d_progs n_samples n_progs Y Y_pred W)[pid]?
      = some (math_t.val (Real.log 2)) := by
  have hterm : (1 - (1 : ℝ)) * 0 - logsigSpec Real.exp (fun x => Real.log (1 + x)) 0
      = Real.log 2 := by
    rw [logsigSpec_real_points.2.2.1]
    ring
  have hN : (n_samples : ℝ) ≠ 0 := by
    have : 0 < n_samples := hn
    exact_mod_cast this.ne'
  have hsum : ∑ i in Finset.range n_samples, W.getD i 0 = n_samples * w := by
    rw [Finset.sum_congr rfl (fun i hi => hW i (Finset.mem_range.mp hi)), Finset.sum_const,
      Finset.card_range, nsmul_eq_mul]
  have hWS : (∑ i in Finset.range n_samples, W.getD i 0) ≠ 0 := by
    rw [hsum]
    exact mul_ne_zero hN hw.ne'
  constructor
  · intro i hi
    rw [logLossTerm_real, hY i hi, hP i hi, hterm]
  · rw [logLoss_real_getElem?_of_ne _ _ _ _ _ _ _ hpid hd hWS]
    congr 2
    rw [Finset.sum_congr rfl (fun i hi => by
      rw [hY i (Finset.mem_range.mp hi), hP i (Finset.mem_range.mp hi),
        hW i (Finset.mem_range.mp hi), hterm]), Finset.sum_const, Finset.card_range,
      nsmul_eq_mul, hsum]
    field_simp
    ring

/-- Witness for C13: three samples, labels `[1,1,1]`, weights `[2,2,2]`,
predictions `[0,0,0]`. -/
theorem logLoss_half_probability_witness :
    (logLoss Real.exp (fun x => Real.log (1 + x)) [math_t.val (7 : ℝ)] 3 1 [1, 1, 1]
      [0, 0, 0] [2, 2, 2])[0]? = some (math_t.val (Real.log 2)) :=
  (logLoss_half_probability [math_t.val (7 : ℝ)] [1, 1, 1] [0, 0, 0] [2, 2, 2] 3 1 0 2
    (by decide) (by decide) (by simp) (by norm_num)
    (by intro i hi; interval_cases i <;> simp)
    (by intro i hi; interval_cases i <;> simp)
    (by intro i hi; interval_cases i <;> simp)).2

/-- C14, as stated, fails: slot 34, the last of the 35 slots of
`precomputed_funcs`, has no initialiser and holds no implementation, whatever
the library functions are. -/
theorem precomputed_funcs_not_all_slots_filled :
    ¬ ∃ lib : libm ℝ, ∀ i, i < 35 → slotFilled lib i = true := by
  rintro ⟨lib, h⟩
  have h34 : slotFilled lib 34 = false := rfl
  rw [h 34 (by decide)] at h34
  cases h34

/-- C14, amended: the operator table is a registry of exactly 34 primitives, the
two terminals `variable` and `constant` (arity 0) and 32 operator tags, 9
binary and 23 unary; `precomputed_funcs` has 35 slots, of which the 34 slots
the tags select hold an implementation and the last one holds none. -/
theorem operator_table_has_34_primitives (lib : libm α) :
    (precomputed_funcs lib).length = 35 ∧
    (∀ i, i < 34 → slotFilled lib i = true) ∧
    slotFilled lib 34 = false ∧
    Fintype.card node.type = 34 ∧
    (∀ t : node.type, t.toInt < 34 ∧ slotFilled lib t.toInt = true) ∧
    (∀ t : node.type, is_terminal t = true ↔ arity t = 0) ∧
    (Finset.univ.filter (fun t : node.type => arity t = 0)).card = 2 ∧
    (Finset.univ.filter (fun t : node.type => arity t = 2)).card = 9 ∧
    (Finset.univ.filter (fun t : node.type => arity t = 1)).card = 23 := by
  refine ⟨rfl, ?_, rfl, by decide, ?_, by decide, by decide, by decide, by decide⟩
  · intro i hi
    interval_cases i <;> rfl
  · intro t
    cases t <;> exact ⟨by decide, rfl⟩

/-- C15: for all inputs `a` and `b`, evaluating a `div` node returns `1` if
`|b| < 0.001` and the quotient `a / b` otherwise; the result is always a number,
the division being taken only where `|b| ≥ 0.001`. -/
theorem evaluate_node_div (lib : libm α) (v : α) (fid : Nat) (data : List α)
    (stride idx : Nat) (a b : α) :
    evaluate_node lib { t := node.type.div, val := v, fid := fid } data stride idx [a, b]
      = some (math_t.val (if |b| < 0.001 then 1 else a / b)) := by
  have hdiv : evaluate_node lib { t := node.type.div, val := v, fid := fid } data stride idx
      [a, b] = some (if |b| < MIN_VAL then math_t.val 1 else math_t.val a / math_t.val b) := rfl
  rw [hdiv]
  by_cases h : |b| < (0.001 : α)
  · rw [if_pos h, MIN_VAL, if_pos h]
  · have hb : b ≠ 0 := by
      intro hb
      apply h
      rw [hb, abs_zero]
      norm_num
    rw [if_neg h, MIN_VAL, if_neg h, math_t.val_div_val_of_ne _ _ hb]

/-- C16: for every input `a`, evaluating an `inv` node returns `0` if
`|a| < 0.001` and `1 / a` otherwise, always a number; so reading `x = 0.0005`
through a `variable` node and taking `inv` of it yields the sentinel `0`. -/
theorem evaluate_node_inv (lib : libm α) (v : α) (fid : Nat) (data : List α)
    (stride idx : Nat) (a : α) :
    evaluate_node lib { t := node.type.inv, val := v, fid := fid } data stride idx [a]
      = some (math_t.val (if |a| < 0.001 then 0 else 1 / a)) ∧
    evaluate_node lib { t := node.type.variable, val := v, fid := 0 } [0.0005] 1 0 []
      = some (math_t.val 0.0005) ∧
    evaluate_node lib { t := node.type.inv, val := v, fid := fid } data stride idx [0.0005]
      = some (math_t.val 0) := by
  have hinv : ∀ x : α,
      evaluate_node lib { t := node.type.inv, val := v, fid := fid } data stride idx [x]
        = some (math_t.val (if |x| < 0.001 then 0 else 1 / x)) := by
    intro x
    have h0 : evaluate_node lib { t := node.type.inv, val := v, fid := fid } data stride idx
        [x] = some (if |x| < MIN_VAL then math_t.val 0 else math_t.val 1 / math_t.val x) := rfl
    rw [h0]
    by_cases h : |x| < (0.001 : α)
    · rw [if_pos h, MIN_VAL, if_pos h]
    · have hx : x ≠ 0 := by
        intro hx
        apply h
        rw [hx, abs_zero]
        norm_num
      rw [if_neg h, MIN_VAL, if_neg h, math_t.val_div_val_of_ne _ _ hx]
  refine ⟨hinv a, rfl, ?_⟩
  rw [hinv, if_pos]
  rw [abs_of_pos (by norm_num)]
  norm_num

/-- C17 at a failing input: `Y = [1,2,3]`, `W = [1,1,1]`, two programs
predicting `[1,2,3]` and `[3,2,1]`, `y_mu` entered as `0` in every call.  The
threads of the two programs share `rank_idx`, `Ysorted` and `rank_diff`: when
thread 1 runs `std::iota` and `std::sort` between the `std::inclusive_scan` and
the scatter loop of thread 0, thread 0 scatters its ranks `[1,2,3]` through the
permutation of program 1, `Ypredrank` of program 0 is `[3,2,1]`, and
`weightedSpearman` writes `-1` to program 0; on the batch made of row 0 alone it
writes `1`.  Apart from that, `weightedPearson` writes `1` to program 0 of a
batch when its uninitialised `y_mu` holds `0` on entry, and another value on the
batch made of row 0 alone when `y_mu` holds `1` on entry of that call. -/
theorem metrics_not_independent_across_programs :
    validSched 2
      [(0, 0), (0, 1), (0, 2), (0, 3), (0, 4), (0, 5), (0, 6), (1, 0), (1, 1), (0, 7),
       (1, 2), (1, 3), (1, 4), (1, 5), (1, 6), (1, 7)] = true ∧
    (weightedSpearman Real.sqrt insertionSortIdx (math_t.val 0)
        [math_t.val (7 : ℝ), math_t.val 7] 3 2 [1, 2, 3] ([1, 2, 3, 3, 2, 1] : List ℝ) [1, 1, 1]
        [(0, 0), (0, 1), (0, 2), (0, 3), (0, 4), (0, 5), (0, 6), (1, 0), (1, 1), (0, 7),
         (1, 2), (1, 3), (1, 4), (1, 5), (1, 6), (1, 7)])[0]?
      = some (math_t.val (-1 : ℝ)) ∧
    (weightedSpearman Real.sqrt insertionSortIdx (math_t.val 0) [math_t.val (7 : ℝ)] 3 1
        [1, 2, 3] ((([1, 2, 3, 3, 2, 1] : List ℝ).drop (0 * 3)).take 3) [1, 1, 1]
        (seqSched 1))[0]?
      = some (math_t.val (1 : ℝ)) ∧
    (weightedPearson Real.sqrt (math_t.val 0) [math_t.val (7 : ℝ), math_t.val 7] 3 2
        [0, 1, 1] ([0, 1, 1, 1, 0, 1] : List ℝ) [1, 1, 1])[0]?
      = some (math_t.val (1 : ℝ)) ∧
    (weightedPearson Real.sqrt (math_t.val 1) [math_t.val (7 : ℝ)] 3 1
        [0, 1, 1] ((([0, 1, 1, 1, 0, 1] : List ℝ).drop (0 * 3)).take 3) [1, 1, 1])[0]?
      ≠ some (math_t.val (1 : ℝ)) := by
  have hY : (rankY insertionSortIdx 3 ([1, 2, 3] : List ℝ)).ranks = [1, 2, 3] := by
    norm_num [rankY, rankPass, rankStep, insertionSortIdx, List.range_succ,
      updateLoop, scatterLoop, adjacent_difference, inclusive_scan, rank_functor,
      writeRange, List.replicate]
  have hrace : (rankPred insertionSortIdx 3 2 ([1, 2, 3, 3, 2, 1] : List ℝ)
      (rankY insertionSortIdx 3 ([1, 2, 3] : List ℝ))
      [(0, 0), (0, 1), (0, 2), (0, 3), (0, 4), (0, 5), (0, 6), (1, 0), (1, 1), (0, 7),
       (1, 2), (1, 3), (1, 4), (1, 5), (1, 6), (1, 7)]).ranks = [3, 2, 1, 3, 2, 1] := by
    norm_num [rankPred, rankY, rankPass, rankStep, insertionSortIdx, List.range_succ,
      updateLoop, scatterLoop, adjacent_difference, inclusive_scan, rank_functor,
      writeRange, List.replicate]
  have halone : (rankPred insertionSortIdx 3 1 ([1, 2, 3] : List ℝ)
      (rankY insertionSortIdx 3 ([1, 2, 3] : List ℝ)) (seqSched 1)).ranks = [1, 2, 3] := by
    norm_num [rankPred, rankY, rankPass, rankStep, seqSched, insertionSortIdx,
      List.range_succ, List.flatMap, updateLoop, scatterLoop, adjacent_difference,
      inclusive_scan, rank_functor, writeRange, List.replicate]
  have hW : ∀ i, i < 3 → 0 ≤ ([1, 1, 1] : List ℝ).getD i 0 := by
    intro i hi
    interval_cases i <;> simp
  refine ⟨by decide, ?_, ?_, ?_, ?_⟩
  · show (weightedPearson Real.sqrt (math_t.val 0) [math_t.val (7 : ℝ), math_t.val 7] 3 2
      (rankY insertionSortIdx 3 ([1, 2, 3] : List ℝ)).ranks
      (rankPred insertionSortIdx 3 2 ([1, 2, 3, 3, 2, 1] : List ℝ)
        (rankY insertionSortIdx 3 ([1, 2, 3] : List ℝ)) _).ranks [1, 1, 1])[0]? = _
    rw [hY, hrace, weightedPearson_init_zero_affine _ _ _ _ 3 2 0 (-1) 4 (by norm_num)
      (by decide) (by simp) hW (by norm_num [weightedMean, Finset.sum_range_succ])
      (by intro i hi; interval_cases i <;> norm_num)]
    norm_num
  · have hrow : ((([1, 2, 3, 3, 2, 1] : List ℝ).drop (0 * 3)).take 3) = [1, 2, 3] := by
      simp
    rw [hrow]
    show (weightedPearson Real.sqrt (math_t.val 0) [math_t.val (7 : ℝ)] 3 1
      (rankY insertionSortIdx 3 ([1, 2, 3] : List ℝ)).ranks
      (rankPred insertionSortIdx 3 1 ([1, 2, 3] : List ℝ)
        (rankY insertionSortIdx 3 ([1, 2, 3] : List ℝ)) _).ranks [1, 1, 1])[0]? = _
    rw [hY, halone, weightedPearson_init_zero_affine _ _ _ _ 3 1 0 1 0 (by norm_num)
      (by decide) (by simp) hW (by norm_num [weightedMean, Finset.sum_range_succ])
      (by intro i hi; interval_cases i <;> norm_num)]
    norm_num
  · rw [weightedPearson_init_zero_affine _ _ _ _ 3 2 0 1 0 (by norm_num)
      (by decide) (by simp) hW (by norm_num [weightedMean, Finset.sum_range_succ])
      (by intro i hi; interval_cases i <;> norm_num)]
    norm_num
  · have hrow : ((([0, 1, 1, 1, 0, 1] : List ℝ).drop (0 * 3)).take 3) = [0, 1, 1] := by
      simp
    rw [hrow, weightedPearson_getElem? _ _ _ _ _ _ _ _ _ (by decide) (by simp),
      pearsonCell_real_eq_val _ _ _ _ _ (by norm_num [Finset.sum_range_succ])
        (by norm_num [sqDev, Finset.sum_range_succ])
        (by norm_num [sqDev, Finset.sum_range_succ]),
      pearsonRow_eq_quotient _ _ _ _ _ _ (by decide)]
    intro h
    revert h
    rw [Option.some.injEq, math_t.val.injEq]
    apply quotient_of_sqrt_ne <;> norm_num [Finset.sum_range_succ]

/-- C18: in exact real arithmetic, for non-negative weights and a target and a
prediction row whose weighted standard deviations are both non-zero, the fitness
`weightedPearson` writes to the program is a number in `[-1, 1]`, whatever real
number the local `y_mu` holds on entry. -/
theorem weightedPearson_range (y_mu0 : ℝ) (d_progs : List (math_t ℝ)) (Y X W : List ℝ)
    (n_samples n_progs pid : Nat) (hpid : pid < n_progs) (hd : pid < d_progs.length)
    (hW : ∀ i, i < n_samples → 0 ≤ W.getD i 0)
    (hsy : weightedSigma Real.sqrt n_samples (fun i => Y.getD i 0) (fun i => W.getD i 0) ≠ 0)
    (hsx : weightedSigma Real.sqrt n_samples (fun i => X.getD (pid * n_samples + i) 0)
      (fun i => W.getD i 0) ≠ 0) :
    ∃ v : ℝ,
      (weightedPearson Real.sqrt (math_t.val y_mu0) d_progs n_samples n_progs Y X W)[pid]?
        = some (math_t.val v) ∧ -1 ≤ v ∧ v ≤ 1 := by
  obtain ⟨v, hv, hlo, hhi⟩ := pearsonCell_real_range y_mu0 n_samples (fun i => Y.getD i 0)
    (fun i => X.getD (pid * n_samples + i) 0) (fun i => W.getD i 0) hW hsy hsx
  exact ⟨v, by rw [weightedPearson_getElem? _ _ _ _ _ _ _ _ _ hpid hd, hv], hlo, hhi⟩

/-- Witness for C18: `Y = [0,1,1]`, predictions `[1,0,2]`, weights `[1,2,1]`,
with `y_mu` holding `5` on entry. -/
theorem weightedPearson_range_witness :
    ∃ v : ℝ,
      (weightedPearson Real.sqrt (math_t.val 5) [math_t.val (7 : ℝ)] 3 1 [0, 1, 1] [1, 0, 2]
        [1, 2, 1])[0]? = some (math_t.val v) ∧ -1 ≤ v ∧ v ≤ 1 :=
  weightedPearson_range 5 [math_t.val (7 : ℝ)] [0, 1, 1] [1, 0, 2] [1, 2, 1] 3 1 0
    (by decide) (by simp) (by intro i hi; interval_cases i <;> simp)
    (Real.sqrt_ne_zero'.mpr (by norm_num [weightedMean, Finset.sum_range_succ]))
    (Real.sqrt_ne_zero'.mpr (by norm_num [weightedMean, Finset.sum_range_succ]))

/-- C19: for labels in `{0, 1}` the factor `(1 - y) * yp - logsig yp` of every
sample is a non-negative number whichever of the four regions `yp` lies in, and
with non-negative weights of positive sum the fitness `logLoss` writes to a
program of the batch is a non-negative number. -/
theorem logLoss_nonneg (d_progs : List (math_t ℝ)) (Y Y_pred W : List ℝ)
    (n_samples n_progs pid : Nat) (hpid : pid < n_progs) (hd : pid < d_progs.length)
    (hY : ∀ i, i < n_samples → Y.getD i 0 = 0 ∨ Y.getD i 0 = 1)
    (hW : ∀ i, i < n_samples → 0 ≤ W.getD i 0)
    (hWS : 0 < ∑ i in Finset.range n_samples, W.getD i 0) :
    (∀ y yp : ℝ, y = 0 ∨ y = 1 →
      ∃ t : ℝ, logLossTerm Real.exp (fun x => Real.log (1 + x)) y yp = math_t.val t ∧ 0 ≤ t) ∧
    ∃ v : ℝ,
      (logLoss Real.exp (fun x => Real.log (1 + x)) d_progs n_samples n_progs Y Y_pred
        W)[pid]? = some (math_t.val v) ∧ 0 ≤ v := by
  constructor
  · intro y yp hy
    exact ⟨_, logLossTerm_real y yp, logLossTerm_real_nonneg y yp hy⟩
  · refine ⟨_, logLoss_real_getElem?_of_ne _ _ _ _ _ _ _ hpid hd hWS.ne', ?_⟩
    apply Finset.sum_nonneg
    intro i hi
    have hi' := Finset.mem_range.mp hi
    exact mul_nonneg (logLossTerm_real_nonneg _ _ (hY i hi'))
      (div_nonneg (hW i hi') hWS.le)

/-- Witness for C19: labels `[1,0,1,0]`, predictions `-40, -20, 0, 40`, unit
weights. -/
theorem logLoss_nonneg_witness :
    ∃ v : ℝ,
      (logLoss Real.exp (fun x => Real.log (1 + x)) [math_t.val (7 : ℝ)] 4 1 [1, 0, 1, 0]
        [-40, -20, 0, 40] [1, 1, 1, 1])[0]? = some (math_t.val v) ∧ 0 ≤ v :=
  (logLoss_nonneg [math_t.val (7 : ℝ)] [1, 0, 1, 0] [-40, -20, 0, 40] [1, 1, 1, 1] 4 1 0
    (by decide) (by simp) (by intro i hi; interval_cases i <;> simp)
    (by intro i hi; interval_cases i <;> simp)
    (by norm_num [Finset.sum_range_succ])).2

/-- C20 at a failing input: `Y = X = [0,1,1]`, `W = [1,1,1]`, `c = 2`, with the
uninitialised `y_mu` holding `1` on entry.  With `W` the code computes
`y_mu = (1 + 2) / 3 = 1` and writes `sqrt (2/3)`; with `2 * W` it computes
`y_mu = (1 + 4) / 6 = 5/6` and writes `sqrt (8/9)`: rescaling the weights
changes the fitness `weightedPearson` writes. -/
theorem weightedPearson_uninit_y_mu_rescaled_weights_differ :
    (weightedPearson Real.sqrt (math_t.val 1) [math_t.val (7 : ℝ)] 3 1 [0, 1, 1] [0, 1, 1]
        (([1, 1, 1] : List ℝ).map (fun w => 2 * w)))[0]?
      ≠ (weightedPearson Real.sqrt (math_t.val 1) [math_t.val (7 : ℝ)] 3 1 [0, 1, 1] [0, 1, 1]
          [1, 1, 1])[0]? := by
  rw [weightedPearson_getElem? _ _ _ _ _ _ _ _ _ (by decide) (by simp),
    weightedPearson_getElem? _ _ _ _ _ _ _ _ _ (by decide) (by simp),
    pearsonCell_real_eq_val _ _ _ _ _ (by norm_num [Finset.sum_range_succ])
      (by norm_num [sqDev, Finset.sum_range_succ])
      (by norm_num [sqDev, Finset.sum_range_succ]),
    pearsonCell_real_eq_val _ _ _ _ _ (by norm_num [Finset.sum_range_succ])
      (by norm_num [sqDev, Finset.sum_range_succ])
      (by norm_num [sqDev, Finset.sum_range_succ]),
    pearsonRow_eq_quotient _ _ _ _ _ _ (by decide),
    pearsonRow_eq_quotient _ _ _ _ _ _ (by decide)]
  intro h
  revert h
  rw [Option.some.injEq, math_t.val.injEq]
  apply quotients_of_sqrt_ne <;> norm_num [Finset.sum_range_succ]

end genetic
